import Mathlib

/-!
# QuadTree: a shallow embedding of `include/QuadTree.hpp`

Coordinates (`double` in the source) are modelled as exact rationals.
A value of `QuadNode` models a `QuadNode*`: either `nullptr` or an owned node
with its boundary, four child pointers (NE, NW, SE, SW), bucket and depth.
Every function that dereferences a pointer returns `none` on `nullptr`
(undefined behaviour in the source).  The tree parameters `maxDepth` and
`maxChildren` (`size_t` in the source, set from non-negative `int`s) are
natural numbers.
-/

namespace QT

/-- The enum class `Quadrant`; the numeric value is the child index. -/
inductive Quadrant
  | NE
  | NW
  | SE
  | SW
  deriving DecidableEq, Repr

/-- The struct `Point2D`. -/
structure Point2D where
  x : ℚ
  y : ℚ
  deriving DecidableEq, Repr

/-- The constant `EPSILON = 1e-9` of `Point2D::operator==`. -/
def EPSILON : ℚ := 1 / 1000000000

/-- The tolerance equality `Point2D::operator==`. -/
def Point2D.opEq (a other : Point2D) : Bool :=
  decide (|a.x - other.x| < EPSILON) && decide (|a.y - other.y| < EPSILON)

/-- The negation `Point2D::operator!=`. -/
def Point2D.opNe (a other : Point2D) : Bool :=
  !(a.opEq other)

/-- The ordering `Point2D::operator<`. -/
def Point2D.opLt (a other : Point2D) : Bool :=
  if a.x = other.x then decide (a.y < other.y) else decide (a.x < other.x)

/-- The struct `Box`: a center with full width and height. -/
structure Box where
  center : Point2D
  width : ℚ
  height : ℚ
  deriving DecidableEq, Repr

/-- The constructor `Box(x, y, width, height)`. -/
def Box.new (x y width height : ℚ) : Box :=
  ⟨⟨x, y⟩, width, height⟩

/-- The overload `Box::GetQuadrant(const Box&)`. -/
def Box.GetQuadrantBox (b otherBox : Box) : Quadrant :=
  let right := decide (otherBox.center.x ≥ b.center.x)
  let top := decide (otherBox.center.y ≥ b.center.y)
  if right && top then Quadrant.NE
  else if !right && top then Quadrant.NW
  else if right && !top then Quadrant.SE
  else Quadrant.SW

/-- The overload `Box::GetQuadrant(const Point2D&)`. -/
def Box.GetQuadrant (b : Box) (point : Point2D) : Quadrant :=
  if point.x ≥ b.center.x ∧ point.y ≥ b.center.y then Quadrant.NE
  else if point.x < b.center.x ∧ point.y ≥ b.center.y then Quadrant.NW
  else if point.x ≥ b.center.x ∧ point.y < b.center.y then Quadrant.SE
  else Quadrant.SW

/-- The method `Box::Contains`. -/
def Box.Contains (b : Box) (point : Point2D) : Bool :=
  decide (point.x ≥ b.center.x - b.width / 2 ∧ point.x ≤ b.center.x + b.width / 2 ∧
    point.y ≥ b.center.y - b.height / 2 ∧ point.y ≤ b.center.y + b.height / 2)

/-- The method `Box::GetTopLeft`. -/
def Box.GetTopLeft (b : Box) : Point2D :=
  ⟨b.center.x - b.width / 2, b.center.y + b.height / 2⟩

/-- The method `Box::GetBottomRight`. -/
def Box.GetBottomRight (b : Box) : Point2D :=
  ⟨b.center.x + b.width / 2, b.center.y - b.height / 2⟩

/-- The method `Box::Intersection`. -/
def Box.Intersection (b box : Box) : Bool :=
  let tl := b.GetTopLeft
  let br := b.GetBottomRight
  !(decide (box.GetTopLeft.x > br.x) || decide (box.GetBottomRight.x < tl.x) ||
    decide (box.GetTopLeft.y < br.y) || decide (box.GetBottomRight.y > tl.y))

/-- A `QuadNode*`: `null` is `nullptr`, `node` an owned `QuadNode` with the
fields `boundary`, `children[0..3]`, `points`, `depth` in the source order. -/
inductive QuadNode
  | null
  | node (boundary : Box) (c0 c1 c2 c3 : QuadNode) (points : List Point2D) (depth : Nat)
  deriving DecidableEq, Repr

/-- The constructor `QuadNode(Box&&, depth)`: no children, empty bucket. -/
def QuadNode.new (box : Box) (depth : Nat) : QuadNode :=
  .node box .null .null .null .null [] depth

/-- The read `node->children[static_cast<int>(quadrant)]`. -/
def QuadNode.child : QuadNode → Quadrant → QuadNode
  | .null, _ => .null
  | .node _ c0 _ _ _ _ _, .NE => c0
  | .node _ _ c1 _ _ _ _, .NW => c1
  | .node _ _ _ c2 _ _ _, .SE => c2
  | .node _ _ _ _ c3 _ _, .SW => c3

/-- The node after the callee has mutated the child in slot `quadrant`. -/
def QuadNode.setChild : QuadNode → Quadrant → QuadNode → QuadNode
  | .null, _, _ => .null
  | .node b _ c1 c2 c3 pts d, .NE, c => .node b c c1 c2 c3 pts d
  | .node b c0 _ c2 c3 pts d, .NW, c => .node b c0 c c2 c3 pts d
  | .node b c0 c1 _ c3 pts d, .SE, c => .node b c0 c1 c c3 pts d
  | .node b c0 c1 c2 _ pts d, .SW, c => .node b c0 c1 c2 c pts d

/-- Number of nodes below a pointer (used only as a recursion measure). -/
def QuadNode.size : QuadNode → Nat
  | .null => 0
  | .node _ c0 c1 c2 c3 _ _ => 1 + c0.size + c1.size + c2.size + c3.size

/-- The field `depth` (0 for `nullptr`; used only in the recursion measure). -/
def QuadNode.depthOf : QuadNode → Nat
  | .null => 0
  | .node _ _ _ _ _ _ d => d

/-- The method `QuadNode::IsLeaf`: `children[0] == nullptr`. -/
def QuadNode.IsLeaf : QuadNode → Option Bool
  | .null => none
  | .node _ c0 _ _ _ _ _ => some (decide (c0 = .null))

/-- The method `QuadNode::split`; the failing `assert(IsLeaf())` is `none`. -/
def QuadNode.split : QuadNode → Option QuadNode
  | .null => none
  | .node b c0 _ _ _ pts d =>
    if c0 = .null then
      let halfWidth := b.width / 2
      let halfHeight := b.height / 2
      let cx := b.center.x
      let cy := b.center.y
      some (.node b
        (QuadNode.new (Box.new (cx + halfWidth / 2) (cy + halfHeight / 2) halfWidth halfHeight) (d + 1))
        (QuadNode.new (Box.new (cx - halfWidth / 2) (cy + halfHeight / 2) halfWidth halfHeight) (d + 1))
        (QuadNode.new (Box.new (cx + halfWidth / 2) (cy - halfHeight / 2) halfWidth halfHeight) (d + 1))
        (QuadNode.new (Box.new (cx - halfWidth / 2) (cy - halfHeight / 2) halfWidth halfHeight) (d + 1))
        pts d)
    else none

/-- The first loop of `QuadNode::TryMerge` over the remaining children:
`none` is a null dereference, `some none` the early `return false`,
`some (some total)` the accumulated `totalPoints`. -/
def QuadNode.TryMerge.count : List QuadNode → Nat → Option (Option Nat)
  | [], totalPoints => some (some totalPoints)
  | .null :: _, _ => none
  | .node _ k0 _ _ _ pts _ :: rest, totalPoints =>
    if k0 ≠ .null then some none
    else QuadNode.TryMerge.count rest (totalPoints + pts.length)

/-- The bucket `children[i]->points` read by the second loop of `TryMerge`. -/
def QuadNode.pointsOf : QuadNode → List Point2D
  | .null => []
  | .node _ _ _ _ _ pts _ => pts

/-- The method `QuadNode::TryMerge`: the node afterwards and the returned flag. -/
def QuadNode.TryMerge : QuadNode → Nat → Option (QuadNode × Bool)
  | .null, _ => none
  | .node b c0 c1 c2 c3 pts d, maxChildren =>
    if c0 = .null then some (.node b c0 c1 c2 c3 pts d, false)
    else
      match QuadNode.TryMerge.count [c0, c1, c2, c3] 0 with
      | none => none
      | some none => some (.node b c0 c1 c2 c3 pts d, false)
      | some (some totalPoints) =>
        if totalPoints > maxChildren then some (.node b c0 c1 c2 c3 pts d, false)
        else
          some (.node b .null .null .null .null
            (pts ++ c0.pointsOf ++ c1.pointsOf ++ c2.pointsOf ++ c3.pointsOf) d, true)

/-- The recursive `QuadTree::Insert(QuadNode*, const Point2D&)`, returning the
node after the call. -/
def QuadNode.Insert (maxDepth maxChildren : Nat) (node : QuadNode) (point : Point2D) :
    Option QuadNode :=
  match node with
  | .null => none
  | .node b c0 c1 c2 c3 pts d =>
    if !b.Contains point then some (.node b c0 c1 c2 c3 pts d)
    else if pts.length < maxChildren ∧ d ≤ maxDepth then
      match hs : (if c0 = .null then (QuadNode.node b c0 c1 c2 c3 pts d).split
          else some (.node b c0 c1 c2 c3 pts d)) with
      | none => none
      | some node1 =>
        let quadrant := b.GetQuadrant point
        match QuadNode.Insert maxDepth maxChildren (node1.child quadrant) point with
        | none => none
        | some c => some (node1.setChild quadrant c)
    else some (.node b c0 c1 c2 c3 (pts ++ [point]) d)
termination_by node.size * (maxDepth + 2) + (maxDepth + 1 - node.depthOf)
decreasing_by
  rename_i b c0 c1 c2 c3 pts d _ hd
  by_cases h0 : c0 = QuadNode.null
  · subst h0
    simp [QuadNode.split] at hs
    subst hs
    have e3 : (QuadNode.node b QuadNode.null c1 c2 c3 pts d).size ≥ 1 := by
      simp [QuadNode.size]; omega
    have h1 : 1 * (maxDepth + 2) ≤
        (QuadNode.node b QuadNode.null c1 c2 c3 pts d).size * (maxDepth + 2) :=
      Nat.mul_le_mul_right _ e3
    generalize (QuadNode.node b QuadNode.null c1 c2 c3 pts d).size * (maxDepth + 2) = m at h1 ⊢
    cases b.GetQuadrant point <;>
      simp [QuadNode.child, QuadNode.new, QuadNode.size, QuadNode.depthOf] <;> omega
  · simp [h0] at hs
    subst hs
    have e1 : ((QuadNode.node b c0 c1 c2 c3 pts d).child (b.GetQuadrant point)).size
        < (QuadNode.node b c0 c1 c2 c3 pts d).size := by
      cases b.GetQuadrant point <;> simp [QuadNode.child, QuadNode.size] <;> omega
    have h1 : (((QuadNode.node b c0 c1 c2 c3 pts d).child (b.GetQuadrant point)).size + 1)
        * (maxDepth + 2) ≤ (QuadNode.node b c0 c1 c2 c3 pts d).size * (maxDepth + 2) :=
      Nat.mul_le_mul_right _ e1
    rw [Nat.add_mul] at h1
    omega

/-- The recursive `QuadTree::Search(QuadNode*, Box&, std::vector<Point2D>&)`,
returning the vector `values` after the call. -/
def QuadNode.Search : QuadNode → Box → List Point2D → Option (List Point2D)
  | .null, _, _ => none
  | .node b c0 c1 c2 c3 pts _, range, values =>
    if !b.Intersection range then some values
    else if c0 = .null then
      some (values ++ pts.filter (fun point => range.Contains point))
    else
      match QuadNode.Search c0 range values with
      | none => none
      | some v0 =>
        match QuadNode.Search c1 range v0 with
        | none => none
        | some v1 =>
          match QuadNode.Search c2 range v1 with
          | none => none
          | some v2 => QuadNode.Search c3 range v2

/-- The pair `std::find` and `erase` of the leaf case of `Remove`: the bucket
without its first element that `operator==` equates with `point`, or `none`
when `find` returns `end()`. -/
def eraseFirst (point : Point2D) : List Point2D → Option (List Point2D)
  | [] => none
  | q :: rest =>
    if q.opEq point then some rest
    else
      match eraseFirst point rest with
      | none => none
      | some rest1 => some (q :: rest1)

/-- The recursive `QuadTree::Remove(QuadNode*, const Point2D&)`: the node
afterwards and the returned flag. -/
def QuadNode.Remove (maxChildren : Nat) : QuadNode → Point2D → Option (QuadNode × Bool)
  | .null, _ => none
  | .node b c0 c1 c2 c3 pts d, point =>
    if !b.Contains point then some (.node b c0 c1 c2 c3 pts d, false)
    else if c0 = .null then
      match eraseFirst point pts with
      | some pts1 => some (.node b c0 c1 c2 c3 pts1 d, true)
      | none => some (.node b c0 c1 c2 c3 pts d, false)
    else
      match b.GetQuadrant point with
      | .NE =>
        match QuadNode.Remove maxChildren c0 point with
        | none => none
        | some (k, removed) =>
          if removed then
            match (QuadNode.node b k c1 c2 c3 pts d).TryMerge maxChildren with
            | none => none
            | some (node1, _) => some (node1, removed)
          else some (.node b k c1 c2 c3 pts d, removed)
      | .NW =>
        match QuadNode.Remove maxChildren c1 point with
        | none => none
        | some (k, removed) =>
          if removed then
            match (QuadNode.node b c0 k c2 c3 pts d).TryMerge maxChildren with
            | none => none
            | some (node1, _) => some (node1, removed)
          else some (.node b c0 k c2 c3 pts d, removed)
      | .SE =>
        match QuadNode.Remove maxChildren c2 point with
        | none => none
        | some (k, removed) =>
          if removed then
            match (QuadNode.node b c0 c1 k c3 pts d).TryMerge maxChildren with
            | none => none
            | some (node1, _) => some (node1, removed)
          else some (.node b c0 c1 k c3 pts d, removed)
      | .SW =>
        match QuadNode.Remove maxChildren c3 point with
        | none => none
        | some (k, removed) =>
          if removed then
            match (QuadNode.node b c0 c1 c2 k pts d).TryMerge maxChildren with
            | none => none
            | some (node1, _) => some (node1, removed)
          else some (.node b c0 c1 c2 k pts d, removed)

/-- The class `QuadTree`: the root pointer and the two parameters. -/
structure QuadTree where
  root : QuadNode
  maxDepth : Nat
  maxChildren : Nat
  deriving DecidableEq, Repr

/-- The constructor `QuadTree(x, y, width, height, maxDepth, maxChildren)`. -/
def QuadTree.new (x y width height : ℚ) (maxDepth maxChildren : Nat) : QuadTree :=
  ⟨QuadNode.new (Box.new x y width height) 0, maxDepth, maxChildren⟩

/-- The constructor `QuadTree(width, height, maxDepth, maxChildren)`. -/
def QuadTree.newOrigin (width height : ℚ) (maxDepth maxChildren : Nat) : QuadTree :=
  ⟨QuadNode.new (Box.new 0 0 width height) 0, maxDepth, maxChildren⟩

/-- The public `QuadTree::Insert(const Point2D&)`. -/
def QuadTree.Insert (t : QuadTree) (point : Point2D) : Option QuadTree :=
  match t.root.Insert t.maxDepth t.maxChildren point with
  | none => none
  | some r => some { t with root := r }

/-- The public `QuadTree::Search(Box&, std::vector<Point2D>&)`. -/
def QuadTree.Search (t : QuadTree) (range : Box) (values : List Point2D) :
    Option (List Point2D) :=
  t.root.Search range values

/-- The public `QuadTree::Remove(const Point2D&)`; the flag of the recursive
call is dropped. -/
def QuadTree.Remove (t : QuadTree) (point : Point2D) : Option QuadTree :=
  match t.root.Remove t.maxChildren point with
  | none => none
  | some (r, _) => some { t with root := r }

/-- The public `QuadTree::Insert(const std::vector<Point2D>&)`. -/
def QuadTree.InsertAll (t : QuadTree) : List Point2D → Option QuadTree
  | [] => some t
  | point :: rest =>
    match t.Insert point with
    | none => none
    | some t1 => QuadTree.InsertAll t1 rest

/-- The public `QuadTree::Remove(const std::vector<Point2D>&)`. -/
def QuadTree.RemoveAll (t : QuadTree) : List Point2D → Option QuadTree
  | [] => some t
  | point :: rest =>
    match t.Remove point with
    | none => none
    | some t1 => QuadTree.RemoveAll t1 rest

/-- The public `QuadTree::Remove(Box&)`: search, then remove each found point. -/
def QuadTree.RemoveBox (t : QuadTree) (range : Box) : Option QuadTree :=
  match t.Search range [] with
  | none => none
  | some points => t.RemoveAll points

/-- The public `QuadTree::Clear`. -/
def QuadTree.Clear (t : QuadTree) : Option QuadTree :=
  match t.root with
  | .null => none
  | .node b _ _ _ _ _ _ =>
    some { t with root := QuadNode.new (Box.new 0 0 b.width b.height) 0 }

/-- The tree states reachable from a constructor by `Insert`, `Remove` and
`Clear` calls. -/
inductive Reachable : QuadTree → Prop
  | new (x y width height : ℚ) (maxDepth maxChildren : Nat) :
      Reachable (QuadTree.new x y width height maxDepth maxChildren)
  | insert (t t1 : QuadTree) (point : Point2D) :
      Reachable t → t.Insert point = some t1 → Reachable t1
  | remove (t t1 : QuadTree) (point : Point2D) :
      Reachable t → t.Remove point = some t1 → Reachable t1
  | clear (t t1 : QuadTree) :
      Reachable t → t.Clear = some t1 → Reachable t1

/-! ## Proof-side definitions -/

/-- Every point stored below a pointer, own bucket first, then the children
in the order NE, NW, SE, SW. -/
def QuadNode.allPoints : QuadNode → List Point2D
  | .null => []
  | .node _ c0 c1 c2 c3 pts _ =>
    pts ++ (c0.allPoints ++ (c1.allPoints ++ (c2.allPoints ++ c3.allPoints)))

/-- The points held in the buckets of the leaves, in traversal order. -/
def QuadNode.leafPoints : QuadNode → List Point2D
  | .null => []
  | .node _ c0 c1 c2 c3 pts _ =>
    if c0 = .null then pts
    else c0.leafPoints ++ (c1.leafPoints ++ (c2.leafPoints ++ c3.leafPoints))

/-- The field `boundary` behind a pointer. -/
def QuadNode.boundaryOf : QuadNode → Option Box
  | .null => none
  | .node b _ _ _ _ _ _ => some b

/-- The boundary that `split` gives the child in slot `q`. -/
def Box.quadrantBox (b : Box) : Quadrant → Box
  | .NE => Box.new (b.center.x + b.width / 2 / 2) (b.center.y + b.height / 2 / 2)
      (b.width / 2) (b.height / 2)
  | .NW => Box.new (b.center.x - b.width / 2 / 2) (b.center.y + b.height / 2 / 2)
      (b.width / 2) (b.height / 2)
  | .SE => Box.new (b.center.x + b.width / 2 / 2) (b.center.y - b.height / 2 / 2)
      (b.width / 2) (b.height / 2)
  | .SW => Box.new (b.center.x - b.width / 2 / 2) (b.center.y - b.height / 2 / 2)
      (b.width / 2) (b.height / 2)

/-- The pointer is not null and its node has the given boundary and depth. -/
def QuadNode.Framed : QuadNode → Box → Nat → Prop
  | .null, _, _ => False
  | .node b _ _ _ _ _ d, box, depth => b = box ∧ d = depth

/-- The structural invariant of the nodes of a reachable tree: every point
below a node lies in its boundary; a node has no child or four children; an
interior node passed the split test of `Insert` and its children carry the
boundaries and the depth that `split` assigns. -/
def QuadNode.Inv (maxDepth maxChildren : Nat) : QuadNode → Prop
  | .null => False
  | .node b c0 c1 c2 c3 pts d =>
    (∀ p ∈ (QuadNode.node b c0 c1 c2 c3 pts d).allPoints, b.Contains p = true) ∧
    ((c0 = .null ∧ c1 = .null ∧ c2 = .null ∧ c3 = .null) ∨
      (pts.length < maxChildren ∧ d ≤ maxDepth ∧
        c0.Framed (b.quadrantBox .NE) (d + 1) ∧ c1.Framed (b.quadrantBox .NW) (d + 1) ∧
        c2.Framed (b.quadrantBox .SE) (d + 1) ∧ c3.Framed (b.quadrantBox .SW) (d + 1) ∧
        c0.Inv maxDepth maxChildren ∧ c1.Inv maxDepth maxChildren ∧
        c2.Inv maxDepth maxChildren ∧ c3.Inv maxDepth maxChildren))

/-- The recursion measure of `Insert`. -/
def QuadNode.mu (md : Nat) (n : QuadNode) : Nat :=
  n.size * (md + 2) + (md + 1 - n.depthOf)

/-- What one `Insert` of a contained point does to a node: proof-side relation. -/
def QuadNode.Inserted (md mc : Nat) (p : Point2D) (n n1 : QuadNode) : Prop :=
  n1.Inv md mc ∧ (∀ box d, n.Framed box d → n1.Framed box d) ∧
    List.Perm n1.allPoints (p :: n.allPoints) ∧ p ∈ n1.leafPoints

/-- The node that `split` makes of the leaf with the given boundary, bucket
and depth. -/
def QuadNode.splitOf (b : Box) (pts : List Point2D) (d : Nat) : QuadNode :=
  .node b (QuadNode.new (b.quadrantBox .NE) (d + 1)) (QuadNode.new (b.quadrantBox .NW) (d + 1))
    (QuadNode.new (b.quadrantBox .SE) (d + 1)) (QuadNode.new (b.quadrantBox .SW) (d + 1)) pts d

/-- What one recursive `Remove` does to a node: proof-side relation. -/
def QuadNode.Removed (md mc : Nat) (p : Point2D) (n n1 : QuadNode) (f : Bool) : Prop :=
  n1.Inv md mc ∧ (∀ box d, n.Framed box d → n1.Framed box d) ∧
    (f = false → n1 = n) ∧
    (f = true → ∃ x, x.opEq p = true ∧ List.Perm n.allPoints (x :: n1.allPoints))

/-- Every interior node has an empty bucket and every point below the child
in slot `q` is classified into `q` by `GetQuadrant`: the shape that insertions
into a fresh tree build and that `Remove` keeps. -/
def QuadNode.Tidy : QuadNode → Prop
  | .null => True
  | .node b c0 c1 c2 c3 pts _ =>
    c0 = .null ∨
      (pts = [] ∧
        (∀ x ∈ c0.allPoints, b.GetQuadrant x = .NE) ∧ (∀ x ∈ c1.allPoints, b.GetQuadrant x = .NW) ∧
        (∀ x ∈ c2.allPoints, b.GetQuadrant x = .SE) ∧ (∀ x ∈ c3.allPoints, b.GetQuadrant x = .SW) ∧
        c0.Tidy ∧ c1.Tidy ∧ c2.Tidy ∧ c3.Tidy)

/-- No leaf with a non-empty bucket passes the split test of `Insert`: the
shape of a tree built by insertions only. -/
def QuadNode.Fresh (md mc : Nat) : QuadNode → Prop
  | .null => True
  | .node _ c0 c1 c2 c3 pts d =>
    (c0 = .null ∧ (pts = [] ∨ ¬ (pts.length < mc ∧ d ≤ md))) ∨
      (c0 ≠ .null ∧ c0.Fresh md mc ∧ c1.Fresh md mc ∧ c2.Fresh md mc ∧ c3.Fresh md mc)

/-- The shape of a tree built by `Insert` calls only and the points it stores. -/
def QuadTree.Built (t : QuadTree) (L : List Point2D) : Prop :=
  t.root.Inv t.maxDepth t.maxChildren ∧ t.root.Tidy ∧ t.root.Fresh t.maxDepth t.maxChildren ∧
    List.Perm t.root.allPoints L

/-- The four points that the demo driver inserts. -/
def demoPoints : List Point2D := [⟨-10, -10⟩, ⟨10, 10⟩, ⟨-10, 10⟩, ⟨10, -10⟩]

/-- The state that `Insert(10,10)`, `Insert(20,20)`, `Remove(10,10)`,
`Insert(30,30)` reach on `QuadTree(0, 0, 100, 100, 0, 2)`: the root is interior
and its own bucket still holds (20, 20). -/
def hiddenTree : QuadTree :=
  ⟨.node (Box.new 0 0 100 100)
    (.node (Box.new 25 25 50 50) .null .null .null .null [⟨30, 30⟩] 1)
    (QuadNode.new (Box.new (-25) 25 50 50) 1)
    (QuadNode.new (Box.new 25 (-25) 50 50) 1)
    (QuadNode.new (Box.new (-25) (-25) 50 50) 1) [⟨20, 20⟩] 0, 0, 2⟩

/-- The quadrants that `GetQuadrant` chooses for `p` on a descent of `k`
splits that starts at the boundary `b`. -/
def Box.path (b : Box) (p : Point2D) : Nat → List Quadrant
  | 0 => []
  | k + 1 => b.GetQuadrant p :: (b.quadrantBox (b.GetQuadrant p)).path p k

/-- The number of splits on the way of an `Insert` into an empty leaf at
depth `d`: none when `maxChildren` is 0, else one per depth up to `maxDepth`. -/
def splitLevels (md mc d : Nat) : Nat :=
  if mc = 0 then 0 else md + 1 - d

/-- Every node below a pointer, the node itself first. -/
def QuadNode.nodes : QuadNode → List QuadNode
  | .null => []
  | .node b c0 c1 c2 c3 pts d =>
    .node b c0 c1 c2 c3 pts d :: (c0.nodes ++ (c1.nodes ++ (c2.nodes ++ c3.nodes)))

/-- Every bucket that holds a point belongs to a leaf deeper than `maxDepth`. -/
def QuadNode.Deep (md : Nat) : QuadNode → Prop
  | .null => True
  | .node _ c0 c1 c2 c3 pts d =>
    (pts = [] ∨ (c0 = .null ∧ md < d)) ∧ c0.Deep md ∧ c1.Deep md ∧ c2.Deep md ∧ c3.Deep md

/-- The relation between a tree before and after an operation: wherever a
node is interior before and after, its bucket is the same and so are,
recursively, its four children. -/
def QuadNode.Stable : QuadNode → QuadNode → Prop
  | .null, _ => True
  | .node _ _ _ _ _ _ _, .null => True
  | .node _ c0 c1 c2 c3 pts _, .node _ k0 k1 k2 k3 pts1 _ =>
    c0 = .null ∨ k0 = .null ∨
      (pts1 = pts ∧ QuadNode.Stable c0 k0 ∧ QuadNode.Stable c1 k1 ∧ QuadNode.Stable c2 k2 ∧
        QuadNode.Stable c3 k3)

/-- The tree `QuadTree(0, 0, 100, 100, 0, 4)` after `Insert(10, 10)` and
`Insert(10 + 5e-10, 10)`: both points are in the bucket of the NE child. -/
def nearTree : QuadTree :=
  ⟨.node (Box.new 0 0 100 100)
    (.node (Box.new 25 25 50 50) .null .null .null .null
      [⟨10, 10⟩, ⟨10 + 5 / 10000000000, 10⟩] 1)
    (QuadNode.new (Box.new (-25) 25 50 50) 1)
    (QuadNode.new (Box.new 25 (-25) 50 50) 1)
    (QuadNode.new (Box.new (-25) (-25) 50 50) 1) [] 0, 0, 4⟩

/-- The tree `nearTree` after `Remove(10 + 5e-10, 10)`: (10, 10) was erased and
the root merged. -/
def nearTreeAfter : QuadTree :=
  ⟨.node (Box.new 0 0 100 100) .null .null .null .null [⟨10 + 5 / 10000000000, 10⟩] 0, 0, 4⟩

/-! ## The operations in `double` arithmetic

The definitions above compute with exact rationals. The definitions below
repeat the operations that do arithmetic on coordinates with every sum,
difference and quotient rounded to the nearest IEEE-754 binary64 value, the
arithmetic of the type `double` of the source where every operation is
evaluated in binary64; comparisons are exact in both. A `double` is
represented by the rational it denotes; infinities, NaN and subnormal numbers
are not modelled. -/

/-- Floor of the binary logarithm by repeated halving; the first argument is
fuel and `ilog2 n n` is `Nat.log2 n`. -/
def ilog2 : Nat → Nat → Nat
  | 0, _ => 0
  | fuel + 1, n => if n ≥ 2 then ilog2 fuel (n / 2) + 1 else 0

/-- The binary exponent of the positive rational `n / d`: the integer `e` with
`2 ^ e <= n / d < 2 ^ (e + 1)`. -/
def binExp (n d : Nat) : ℤ :=
  let k : ℤ := (ilog2 n n : ℤ) - (ilog2 d d : ℤ)
  if d * 2 ^ k.toNat ≤ n * 2 ^ (-k).toNat then k else k - 1

/-- The integer nearest to `N / D`, the even one of the two in a tie. -/
def roundHalfEven (N D : Nat) : Nat :=
  let f := N / D
  let r := N % D
  if 2 * r < D then f else if D < 2 * r then f + 1 else if f % 2 = 0 then f else f + 1

/-- The IEEE-754 binary64 value nearest to a rational, ties to even, for
rationals in the normal range of `double` (no overflow, no subnormals): with
`2 ^ e <= |q| < 2 ^ (e + 1)` the result is the multiple of `2 ^ (e - 52)`
nearest to `q`, so its significand has 53 bits. -/
def roundDouble (q : ℚ) : ℚ :=
  let n := q.num.natAbs
  let d := q.den
  if n = 0 then 0 else
    let e := binExp n d
    let m := roundHalfEven (n * 2 ^ (52 - e).toNat) (d * 2 ^ (e - 52).toNat)
    let v : ℚ := ((m * 2 ^ (e - 52).toNat : ℕ) : ℚ) / ((2 ^ (52 - e).toNat : ℕ) : ℚ)
    if q < 0 then -v else v

/-- The `double` sum `a + b`. -/
def dadd (a b : ℚ) : ℚ := roundDouble (a + b)

/-- The `double` difference `a - b`. -/
def dsub (a b : ℚ) : ℚ := roundDouble (a - b)

/-- The `double` quotient `a / b`. -/
def ddiv (a b : ℚ) : ℚ := roundDouble (a / b)

/-- The method `Box::Contains` in `double` arithmetic. -/
def Box.ContainsD (b : Box) (point : Point2D) : Bool :=
  decide (point.x ≥ dsub b.center.x (ddiv b.width 2) ∧
    point.x ≤ dadd b.center.x (ddiv b.width 2) ∧
    point.y ≥ dsub b.center.y (ddiv b.height 2) ∧
    point.y ≤ dadd b.center.y (ddiv b.height 2))

/-- The method `QuadNode::split` in `double` arithmetic. -/
def QuadNode.splitD : QuadNode → Option QuadNode
  | .null => none
  | .node b c0 _ _ _ pts d =>
    if c0 = .null then
      let halfWidth := ddiv b.width 2
      let halfHeight := ddiv b.height 2
      let cx := b.center.x
      let cy := b.center.y
      some (.node b
        (QuadNode.new (Box.new (dadd cx (ddiv halfWidth 2)) (dadd cy (ddiv halfHeight 2))
          halfWidth halfHeight) (d + 1))
        (QuadNode.new (Box.new (dsub cx (ddiv halfWidth 2)) (dadd cy (ddiv halfHeight 2))
          halfWidth halfHeight) (d + 1))
        (QuadNode.new (Box.new (dadd cx (ddiv halfWidth 2)) (dsub cy (ddiv halfHeight 2))
          halfWidth halfHeight) (d + 1))
        (QuadNode.new (Box.new (dsub cx (ddiv halfWidth 2)) (dsub cy (ddiv halfHeight 2))
          halfWidth halfHeight) (d + 1))
        pts d)
    else none

/-- The recursive `QuadTree::Insert(QuadNode*, const Point2D&)` in `double`
arithmetic. -/
def QuadNode.InsertD (maxDepth maxChildren : Nat) (node : QuadNode) (point : Point2D) :
    Option QuadNode :=
  match node with
  | .null => none
  | .node b c0 c1 c2 c3 pts d =>
    if !b.ContainsD point then some (.node b c0 c1 c2 c3 pts d)
    else if pts.length < maxChildren ∧ d ≤ maxDepth then
      match hs : (if c0 = .null then (QuadNode.node b c0 c1 c2 c3 pts d).splitD
          else some (.node b c0 c1 c2 c3 pts d)) with
      | none => none
      | some node1 =>
        let quadrant := b.GetQuadrant point
        match QuadNode.InsertD maxDepth maxChildren (node1.child quadrant) point with
        | none => none
        | some c => some (node1.setChild quadrant c)
    else some (.node b c0 c1 c2 c3 (pts ++ [point]) d)
termination_by node.size * (maxDepth + 2) + (maxDepth + 1 - node.depthOf)
decreasing_by
  rename_i b c0 c1 c2 c3 pts d _ hd
  by_cases h0 : c0 = QuadNode.null
  · subst h0
    simp [QuadNode.splitD] at hs
    subst hs
    have e3 : (QuadNode.node b QuadNode.null c1 c2 c3 pts d).size ≥ 1 := by
      simp [QuadNode.size]; omega
    have h1 : 1 * (maxDepth + 2) ≤
        (QuadNode.node b QuadNode.null c1 c2 c3 pts d).size * (maxDepth + 2) :=
      Nat.mul_le_mul_right _ e3
    generalize (QuadNode.node b QuadNode.null c1 c2 c3 pts d).size * (maxDepth + 2) = m at h1 ⊢
    cases b.GetQuadrant point <;>
      simp [QuadNode.child, QuadNode.new, QuadNode.size, QuadNode.depthOf] <;> omega
  · simp [h0] at hs
    subst hs
    have e1 : ((QuadNode.node b c0 c1 c2 c3 pts d).child (b.GetQuadrant point)).size
        < (QuadNode.node b c0 c1 c2 c3 pts d).size := by
      cases b.GetQuadrant point <;> simp [QuadNode.child, QuadNode.size] <;> omega
    have h1 : (((QuadNode.node b c0 c1 c2 c3 pts d).child (b.GetQuadrant point)).size + 1)
        * (maxDepth + 2) ≤ (QuadNode.node b c0 c1 c2 c3 pts d).size * (maxDepth + 2) :=
      Nat.mul_le_mul_right _ e1
    rw [Nat.add_mul] at h1
    omega

/-- The public `QuadTree::Insert(const Point2D&)` in `double` arithmetic. -/
def QuadTree.InsertD (t : QuadTree) (point : Point2D) : Option QuadTree :=
  match t.root.InsertD t.maxDepth t.maxChildren point with
  | none => none
  | some r => some { t with root := r }

/-- The tolerance equality `Point2D::operator==` in `double` arithmetic. -/
def Point2D.opEqD (a other : Point2D) : Bool :=
  decide (|dsub a.x other.x| < roundDouble EPSILON) &&
    decide (|dsub a.y other.y| < roundDouble EPSILON)

/-- The method `Box::GetTopLeft` in `double` arithmetic. -/
def Box.GetTopLeftD (b : Box) : Point2D :=
  ⟨dsub b.center.x (ddiv b.width 2), dadd b.center.y (ddiv b.height 2)⟩

/-- The method `Box::GetBottomRight` in `double` arithmetic. -/
def Box.GetBottomRightD (b : Box) : Point2D :=
  ⟨dadd b.center.x (ddiv b.width 2), dsub b.center.y (ddiv b.height 2)⟩

/-- The method `Box::Intersection` in `double` arithmetic. -/
def Box.IntersectionD (b box : Box) : Bool :=
  let tl := b.GetTopLeftD
  let br := b.GetBottomRightD
  !(decide (box.GetTopLeftD.x > br.x) || decide (box.GetBottomRightD.x < tl.x) ||
    decide (box.GetTopLeftD.y < br.y) || decide (box.GetBottomRightD.y > tl.y))

/-- The recursive `QuadTree::Search(QuadNode*, Box&, std::vector<Point2D>&)` in
`double` arithmetic. -/
def QuadNode.SearchD : QuadNode → Box → List Point2D → Option (List Point2D)
  | .null, _, _ => none
  | .node b c0 c1 c2 c3 pts _, range, values =>
    if !b.IntersectionD range then some values
    else if c0 = .null then
      some (values ++ pts.filter (fun point => range.ContainsD point))
    else
      match QuadNode.SearchD c0 range values with
      | none => none
      | some v0 =>
        match QuadNode.SearchD c1 range v0 with
        | none => none
        | some v1 =>
          match QuadNode.SearchD c2 range v1 with
          | none => none
          | some v2 => QuadNode.SearchD c3 range v2

/-- The pair `std::find` and `erase` of the leaf case of `Remove` in `double`
arithmetic. -/
def eraseFirstD (point : Point2D) : List Point2D → Option (List Point2D)
  | [] => none
  | q :: rest =>
    if q.opEqD point then some rest
    else
      match eraseFirstD point rest with
      | none => none
      | some rest1 => some (q :: rest1)

/-- The recursive `QuadTree::Remove(QuadNode*, const Point2D&)` in `double`
arithmetic: the node afterwards and the returned flag. -/
def QuadNode.RemoveD (maxChildren : Nat) : QuadNode → Point2D → Option (QuadNode × Bool)
  | .null, _ => none
  | .node b c0 c1 c2 c3 pts d, point =>
    if !b.ContainsD point then some (.node b c0 c1 c2 c3 pts d, false)
    else if c0 = .null then
      match eraseFirstD point pts with
      | some pts1 => some (.node b c0 c1 c2 c3 pts1 d, true)
      | none => some (.node b c0 c1 c2 c3 pts d, false)
    else
      match b.GetQuadrant point with
      | .NE =>
        match QuadNode.RemoveD maxChildren c0 point with
        | none => none
        | some (k, removed) =>
          if removed then
            match (QuadNode.node b k c1 c2 c3 pts d).TryMerge maxChildren with
            | none => none
            | some (node1, _) => some (node1, removed)
          else some (.node b k c1 c2 c3 pts d, removed)
      | .NW =>
        match QuadNode.RemoveD maxChildren c1 point with
        | none => none
        | some (k, removed) =>
          if removed then
            match (QuadNode.node b c0 k c2 c3 pts d).TryMerge maxChildren with
            | none => none
            | some (node1, _) => some (node1, removed)
          else some (.node b c0 k c2 c3 pts d, removed)
      | .SE =>
        match QuadNode.RemoveD maxChildren c2 point with
        | none => none
        | some (k, removed) =>
          if removed then
            match (QuadNode.node b c0 c1 k c3 pts d).TryMerge maxChildren with
            | none => none
            | some (node1, _) => some (node1, removed)
          else some (.node b c0 c1 k c3 pts d, removed)
      | .SW =>
        match QuadNode.RemoveD maxChildren c3 point with
        | none => none
        | some (k, removed) =>
          if removed then
            match (QuadNode.node b c0 c1 c2 k pts d).TryMerge maxChildren with
            | none => none
            | some (node1, _) => some (node1, removed)
          else some (.node b c0 c1 c2 k pts d, removed)

/-- The public `QuadTree::Search(Box&, std::vector<Point2D>&)` in `double`
arithmetic. -/
def QuadTree.SearchD (t : QuadTree) (range : Box) (values : List Point2D) :
    Option (List Point2D) :=
  t.root.SearchD range values

/-- The public `QuadTree::Remove(const Point2D&)` in `double` arithmetic. -/
def QuadTree.RemoveD (t : QuadTree) (point : Point2D) : Option QuadTree :=
  match t.root.RemoveD t.maxChildren point with
  | none => none
  | some (r, _) => some { t with root := r }

/-- The public `QuadTree::Insert(const std::vector<Point2D>&)` in `double`
arithmetic. -/
def QuadTree.InsertAllD (t : QuadTree) : List Point2D → Option QuadTree
  | [] => some t
  | point :: rest =>
    match t.InsertD point with
    | none => none
    | some t1 => QuadTree.InsertAllD t1 rest

/-- The tree states reachable from a constructor by `Insert`, `Remove` and
`Clear` calls in `double` arithmetic. -/
inductive ReachableD : QuadTree → Prop
  | new (x y width height : ℚ) (maxDepth maxChildren : Nat) :
      ReachableD (QuadTree.new x y width height maxDepth maxChildren)
  | insert (t t1 : QuadTree) (point : Point2D) :
      ReachableD t → t.InsertD point = some t1 → ReachableD t1
  | remove (t t1 : QuadTree) (point : Point2D) :
      ReachableD t → t.RemoveD point = some t1 → ReachableD t1
  | clear (t t1 : QuadTree) :
      ReachableD t → t.Clear = some t1 → ReachableD t1

/-- The `double` literal `0.1`. -/
def tenth : ℚ := roundDouble (1 / 10)

/-- The box `Box(0, 0, 0.4, 0.4)` of `double` literals. -/
def smallBox : Box := Box.new 0 0 (roundDouble (4 / 10)) (roundDouble (4 / 10))

/-! ## Proof-side definitions for `double` arithmetic -/

/-- The shape that insertions build in either arithmetic when
`maxChildren >= 1`: no node is deeper than `maxDepth + 1`, a bucket that holds
a point belongs to a node deeper than `maxDepth`, and a node has no child or
four children, the latter only at depth at most `maxDepth`. -/
def QuadNode.Grown (md : Nat) : QuadNode → Prop
  | .null => False
  | .node _ c0 c1 c2 c3 pts d =>
    d ≤ md + 1 ∧ (pts = [] ∨ md < d) ∧
    ((c0 = .null ∧ c1 = .null ∧ c2 = .null ∧ c3 = .null) ∨
      (d ≤ md ∧ c0.Grown md ∧ c1.Grown md ∧ c2.Grown md ∧ c3.Grown md))

/-- The part of the invariant of reachable trees that does not depend on the
arithmetic: a node has no child or four children, and an interior node passed
the split test of `Insert`. -/
def QuadNode.Shape (md mc : Nat) : QuadNode → Prop
  | .null => False
  | .node _ c0 c1 c2 c3 pts d =>
    (c0 = .null ∧ c1 = .null ∧ c2 = .null ∧ c3 = .null) ∨
      (pts.length < mc ∧ d ≤ md ∧
        c0.Shape md mc ∧ c1.Shape md mc ∧ c2.Shape md mc ∧ c3.Shape md mc)

/-- Every node's boundary contains, in `double` arithmetic, every point stored
below the node: what the guard of `Insert` establishes. -/
def QuadNode.HeldD : QuadNode → Prop
  | .null => True
  | .node b c0 c1 c2 c3 pts d =>
    (∀ x ∈ (QuadNode.node b c0 c1 c2 c3 pts d).allPoints, b.ContainsD x = true) ∧
      c0.HeldD ∧ c1.HeldD ∧ c2.HeldD ∧ c3.HeldD

/-! ## Geometry -/

theorem Box.Contains_iff (b : Box) (p : Point2D) :
    b.Contains p = true ↔
      (b.center.x - b.width / 2 ≤ p.x ∧ p.x ≤ b.center.x + b.width / 2 ∧
        b.center.y - b.height / 2 ≤ p.y ∧ p.y ≤ b.center.y + b.height / 2) := by
  simp [Box.Contains]

theorem Box.Intersection_iff (a b : Box) :
    a.Intersection b = true ↔
      (b.center.x - b.width / 2 ≤ a.center.x + a.width / 2 ∧
        a.center.x - a.width / 2 ≤ b.center.x + b.width / 2 ∧
        a.center.y - a.height / 2 ≤ b.center.y + b.height / 2 ∧
        b.center.y - b.height / 2 ≤ a.center.y + a.height / 2) := by
  simp [Box.Intersection, Box.GetTopLeft, Box.GetBottomRight, and_assoc]

theorem Box.Intersection_of_Contains (a b : Box) (p : Point2D)
    (ha : a.Contains p = true) (hb : b.Contains p = true) : a.Intersection b = true := by
  rw [Box.Contains_iff] at ha hb
  rw [Box.Intersection_iff]
  obtain ⟨h1, h2, h3, h4⟩ := ha
  obtain ⟨h5, h6, h7, h8⟩ := hb
  refine ⟨?_, ?_, ?_, ?_⟩ <;> linarith

theorem Box.quadrantBox_Contains (b : Box) (p : Point2D) (h : b.Contains p = true) :
    (b.quadrantBox (b.GetQuadrant p)).Contains p = true := by
  rw [Box.Contains_iff] at h
  obtain ⟨h1, h2, h3, h4⟩ := h
  unfold Box.GetQuadrant
  split_ifs with g1 g2 g3
  · rw [Box.Contains_iff]
    simp only [Box.quadrantBox, Box.new]
    obtain ⟨g1a, g1b⟩ := g1
    refine ⟨?_, ?_, ?_, ?_⟩ <;> linarith
  · rw [Box.Contains_iff]
    simp only [Box.quadrantBox, Box.new]
    obtain ⟨g2a, g2b⟩ := g2
    refine ⟨?_, ?_, ?_, ?_⟩ <;> linarith
  · rw [Box.Contains_iff]
    simp only [Box.quadrantBox, Box.new]
    obtain ⟨g3a, g3b⟩ := g3
    refine ⟨?_, ?_, ?_, ?_⟩ <;> linarith
  · rw [Box.Contains_iff]
    simp only [Box.quadrantBox, Box.new]
    have hx : p.x < b.center.x := by
      by_contra hx
      push_neg at hx
      by_cases hy : p.y ≥ b.center.y
      · exact g1 ⟨hx, hy⟩
      · exact g3 ⟨hx, lt_of_not_ge hy⟩
    have hy : p.y < b.center.y := by
      by_contra hy
      push_neg at hy
      exact g2 ⟨hx, hy⟩
    refine ⟨?_, ?_, ?_, ?_⟩ <;> linarith

/-! ## The invariant -/

theorem QuadNode.Inv_contains {md mc : Nat} {b : Box} {c0 c1 c2 c3 : QuadNode}
    {pts : List Point2D} {d : Nat} (h : (QuadNode.node b c0 c1 c2 c3 pts d).Inv md mc)
    {p : Point2D} (hp : p ∈ (QuadNode.node b c0 c1 c2 c3 pts d).allPoints) :
    b.Contains p = true := by
  unfold QuadNode.Inv at h
  exact h.1 p hp

theorem QuadNode.Framed_iff (c : QuadNode) (box : Box) (depth : Nat) :
    c.Framed box depth ↔ ∃ k0 k1 k2 k3 pts, c = QuadNode.node box k0 k1 k2 k3 pts depth := by
  cases c with
  | null => simp [QuadNode.Framed]
  | node b k0 k1 k2 k3 pts d =>
    simp only [QuadNode.Framed, QuadNode.node.injEq]
    constructor
    · rintro ⟨rfl, rfl⟩
      exact ⟨k0, k1, k2, k3, pts, rfl, rfl, rfl, rfl, rfl, rfl, rfl⟩
    · rintro ⟨_, _, _, _, _, h, _, _, _, _, _, h'⟩
      exact ⟨h, h'⟩

theorem QuadNode.Inv_new (md mc : Nat) (box : Box) (d : Nat) : (QuadNode.new box d).Inv md mc := by
  simp [QuadNode.new, QuadNode.Inv, QuadNode.allPoints]

theorem QuadNode.Framed_new (box : Box) (d : Nat) : (QuadNode.new box d).Framed box d := by
  simp [QuadNode.new, QuadNode.Framed]

/-- An interior node satisfying the invariant: the facts about the child in slot `q`. -/
theorem QuadNode.Inv_child {md mc : Nat} {b : Box} {c0 c1 c2 c3 : QuadNode}
    {pts : List Point2D} {d : Nat} (h : (QuadNode.node b c0 c1 c2 c3 pts d).Inv md mc)
    (h0 : c0 ≠ QuadNode.null) (q : Quadrant) :
    (pts.length < mc ∧ d ≤ md) ∧
    ((QuadNode.node b c0 c1 c2 c3 pts d).child q).Inv md mc ∧
    ((QuadNode.node b c0 c1 c2 c3 pts d).child q).Framed (b.quadrantBox q) (d + 1) := by
  unfold QuadNode.Inv at h
  rcases h.2 with hl | ⟨a1, a2, f0, f1, f2, f3, i0, i1, i2, i3⟩
  · exact absurd hl.1 h0
  · cases q <;> simp only [QuadNode.child] <;> exact ⟨⟨a1, a2⟩, by assumption, by assumption⟩

/-- A node satisfying the invariant whose first child is null is a leaf. -/
theorem QuadNode.Inv_leaf {md mc : Nat} {b : Box} {c0 c1 c2 c3 : QuadNode}
    {pts : List Point2D} {d : Nat} (h : (QuadNode.node b c0 c1 c2 c3 pts d).Inv md mc)
    (h0 : c0 = QuadNode.null) : c1 = QuadNode.null ∧ c2 = QuadNode.null ∧ c3 = QuadNode.null := by
  unfold QuadNode.Inv at h
  rcases h.2 with hl | ⟨_, _, _, _, _, _, i0, _⟩
  · exact hl.2
  · subst h0
    simp [QuadNode.Inv] at i0

theorem QuadNode.mu_new_lt (md : Nat) (b box : Box) (c0 c1 c2 c3 : QuadNode)
    (pts : List Point2D) (d : Nat) (hd : d ≤ md) :
    (QuadNode.new box (d + 1)).mu md < (QuadNode.node b c0 c1 c2 c3 pts d).mu md := by
  have e3 : (QuadNode.node b c0 c1 c2 c3 pts d).size ≥ 1 := by
    simp [QuadNode.size]; omega
  have h1 : 1 * (md + 2) ≤ (QuadNode.node b c0 c1 c2 c3 pts d).size * (md + 2) :=
    Nat.mul_le_mul_right _ e3
  unfold QuadNode.mu
  generalize (QuadNode.node b c0 c1 c2 c3 pts d).size * (md + 2) = m at h1 ⊢
  simp [QuadNode.new, QuadNode.size, QuadNode.depthOf]
  omega

theorem QuadNode.mu_child_lt (md : Nat) (b : Box) (c0 c1 c2 c3 : QuadNode)
    (pts : List Point2D) (d : Nat) (q : Quadrant) :
    ((QuadNode.node b c0 c1 c2 c3 pts d).child q).mu md
      < (QuadNode.node b c0 c1 c2 c3 pts d).mu md := by
  have e1 : ((QuadNode.node b c0 c1 c2 c3 pts d).child q).size
      < (QuadNode.node b c0 c1 c2 c3 pts d).size := by
    cases q <;> simp [QuadNode.child, QuadNode.size] <;> omega
  have h1 : (((QuadNode.node b c0 c1 c2 c3 pts d).child q).size + 1)
      * (md + 2) ≤ (QuadNode.node b c0 c1 c2 c3 pts d).size * (md + 2) :=
    Nat.mul_le_mul_right _ e1
  rw [Nat.add_mul] at h1
  unfold QuadNode.mu
  omega

/-! ## Search -/

theorem QuadNode.leafPoints_sublist (n : QuadNode) : n.leafPoints.Sublist n.allPoints := by
  induction n with
  | null => simp [QuadNode.leafPoints, QuadNode.allPoints]
  | node b c0 c1 c2 c3 pts d ih0 ih1 ih2 ih3 =>
    simp only [QuadNode.leafPoints, QuadNode.allPoints]
    split_ifs with h
    · exact List.sublist_append_left _ _
    · exact List.Sublist.trans
        (List.Sublist.append ih0 (List.Sublist.append ih1 (List.Sublist.append ih2 ih3)))
        (List.sublist_append_right _ _)

theorem QuadNode.Search_eq (md mc : Nat) (n : QuadNode) (range : Box) (values : List Point2D)
    (h : n.Inv md mc) :
    n.Search range values
      = some (values ++ n.leafPoints.filter (fun point => range.Contains point)) := by
  induction n generalizing values with
  | null => simp [QuadNode.Inv] at h
  | node b c0 c1 c2 c3 pts d ih0 ih1 ih2 ih3 =>
    unfold QuadNode.Search
    by_cases hi : b.Intersection range = true
    · simp only [hi, Bool.not_true, Bool.false_eq_true, if_false]
      by_cases hl : c0 = QuadNode.null
      · simp [hl, QuadNode.leafPoints]
      · have h' := h
        unfold QuadNode.Inv at h'
        rcases h'.2 with hleaf | ⟨_, _, _, _, _, _, i0, i1, i2, i3⟩
        · exact absurd hleaf.1 hl
        · simp only [hl, if_false, ih0 _ i0, ih1 _ i1, ih2 _ i2, ih3 _ i3, QuadNode.leafPoints,
            List.filter_append, List.append_assoc]
    · have hnone : (QuadNode.node b c0 c1 c2 c3 pts d).leafPoints.filter
          (fun point => range.Contains point) = [] := by
        rw [List.filter_eq_nil_iff]
        intro q hq hr
        have hq' := (QuadNode.leafPoints_sublist _).subset hq
        exact hi (Box.Intersection_of_Contains b range q (QuadNode.Inv_contains h hq') hr)
      simp only [Bool.not_eq_true] at hi
      simp [hi, hnone]

/-! ## Insert -/

theorem QuadNode.Insert_out (md mc : Nat) (b : Box) (c0 c1 c2 c3 : QuadNode)
    (pts : List Point2D) (d : Nat) (p : Point2D) (h : b.Contains p = false) :
    (QuadNode.node b c0 c1 c2 c3 pts d).Insert md mc p
      = some (QuadNode.node b c0 c1 c2 c3 pts d) := by
  rw [QuadNode.Insert]
  simp [h]

theorem QuadNode.Insert_push (md mc : Nat) (b : Box) (c0 c1 c2 c3 : QuadNode)
    (pts : List Point2D) (d : Nat) (p : Point2D) (h : b.Contains p = true)
    (hc : ¬ (pts.length < mc ∧ d ≤ md)) :
    (QuadNode.node b c0 c1 c2 c3 pts d).Insert md mc p
      = some (QuadNode.node b c0 c1 c2 c3 (pts ++ [p]) d) := by
  rw [QuadNode.Insert]
  simp only [h, Bool.not_true, Bool.false_eq_true, if_false, hc]

/-- The node that `split` makes of a leaf. -/
theorem QuadNode.split_leaf (b : Box) (c1 c2 c3 : QuadNode) (pts : List Point2D) (d : Nat) :
    (QuadNode.node b QuadNode.null c1 c2 c3 pts d).split = some (QuadNode.splitOf b pts d) := by
  simp [QuadNode.split, Box.quadrantBox, QuadNode.splitOf]

theorem QuadNode.child_splitOf (b : Box) (pts : List Point2D) (d : Nat) (q : Quadrant) :
    (QuadNode.splitOf b pts d).child q = QuadNode.new (b.quadrantBox q) (d + 1) := by
  cases q <;> rfl

theorem QuadNode.Insert_split (md mc : Nat) (b : Box) (c1 c2 c3 : QuadNode)
    (pts : List Point2D) (d : Nat) (p : Point2D) (h : b.Contains p = true)
    (hc : pts.length < mc ∧ d ≤ md) :
    (QuadNode.node b QuadNode.null c1 c2 c3 pts d).Insert md mc p
      = ((QuadNode.new (b.quadrantBox (b.GetQuadrant p)) (d + 1)).Insert md mc p).map
          (fun c => (QuadNode.splitOf b pts d).setChild (b.GetQuadrant p) c) := by
  rw [QuadNode.Insert]
  simp only [h, Bool.not_true, Bool.false_eq_true, if_false, hc, and_self, if_true]
  split
  · rename_i hs
    simp [QuadNode.split_leaf] at hs
  · rename_i node1 hs
    simp only [if_true, QuadNode.split_leaf, Option.some.injEq] at hs
    subst hs
    rw [QuadNode.child_splitOf]
    cases (QuadNode.Insert md mc _ p) <;> rfl

theorem QuadNode.Insert_descend (md mc : Nat) (b : Box) (c0 c1 c2 c3 : QuadNode)
    (pts : List Point2D) (d : Nat) (p : Point2D) (h : b.Contains p = true)
    (hc : pts.length < mc ∧ d ≤ md) (h0 : c0 ≠ QuadNode.null) :
    (QuadNode.node b c0 c1 c2 c3 pts d).Insert md mc p
      = (((QuadNode.node b c0 c1 c2 c3 pts d).child (b.GetQuadrant p)).Insert md mc p).map
          (fun c => (QuadNode.node b c0 c1 c2 c3 pts d).setChild (b.GetQuadrant p) c) := by
  rw [QuadNode.Insert]
  simp only [h, Bool.not_true, Bool.false_eq_true, if_false, hc, and_self, if_true]
  split
  · rename_i hs
    simp [h0] at hs
  · rename_i node1 hs
    simp only [h0, if_false, Option.some.injEq] at hs
    subst hs
    cases (QuadNode.Insert md mc _ p) <;> rfl

/-- Induction along the path that `Insert` of `p` takes through a tree that
satisfies the invariant. -/
theorem QuadNode.Insert_induct (md mc : Nat) (p : Point2D) (Q : QuadNode → Prop)
    (push : ∀ (b : Box) (pts : List Point2D) (d : Nat),
      (QuadNode.node b .null .null .null .null pts d).Inv md mc → b.Contains p = true →
      ¬ (pts.length < mc ∧ d ≤ md) → Q (QuadNode.node b .null .null .null .null pts d))
    (splt : ∀ (b : Box) (pts : List Point2D) (d : Nat),
      (QuadNode.node b .null .null .null .null pts d).Inv md mc → b.Contains p = true →
      (pts.length < mc ∧ d ≤ md) →
      Q (QuadNode.new (b.quadrantBox (b.GetQuadrant p)) (d + 1)) →
      Q (QuadNode.node b .null .null .null .null pts d))
    (desc : ∀ (b : Box) (c0 c1 c2 c3 : QuadNode) (pts : List Point2D) (d : Nat),
      (QuadNode.node b c0 c1 c2 c3 pts d).Inv md mc → b.Contains p = true →
      (pts.length < mc ∧ d ≤ md) → c0 ≠ QuadNode.null →
      Q ((QuadNode.node b c0 c1 c2 c3 pts d).child (b.GetQuadrant p)) →
      Q (QuadNode.node b c0 c1 c2 c3 pts d))
    (n : QuadNode) (hinv : n.Inv md mc)
    (hc : ∀ b, n.boundaryOf = some b → b.Contains p = true) : Q n := by
  generalize hm : n.mu md = m
  induction m using Nat.strong_induction_on generalizing n with
  | _ m ih =>
    cases n with
    | null => simp [QuadNode.Inv] at hinv
    | node b c0 c1 c2 c3 pts d =>
      have hb : b.Contains p = true := hc b rfl
      by_cases h0 : c0 = QuadNode.null
      · obtain ⟨h1, h2, h3⟩ := QuadNode.Inv_leaf hinv h0
        subst h0 h1 h2 h3
        by_cases hcond : pts.length < mc ∧ d ≤ md
        · apply splt b pts d hinv hb hcond
          apply ih _ _ _ (QuadNode.Inv_new md mc _ _) _ rfl
          · rw [← hm]
            exact QuadNode.mu_new_lt md b _ _ _ _ _ pts d hcond.2
          · intro b' hb'
            simp only [QuadNode.new, QuadNode.boundaryOf, Option.some.injEq] at hb'
            subst hb'
            exact Box.quadrantBox_Contains b p hb
        · exact push b pts d hinv hb hcond
      · obtain ⟨hcond, hci, hcf⟩ := QuadNode.Inv_child hinv h0 (b.GetQuadrant p)
        apply desc b c0 c1 c2 c3 pts d hinv hb hcond h0
        apply ih _ _ _ hci _ rfl
        · rw [← hm]
          exact QuadNode.mu_child_lt md b c0 c1 c2 c3 pts d _
        · intro b' hb'
          rw [QuadNode.Framed_iff] at hcf
          obtain ⟨k0, k1, k2, k3, kpts, hk⟩ := hcf
          rw [hk] at hb'
          simp only [QuadNode.boundaryOf, Option.some.injEq] at hb'
          subst hb'
          exact Box.quadrantBox_Contains b p hb

theorem QuadNode.allPoints_setChild (b : Box) (c0 c1 c2 c3 : QuadNode) (pts : List Point2D)
    (d : Nat) (q : Quadrant) (c : QuadNode) :
    List.Perm (((QuadNode.node b c0 c1 c2 c3 pts d).setChild q c).allPoints
        ++ ((QuadNode.node b c0 c1 c2 c3 pts d).child q).allPoints)
      ((QuadNode.node b c0 c1 c2 c3 pts d).allPoints ++ c.allPoints) := by
  rw [List.perm_iff_count]
  intro a
  cases q <;>
    simp only [QuadNode.setChild, QuadNode.child, QuadNode.allPoints, List.count_append] <;>
    omega

theorem QuadNode.leafPoints_setChild (b : Box) (c0 c1 c2 c3 : QuadNode) (pts : List Point2D)
    (d : Nat) (q : Quadrant) (c : QuadNode) (h0 : c0 ≠ QuadNode.null) (hc : c ≠ QuadNode.null) :
    List.Perm (((QuadNode.node b c0 c1 c2 c3 pts d).setChild q c).leafPoints
        ++ ((QuadNode.node b c0 c1 c2 c3 pts d).child q).leafPoints)
      ((QuadNode.node b c0 c1 c2 c3 pts d).leafPoints ++ c.leafPoints) := by
  rw [List.perm_iff_count]
  intro a
  cases q <;>
    simp only [QuadNode.setChild, QuadNode.child, QuadNode.leafPoints, List.count_append, h0, hc,
      if_false] <;>
    omega

theorem QuadNode.Inv_ne_null {md mc : Nat} {n : QuadNode} (h : n.Inv md mc) :
    n ≠ QuadNode.null := by
  rintro rfl
  simp [QuadNode.Inv] at h

theorem QuadNode.Inv_setChild {md mc : Nat} {b : Box} {c0 c1 c2 c3 : QuadNode}
    {pts : List Point2D} {d : Nat} (h : (QuadNode.node b c0 c1 c2 c3 pts d).Inv md mc)
    (h0 : c0 ≠ QuadNode.null) (q : Quadrant) (c : QuadNode) (hc : c.Inv md mc)
    (hf : c.Framed (b.quadrantBox q) (d + 1))
    (hp : ∀ x ∈ c.allPoints, b.Contains x = true) :
    ((QuadNode.node b c0 c1 c2 c3 pts d).setChild q c).Inv md mc := by
  have hall : ∀ x ∈ ((QuadNode.node b c0 c1 c2 c3 pts d).setChild q c).allPoints,
      b.Contains x = true := by
    intro x hx
    have h1 := (QuadNode.allPoints_setChild b c0 c1 c2 c3 pts d q c).subset
      (List.mem_append_left _ hx)
    rcases List.mem_append.1 h1 with h2 | h2
    · exact QuadNode.Inv_contains h h2
    · exact hp x h2
  unfold QuadNode.Inv at h
  rcases h.2 with hl | ⟨a1, a2, f0, f1, f2, f3, i0, i1, i2, i3⟩
  · exact absurd hl.1 h0
  · cases q <;> simp only [QuadNode.setChild] at hall ⊢ <;> unfold QuadNode.Inv <;>
      exact ⟨hall, Or.inr ⟨a1, a2, by assumption, by assumption, by assumption, by assumption,
        by assumption, by assumption, by assumption, by assumption⟩⟩

theorem QuadNode.Inserted_setChild {md mc : Nat} {p : Point2D} {b : Box}
    {c0 c1 c2 c3 : QuadNode} {pts : List Point2D} {d : Nat}
    (h : (QuadNode.node b c0 c1 c2 c3 pts d).Inv md mc) (hb : b.Contains p = true)
    (h0 : c0 ≠ QuadNode.null) (q : Quadrant) (c : QuadNode)
    (hi : QuadNode.Inserted md mc p ((QuadNode.node b c0 c1 c2 c3 pts d).child q) c) :
    QuadNode.Inserted md mc p (QuadNode.node b c0 c1 c2 c3 pts d)
      ((QuadNode.node b c0 c1 c2 c3 pts d).setChild q c) := by
  obtain ⟨hcond, hci, hcf⟩ := QuadNode.Inv_child h h0 q
  obtain ⟨i1, i2, i3, i4⟩ := hi
  have hk := QuadNode.allPoints_setChild b c0 c1 c2 c3 pts d q c
  have hperm : List.Perm ((QuadNode.node b c0 c1 c2 c3 pts d).setChild q c).allPoints
      (p :: (QuadNode.node b c0 c1 c2 c3 pts d).allPoints) := by
    rw [List.perm_iff_count] at hk i3 ⊢
    intro a
    have := hk a
    have := i3 a
    simp only [List.count_append, List.count_cons] at *
    omega
  refine ⟨?_, ?_, hperm, ?_⟩
  · apply QuadNode.Inv_setChild h h0 q c i1 (i2 _ _ hcf)
    intro x hx
    rcases List.mem_cons.1 (i3.subset hx) with rfl | hx'
    · exact hb
    · have hci' := hci
      have hsub : x ∈ (QuadNode.node b c0 c1 c2 c3 pts d).allPoints := by
        revert hx'
        cases q <;> simp only [QuadNode.child, QuadNode.allPoints, List.mem_append] <;> tauto
      exact QuadNode.Inv_contains h hsub
  · intro box d' hfr
    cases q <;> simpa [QuadNode.setChild, QuadNode.Framed] using hfr
  · have hl := QuadNode.leafPoints_setChild b c0 c1 c2 c3 pts d q c h0 (QuadNode.Inv_ne_null i1)
    have : p ∈ (QuadNode.node b c0 c1 c2 c3 pts d).leafPoints ++ c.leafPoints :=
      List.mem_append_right _ i4
    have h2 := hl.symm.subset this
    rcases List.mem_append.1 h2 with h3 | h3
    · exact h3
    · -- p is already a leaf point of the old child: it stays in the other slots or in c
      have hc' : c ≠ QuadNode.null := QuadNode.Inv_ne_null i1
      cases q <;>
        simp only [QuadNode.setChild, QuadNode.leafPoints, h0, hc', if_false, List.mem_append] <;>
        tauto

theorem QuadNode.Inv_splitOf {md mc : Nat} {b : Box} {pts : List Point2D} {d : Nat}
    (h : (QuadNode.node b .null .null .null .null pts d).Inv md mc)
    (hcond : pts.length < mc ∧ d ≤ md) : (QuadNode.splitOf b pts d).Inv md mc := by
  unfold QuadNode.splitOf
  unfold QuadNode.Inv at h ⊢
  refine ⟨?_, Or.inr ⟨hcond.1, hcond.2, QuadNode.Framed_new _ _, QuadNode.Framed_new _ _,
    QuadNode.Framed_new _ _, QuadNode.Framed_new _ _, QuadNode.Inv_new _ _ _ _,
    QuadNode.Inv_new _ _ _ _, QuadNode.Inv_new _ _ _ _, QuadNode.Inv_new _ _ _ _⟩⟩
  intro x hx
  apply h.1
  simpa [QuadNode.allPoints, QuadNode.new] using hx

theorem QuadNode.new_ne_null (box : Box) (d : Nat) : QuadNode.new box d ≠ QuadNode.null := by
  simp [QuadNode.new]

/-- `Insert` of a point of the boundary returns, keeps the invariant, stores
the point once more and puts it in a leaf bucket. -/
theorem QuadNode.Insert_spec (md mc : Nat) (p : Point2D) (n : QuadNode) (hinv : n.Inv md mc)
    (hc : ∀ b, n.boundaryOf = some b → b.Contains p = true) :
    ∃ n1, n.Insert md mc p = some n1 ∧ QuadNode.Inserted md mc p n n1 := by
  refine QuadNode.Insert_induct md mc p
    (fun n => ∃ n1, n.Insert md mc p = some n1 ∧ QuadNode.Inserted md mc p n n1)
    ?_ ?_ ?_ n hinv hc
  · intro b pts d hi hb hcond
    refine ⟨_, QuadNode.Insert_push md mc b _ _ _ _ pts d p hb hcond, ?_, ?_, ?_, ?_⟩
    · unfold QuadNode.Inv at hi ⊢
      refine ⟨?_, Or.inl ⟨rfl, rfl, rfl, rfl⟩⟩
      intro x hx
      simp only [QuadNode.allPoints, List.append_nil, List.mem_append, List.mem_singleton] at hx
      rcases hx with hx | rfl
      · exact hi.1 x (by simpa [QuadNode.allPoints] using hx)
      · exact hb
    · intro box d' hf
      simpa [QuadNode.Framed] using hf
    · simp only [QuadNode.allPoints, List.append_nil]
      exact List.perm_append_singleton p pts
    · simp [QuadNode.leafPoints]
  · intro b pts d hi hb hcond ⟨k, hk, hkI⟩
    have hs := QuadNode.Inv_splitOf hi hcond
    rw [← QuadNode.child_splitOf b pts d] at hk hkI
    have h1 := QuadNode.Inserted_setChild hs hb (QuadNode.new_ne_null _ _) (b.GetQuadrant p) k hkI
    have hI : (QuadNode.node b .null .null .null .null pts d).Insert md mc p
        = some ((QuadNode.splitOf b pts d).setChild (b.GetQuadrant p) k) := by
      rw [QuadNode.Insert_split md mc b _ _ _ pts d p hb hcond, ← QuadNode.child_splitOf b pts d,
        hk]
      rfl
    obtain ⟨j1, j2, j3, j4⟩ := h1
    refine ⟨_, hI, j1, ?_, ?_, j4⟩
    · intro box d' hf
      apply j2
      simpa [QuadNode.Framed, QuadNode.splitOf] using hf
    · simpa [QuadNode.allPoints, QuadNode.new, QuadNode.splitOf] using j3
  · intro b c0 c1 c2 c3 pts d hi hb hcond h0 ⟨k, hk, hkI⟩
    refine ⟨_, ?_, QuadNode.Inserted_setChild hi hb h0 (b.GetQuadrant p) k hkI⟩
    rw [QuadNode.Insert_descend md mc b c0 c1 c2 c3 pts d p hb hcond h0, hk]
    rfl

/-- A leaf that satisfies the invariant, written out. -/
theorem QuadNode.Inv_leaf_form {md mc : Nat} {c : QuadNode} (h : c.Inv md mc)
    (hl : c.IsLeaf = some true) :
    ∃ b pts d, c = QuadNode.node b .null .null .null .null pts d := by
  cases c with
  | null => simp [QuadNode.Inv] at h
  | node b c0 c1 c2 c3 pts d =>
    simp only [QuadNode.IsLeaf, Option.some.injEq, decide_eq_true_eq] at hl
    obtain ⟨h1, h2, h3⟩ := QuadNode.Inv_leaf h hl
    subst hl h1 h2 h3
    exact ⟨b, pts, d, rfl⟩

theorem QuadNode.TryMerge_count_spec (md mc : Nat) (cs : List QuadNode) (total : Nat)
    (h : ∀ c ∈ cs, c.Inv md mc) :
    QuadNode.TryMerge.count cs total = some none ∨
      (QuadNode.TryMerge.count cs total
          = some (some (total + (cs.map (fun c => c.pointsOf.length)).sum)) ∧
        ∀ c ∈ cs, c.IsLeaf = some true) := by
  induction cs generalizing total with
  | nil => right; simp [QuadNode.TryMerge.count]
  | cons c rest ih =>
    have hc := h c (List.mem_cons_self _ _)
    cases c with
    | null => simp [QuadNode.Inv] at hc
    | node b k0 k1 k2 k3 pts d =>
      by_cases hk : k0 = QuadNode.null
      · rcases ih (total + pts.length) (fun c hc' => h c (List.mem_cons_of_mem _ hc')) with h1 | h1
        · left
          simp [QuadNode.TryMerge.count, hk, h1]
        · right
          refine ⟨?_, ?_⟩
          · simp [QuadNode.TryMerge.count, hk, h1.1, QuadNode.pointsOf, Nat.add_assoc]
          · intro c hc'
            rcases List.mem_cons.1 hc' with rfl | hc''
            · simp [QuadNode.IsLeaf, hk]
            · exact h1.2 c hc''
      · left
        simp [QuadNode.TryMerge.count, hk]

/-- What `TryMerge` does to a node that satisfies the invariant. -/
theorem QuadNode.TryMerge_spec (md mc : Nat) (n : QuadNode) (h : n.Inv md mc) :
    ∃ n1 f, n.TryMerge mc = some (n1, f) ∧ n1.Inv md mc ∧
      (∀ box d, n.Framed box d → n1.Framed box d) ∧
      n1.allPoints = n.allPoints ∧
      (f = false → n1 = n) ∧
      (f = true → n1.leafPoints = n.pointsOf ++ n.leafPoints) := by
  cases n with
  | null => simp [QuadNode.Inv] at h
  | node b c0 c1 c2 c3 pts d =>
    by_cases h0 : c0 = QuadNode.null
    · exact ⟨_, false, by simp [QuadNode.TryMerge, h0], h, fun _ _ hf => hf, rfl, fun _ => rfl,
        by simp⟩
    · have hc : ∀ c ∈ [c0, c1, c2, c3], c.Inv md mc := by
        intro c hc
        simp only [List.mem_cons, List.mem_singleton, List.not_mem_nil, or_false] at hc
        have q0 := (QuadNode.Inv_child h h0 Quadrant.NE).2.1
        have q1 := (QuadNode.Inv_child h h0 Quadrant.NW).2.1
        have q2 := (QuadNode.Inv_child h h0 Quadrant.SE).2.1
        have q3 := (QuadNode.Inv_child h h0 Quadrant.SW).2.1
        simp only [QuadNode.child] at q0 q1 q2 q3
        rcases hc with rfl | rfl | rfl | rfl <;> assumption
      rcases QuadNode.TryMerge_count_spec md mc [c0, c1, c2, c3] 0 hc with h1 | ⟨h1, h2⟩
      · exact ⟨_, false, by simp [QuadNode.TryMerge, h0, h1], h, fun _ _ hf => hf, rfl,
          fun _ => rfl, by simp⟩
      · by_cases ht : (0 + ([c0, c1, c2, c3].map (fun c => c.pointsOf.length)).sum) > mc
        · exact ⟨_, false, by simp only [QuadNode.TryMerge, h0, h1, if_false, ht, if_true], h,
            fun _ _ hf => hf, rfl, fun _ => rfl, by simp⟩
        · obtain ⟨b0, p0, d0, e0⟩ := QuadNode.Inv_leaf_form (hc c0 (by simp)) (h2 c0 (by simp))
          obtain ⟨b1, p1, d1, e1⟩ := QuadNode.Inv_leaf_form (hc c1 (by simp)) (h2 c1 (by simp))
          obtain ⟨b2, p2, d2, e2⟩ := QuadNode.Inv_leaf_form (hc c2 (by simp)) (h2 c2 (by simp))
          obtain ⟨b3, p3, d3, e3⟩ := QuadNode.Inv_leaf_form (hc c3 (by simp)) (h2 c3 (by simp))
          have hT : (QuadNode.node b c0 c1 c2 c3 pts d).TryMerge mc
              = some (QuadNode.node b .null .null .null .null
                (pts ++ c0.pointsOf ++ c1.pointsOf ++ c2.pointsOf ++ c3.pointsOf) d, true) := by
            simp only [QuadNode.TryMerge, h0, h1, if_false, ht]
          refine ⟨_, true, hT, ?_, ?_, ?_, ?_, ?_⟩
          · have hall : ∀ x ∈ (QuadNode.node b c0 c1 c2 c3 pts d).allPoints,
                b.Contains x = true := fun x hx => QuadNode.Inv_contains h hx
            subst e0 e1 e2 e3
            unfold QuadNode.Inv
            refine ⟨?_, Or.inl ⟨rfl, rfl, rfl, rfl⟩⟩
            intro x hx
            apply hall
            simpa [QuadNode.allPoints, QuadNode.pointsOf] using hx
          · intro box d' hf
            simpa [QuadNode.Framed] using hf
          · subst e0 e1 e2 e3
            simp [QuadNode.allPoints, QuadNode.pointsOf]
          · intro hf
            simp at hf
          · intro _
            subst e0 e1 e2 e3
            simp [QuadNode.leafPoints, QuadNode.pointsOf]

/-- A `TryMerge` that returns false leaves the node as it was. -/
theorem QuadNode.TryMerge_false (mc : Nat) (n n1 : QuadNode)
    (h : n.TryMerge mc = some (n1, false)) : n1 = n := by
  cases n with
  | null => simp [QuadNode.TryMerge] at h
  | node b c0 c1 c2 c3 pts d =>
    simp only [QuadNode.TryMerge] at h
    split_ifs at h with h0
    · simp at h; exact h.symm
    · split at h
      · simp at h
      · simp at h; exact h.symm
      · split_ifs at h
        · simp at h; exact h.symm
        · simp at h

theorem Point2D.opEq_self (p : Point2D) : p.opEq p = true := by
  simp [Point2D.opEq, EPSILON]

theorem eraseFirst_some (p : Point2D) (l l1 : List Point2D) (h : eraseFirst p l = some l1) :
    ∃ x a c, x.opEq p = true ∧ l = a ++ x :: c ∧ l1 = a ++ c ∧ ∀ y ∈ a, y.opEq p = false := by
  induction l generalizing l1 with
  | nil => simp [eraseFirst] at h
  | cons q rest ih =>
    unfold eraseFirst at h
    by_cases hq : q.opEq p = true
    · simp only [hq, if_true, Option.some.injEq] at h
      exact ⟨q, [], rest, hq, rfl, by simp [h], by simp⟩
    · have hq' : q.opEq p = false := by simpa using hq
      simp only [hq', Bool.false_eq_true, if_false] at h
      cases hr : eraseFirst p rest with
      | none => simp [hr] at h
      | some r =>
        simp only [hr, Option.some.injEq] at h
        obtain ⟨x, a, c, h1, h2, h3, h4⟩ := ih r hr
        refine ⟨x, q :: a, c, h1, by simp [h2], by simp [← h, h3], ?_⟩
        intro y hy
        rcases List.mem_cons.1 hy with rfl | hy'
        · exact hq'
        · exact h4 y hy'

theorem eraseFirst_none (p : Point2D) (l : List Point2D) :
    eraseFirst p l = none ↔ ∀ y ∈ l, y.opEq p = false := by
  induction l with
  | nil => simp [eraseFirst]
  | cons q rest ih =>
    unfold eraseFirst
    by_cases hq : q.opEq p = true
    · simp [hq]
    · have hq' : q.opEq p = false := by simpa using hq
      simp only [hq', Bool.false_eq_true, if_false, List.mem_cons, forall_eq_or_imp, true_and]
      cases hr : eraseFirst p rest with
      | none =>
        simp only [true_iff]
        exact ih.1 hr
      | some r =>
        constructor
        · intro hh
          exact Option.noConfusion hh
        · intro hall
          rw [ih.2 hall] at hr
          exact Option.noConfusion hr

theorem QuadNode.setChild_child (b : Box) (c0 c1 c2 c3 : QuadNode) (pts : List Point2D)
    (d : Nat) (q : Quadrant) :
    (QuadNode.node b c0 c1 c2 c3 pts d).setChild q ((QuadNode.node b c0 c1 c2 c3 pts d).child q)
      = QuadNode.node b c0 c1 c2 c3 pts d := by
  cases q <;> rfl

theorem QuadNode.Remove_out (mc : Nat) (b : Box) (c0 c1 c2 c3 : QuadNode)
    (pts : List Point2D) (d : Nat) (p : Point2D) (h : b.Contains p = false) :
    (QuadNode.node b c0 c1 c2 c3 pts d).Remove mc p
      = some (QuadNode.node b c0 c1 c2 c3 pts d, false) := by
  simp [QuadNode.Remove, h]

theorem QuadNode.Remove_leaf (mc : Nat) (b : Box) (c1 c2 c3 : QuadNode)
    (pts : List Point2D) (d : Nat) (p : Point2D) (h : b.Contains p = true) :
    (QuadNode.node b .null c1 c2 c3 pts d).Remove mc p
      = match eraseFirst p pts with
        | some pts1 => some (QuadNode.node b .null c1 c2 c3 pts1 d, true)
        | none => some (QuadNode.node b .null c1 c2 c3 pts d, false) := by
  cases he : eraseFirst p pts <;> simp [QuadNode.Remove, h, he]

theorem QuadNode.Remove_descend (mc : Nat) (b : Box) (c0 c1 c2 c3 : QuadNode)
    (pts : List Point2D) (d : Nat) (p : Point2D) (h : b.Contains p = true)
    (h0 : c0 ≠ QuadNode.null) :
    (QuadNode.node b c0 c1 c2 c3 pts d).Remove mc p
      = match ((QuadNode.node b c0 c1 c2 c3 pts d).child (b.GetQuadrant p)).Remove mc p with
        | none => none
        | some (k, removed) =>
          if removed then
            match ((QuadNode.node b c0 c1 c2 c3 pts d).setChild (b.GetQuadrant p) k).TryMerge mc with
            | none => none
            | some (node1, _) => some (node1, removed)
          else some ((QuadNode.node b c0 c1 c2 c3 pts d).setChild (b.GetQuadrant p) k, removed) := by
  rw [QuadNode.Remove]
  simp only [h, Bool.not_true, Bool.false_eq_true, if_false, h0]
  cases b.GetQuadrant p <;> rfl

theorem QuadNode.child_subset (b : Box) (c0 c1 c2 c3 : QuadNode) (pts : List Point2D)
    (d : Nat) (q : Quadrant) :
    ((QuadNode.node b c0 c1 c2 c3 pts d).child q).allPoints
      ⊆ (QuadNode.node b c0 c1 c2 c3 pts d).allPoints := by
  intro x hx
  revert hx
  cases q <;> simp only [QuadNode.child, QuadNode.allPoints, List.mem_append] <;> tauto

/-- The recursive `Remove` returns on every node that satisfies the
invariant and keeps the invariant; a success erases one stored point that
`operator==` equates with the argument. -/
theorem QuadNode.Remove_spec (md mc : Nat) (p : Point2D) (n : QuadNode) (hinv : n.Inv md mc) :
    ∃ n1 f, n.Remove mc p = some (n1, f) ∧ QuadNode.Removed md mc p n n1 f := by
  induction n with
  | null => simp [QuadNode.Inv] at hinv
  | node b c0 c1 c2 c3 pts d ih0 ih1 ih2 ih3 =>
    by_cases hb : b.Contains p = true
    · by_cases h0 : c0 = QuadNode.null
      · obtain ⟨h1, h2, h3⟩ := QuadNode.Inv_leaf hinv h0
        subst h0 h1 h2 h3
        rw [QuadNode.Remove_leaf mc b _ _ _ pts d p hb]
        cases he : eraseFirst p pts with
        | none => exact ⟨_, false, rfl, hinv, fun _ _ hf => hf, fun _ => rfl, by simp⟩
        | some r =>
          obtain ⟨x, a, c, e1, e2, e3, e4⟩ := eraseFirst_some p pts r he
          refine ⟨_, true, rfl, ?_, ?_, by simp, ?_⟩
          · unfold QuadNode.Inv at hinv ⊢
            refine ⟨?_, Or.inl ⟨rfl, rfl, rfl, rfl⟩⟩
            intro y hy
            apply hinv.1
            subst e2 e3
            simp only [QuadNode.allPoints, List.append_nil, List.mem_append, List.mem_cons] at hy ⊢
            tauto
          · intro box d' hf
            simpa [QuadNode.Framed] using hf
          · intro _
            refine ⟨x, e1, ?_⟩
            subst e2 e3
            simp only [QuadNode.allPoints, List.append_nil]
            exact List.perm_middle
      · rw [QuadNode.Remove_descend mc b c0 c1 c2 c3 pts d p hb h0]
        obtain ⟨hcond, hci, hcf⟩ := QuadNode.Inv_child hinv h0 (b.GetQuadrant p)
        have ihq : ∃ n1 f, ((QuadNode.node b c0 c1 c2 c3 pts d).child (b.GetQuadrant p)).Remove mc p
            = some (n1, f) ∧ QuadNode.Removed md mc p
              ((QuadNode.node b c0 c1 c2 c3 pts d).child (b.GetQuadrant p)) n1 f := by
          revert hci
          cases b.GetQuadrant p <;> simp only [QuadNode.child] <;> intro hci
          · exact ih0 hci
          · exact ih1 hci
          · exact ih2 hci
          · exact ih3 hci
        obtain ⟨k, f, hk, r1, r2, r3, r4⟩ := ihq
        rw [hk]
        cases f with
        | false =>
          have := r3 rfl
          subst this
          simp only [Bool.false_eq_true, if_false, QuadNode.setChild_child]
          exact ⟨_, false, rfl, hinv, fun _ _ hf => hf, fun _ => rfl, by simp⟩
        | true =>
          obtain ⟨x, hx1, hx2⟩ := r4 rfl
          have hsub : ∀ y ∈ k.allPoints, b.Contains y = true := by
            intro y hy
            have h1 : y ∈ ((QuadNode.node b c0 c1 c2 c3 pts d).child (b.GetQuadrant p)).allPoints :=
              hx2.symm.subset (List.mem_cons_of_mem _ hy)
            exact QuadNode.Inv_contains hinv (QuadNode.child_subset b c0 c1 c2 c3 pts d _ h1)
          have hi2 := QuadNode.Inv_setChild hinv h0 (b.GetQuadrant p) k r1 (r2 _ _ hcf) hsub
          obtain ⟨n3, g, t1, t2, t3, t4, t5, t6⟩ := QuadNode.TryMerge_spec md mc _ hi2
          simp only [if_true, t1]
          refine ⟨n3, true, rfl, t2, ?_, by simp, ?_⟩
          · intro box d' hf
            apply t3
            revert hf
            cases b.GetQuadrant p <;> simp [QuadNode.setChild, QuadNode.Framed]
          · intro _
            refine ⟨x, hx1, ?_⟩
            rw [t4]
            have hk2 := QuadNode.allPoints_setChild b c0 c1 c2 c3 pts d (b.GetQuadrant p) k
            rw [List.perm_iff_count] at hk2 hx2 ⊢
            intro a
            have := hk2 a
            have := hx2 a
            simp only [List.count_append, List.count_cons] at *
            omega
    · simp only [Bool.not_eq_true] at hb
      rw [QuadNode.Remove_out mc b c0 c1 c2 c3 pts d p hb]
      exact ⟨_, false, rfl, hinv, fun _ _ hf => hf, fun _ => rfl, by simp⟩

theorem QuadNode.Insert_inv (md mc : Nat) (p : Point2D) (n n1 : QuadNode) (hinv : n.Inv md mc)
    (h : n.Insert md mc p = some n1) :
    n1.Inv md mc ∧ (∀ box d, n.Framed box d → n1.Framed box d) := by
  cases n with
  | null => simp [QuadNode.Inv] at hinv
  | node b c0 c1 c2 c3 pts d =>
    by_cases hb : b.Contains p = true
    · obtain ⟨n2, h2, i1, i2, _, _⟩ := QuadNode.Insert_spec md mc p _ hinv
        (by intro b' hb'; simp only [QuadNode.boundaryOf, Option.some.injEq] at hb'; subst hb'; exact hb)
      rw [h2] at h
      simp only [Option.some.injEq] at h
      subst h
      exact ⟨i1, i2⟩
    · simp only [Bool.not_eq_true] at hb
      rw [QuadNode.Insert_out md mc b c0 c1 c2 c3 pts d p hb] at h
      simp only [Option.some.injEq] at h
      subst h
      exact ⟨hinv, fun _ _ hf => hf⟩

/-- Every reachable tree has a root that satisfies the invariant at depth 0. -/
theorem Reachable.inv {t : QuadTree} (h : Reachable t) :
    t.root.Inv t.maxDepth t.maxChildren ∧ ∃ b, t.root.Framed b 0 := by
  induction h with
  | new x y w hh md mc =>
    exact ⟨QuadNode.Inv_new _ _ _ _, _, QuadNode.Framed_new _ _⟩
  | insert t t1 p _ hi ih =>
    unfold QuadTree.Insert at hi
    cases hr : t.root.Insert t.maxDepth t.maxChildren p with
    | none => simp [hr] at hi
    | some r =>
      simp only [hr, Option.some.injEq] at hi
      subst hi
      obtain ⟨b, hb⟩ := ih.2
      have := QuadNode.Insert_inv _ _ p _ _ ih.1 hr
      exact ⟨this.1, b, this.2 _ _ hb⟩
  | remove t t1 p _ hi ih =>
    unfold QuadTree.Remove at hi
    obtain ⟨n1, f, h1, r1, r2, _, _⟩ := QuadNode.Remove_spec t.maxDepth t.maxChildren p _ ih.1
    simp only [h1, Option.some.injEq] at hi
    subst hi
    obtain ⟨b, hb⟩ := ih.2
    exact ⟨r1, b, r2 _ _ hb⟩
  | clear t t1 _ hi ih =>
    unfold QuadTree.Clear at hi
    cases hr : t.root with
    | null => simp [hr] at hi
    | node b c0 c1 c2 c3 pts d =>
      simp only [hr, Option.some.injEq] at hi
      subst hi
      exact ⟨QuadNode.Inv_new _ _ _ _, _, QuadNode.Framed_new _ _⟩

theorem QuadNode.Remove_setChild (mc : Nat) (b : Box) (c0 c1 c2 c3 : QuadNode)
    (pts : List Point2D) (d : Nat) (p : Point2D) (k : QuadNode) (h : b.Contains p = true)
    (h0 : c0 ≠ QuadNode.null) (hk : k ≠ QuadNode.null) :
    ((QuadNode.node b c0 c1 c2 c3 pts d).setChild (b.GetQuadrant p) k).Remove mc p
      = match k.Remove mc p with
        | none => none
        | some (k2, removed) =>
          if removed then
            match ((QuadNode.node b c0 c1 c2 c3 pts d).setChild (b.GetQuadrant p) k2).TryMerge mc with
            | none => none
            | some (node1, _) => some (node1, removed)
          else some ((QuadNode.node b c0 c1 c2 c3 pts d).setChild (b.GetQuadrant p) k2, removed) := by
  cases hq : b.GetQuadrant p <;> simp only [QuadNode.setChild]
  · rw [QuadNode.Remove_descend mc b k c1 c2 c3 pts d p h hk, hq]; rfl
  · rw [QuadNode.Remove_descend mc b c0 k c2 c3 pts d p h h0, hq]; rfl
  · rw [QuadNode.Remove_descend mc b c0 c1 k c3 pts d p h h0, hq]; rfl
  · rw [QuadNode.Remove_descend mc b c0 c1 c2 k pts d p h h0, hq]; rfl

/-- Step of the round trip: when the `Remove` of `p` succeeds on the child
that `Insert` changed, it succeeds on the parent. -/
theorem QuadNode.Remove_setChild_true {md mc : Nat} {p : Point2D} {b : Box}
    {c0 c1 c2 c3 : QuadNode} {pts : List Point2D} {d : Nat}
    (h : (QuadNode.node b c0 c1 c2 c3 pts d).Inv md mc) (hb : b.Contains p = true)
    (h0 : c0 ≠ QuadNode.null) (k : QuadNode)
    (hi : QuadNode.Inserted md mc p
      ((QuadNode.node b c0 c1 c2 c3 pts d).child (b.GetQuadrant p)) k)
    (hr : ∃ k2, k.Remove mc p = some (k2, true)) :
    ∃ n2, ((QuadNode.node b c0 c1 c2 c3 pts d).setChild (b.GetQuadrant p) k).Remove mc p
      = some (n2, true) := by
  obtain ⟨k2, hk2⟩ := hr
  obtain ⟨i1, i2, i3, i4⟩ := hi
  obtain ⟨hcond, hci, hcf⟩ := QuadNode.Inv_child h h0 (b.GetQuadrant p)
  obtain ⟨k3, f, e1, r1, r2, r3, r4⟩ := QuadNode.Remove_spec md mc p k i1
  rw [hk2] at e1
  simp only [Option.some.injEq, Prod.mk.injEq] at e1
  obtain ⟨rfl, rfl⟩ := e1
  obtain ⟨x, hx1, hx2⟩ := r4 rfl
  have hsub : ∀ y ∈ k2.allPoints, b.Contains y = true := by
    intro y hy
    have h1 : y ∈ k.allPoints := hx2.symm.subset (List.mem_cons_of_mem _ hy)
    rcases List.mem_cons.1 (i3.subset h1) with rfl | h2
    · exact hb
    · exact QuadNode.Inv_contains h (QuadNode.child_subset b c0 c1 c2 c3 pts d _ h2)
  have hi2 := QuadNode.Inv_setChild h h0 (b.GetQuadrant p) k2 r1 (r2 _ _ (i2 _ _ hcf)) hsub
  obtain ⟨n3, g, t1, _⟩ := QuadNode.TryMerge_spec md mc _ hi2
  rw [QuadNode.Remove_setChild mc b c0 c1 c2 c3 pts d p k hb h0 (QuadNode.Inv_ne_null i1), hk2]
  simp only [if_true, t1]
  exact ⟨n3, rfl⟩

/-- The recursive `Remove` of a point succeeds right after its `Insert`. -/
theorem QuadNode.Remove_after_Insert (md mc : Nat) (p : Point2D) (n : QuadNode)
    (hinv : n.Inv md mc) (hc : ∀ b, n.boundaryOf = some b → b.Contains p = true) :
    ∀ n1, n.Insert md mc p = some n1 → ∃ n2, n1.Remove mc p = some (n2, true) := by
  refine QuadNode.Insert_induct md mc p
    (fun n => ∀ n1, n.Insert md mc p = some n1 → ∃ n2, n1.Remove mc p = some (n2, true))
    ?_ ?_ ?_ n hinv hc
  · intro b pts d hi hb hcond n1 h1
    rw [QuadNode.Insert_push md mc b _ _ _ _ pts d p hb hcond] at h1
    simp only [Option.some.injEq] at h1
    subst h1
    rw [QuadNode.Remove_leaf mc b _ _ _ _ d p hb]
    cases he : eraseFirst p (pts ++ [p]) with
    | none =>
      rw [eraseFirst_none] at he
      have := he p (by simp)
      rw [Point2D.opEq_self] at this
      exact Bool.noConfusion this
    | some r => exact ⟨_, rfl⟩
  · intro b pts d hi hb hcond ih n1 h1
    have hs := QuadNode.Inv_splitOf hi hcond
    obtain ⟨k, hk, hkI⟩ := QuadNode.Insert_spec md mc p
      (QuadNode.new (b.quadrantBox (b.GetQuadrant p)) (d + 1)) (QuadNode.Inv_new _ _ _ _)
      (by
        intro b' hb'
        simp only [QuadNode.new, QuadNode.boundaryOf, Option.some.injEq] at hb'
        subst hb'
        exact Box.quadrantBox_Contains b p hb)
    rw [QuadNode.Insert_split md mc b _ _ _ pts d p hb hcond, hk] at h1
    simp only [Option.map_some', Option.some.injEq] at h1
    subst h1
    rw [← QuadNode.child_splitOf b pts d] at hkI
    exact QuadNode.Remove_setChild_true hs hb (QuadNode.new_ne_null _ _) k hkI (ih k hk)
  · intro b c0 c1 c2 c3 pts d hi hb hcond h0 ih n1 h1
    obtain ⟨hcond', hci, hcf⟩ := QuadNode.Inv_child hi h0 (b.GetQuadrant p)
    obtain ⟨k, hk, hkI⟩ := QuadNode.Insert_spec md mc p _ hci
      (by
        intro b' hb'
        rw [QuadNode.Framed_iff] at hcf
        obtain ⟨k0, k1, k2, k3, kpts, hk⟩ := hcf
        rw [hk] at hb'
        simp only [QuadNode.boundaryOf, Option.some.injEq] at hb'
        subst hb'
        exact Box.quadrantBox_Contains b p hb)
    rw [QuadNode.Insert_descend md mc b c0 c1 c2 c3 pts d p hb hcond h0, hk] at h1
    simp only [Option.map_some', Option.some.injEq] at h1
    subst h1
    exact QuadNode.Remove_setChild_true hi hb h0 k hkI (ih k hk)

theorem QuadNode.boundaryOf_contains {n : QuadNode} {b : Box} {p : Point2D}
    (hb : n.boundaryOf = some b) (hp : b.Contains p = true) :
    ∀ b1, n.boundaryOf = some b1 → b1.Contains p = true := by
  intro b1 h1
  rw [hb] at h1
  simp only [Option.some.injEq] at h1
  subst h1
  exact hp

/-- C1: in every reachable tree, after `Insert(p)` of a point `p` of the root
boundary, `Search(range)` with a range that contains `p` returns a sequence
that holds `p`; it holds `p` exactly once when `p` was stored nowhere in the
tree before the insertion. -/
theorem C1_insert_then_search (t : QuadTree) (h : Reachable t) (b : Box)
    (hb : t.root.boundaryOf = some b) (p : Point2D) (hp : b.Contains p = true)
    (range : Box) (hr : range.Contains p = true) :
    ∃ t1 r, t.Insert p = some t1 ∧ t1.Search range [] = some r ∧ p ∈ r ∧
      (p ∉ t.root.allPoints → r.count p = 1) := by
  obtain ⟨n1, h1, i1, _, i3, i4⟩ := QuadNode.Insert_spec t.maxDepth t.maxChildren p t.root
    h.inv.1 (QuadNode.boundaryOf_contains hb hp)
  have hs := QuadNode.Search_eq t.maxDepth t.maxChildren n1 range [] i1
  have hmem : p ∈ n1.leafPoints.filter (fun point => range.Contains point) :=
    List.mem_filter.2 ⟨i4, hr⟩
  refine ⟨{ t with root := n1 }, _, by simp [QuadTree.Insert, h1], hs, by simpa using hmem, ?_⟩
  intro hnot
  have h1 : ([] ++ n1.leafPoints.filter (fun point => range.Contains point)).count p
      ≤ n1.allPoints.count p := by
    rw [List.nil_append]
    exact le_trans (List.Sublist.count_le (List.filter_sublist _) p)
      (List.Sublist.count_le (QuadNode.leafPoints_sublist n1) p)
  have h2 : n1.allPoints.count p = 1 := by
    rw [i3.count_eq, List.count_cons_self, List.count_eq_zero_of_not_mem hnot]
  have h3 : 0 < ([] ++ n1.leafPoints.filter (fun point => range.Contains point)).count p :=
    List.count_pos_iff.2 (by simpa using hmem)
  omega

/-- In every reachable tree, `Insert(P)` of a point of the root boundary
stores exactly one more point, the following recursive `Remove(P)` reports
true and erases exactly one, so the number of stored points is as before. -/
theorem QuadTree.Insert_Remove_count (t : QuadTree) (h : Reachable t) (b : Box)
    (hb : t.root.boundaryOf = some b) (P : Point2D) (hp : b.Contains P = true) :
    ∃ t1 r2, t.Insert P = some t1 ∧
      t1.root.Remove t1.maxChildren P = some (r2, true) ∧
      t1.Remove P = some { t1 with root := r2 } ∧
      t1.root.allPoints.length = t.root.allPoints.length + 1 ∧
      r2.allPoints.length = t.root.allPoints.length := by
  obtain ⟨n1, h1, i1, _, i3, _⟩ := QuadNode.Insert_spec t.maxDepth t.maxChildren P t.root
    h.inv.1 (QuadNode.boundaryOf_contains hb hp)
  obtain ⟨n2, h2⟩ := QuadNode.Remove_after_Insert t.maxDepth t.maxChildren P t.root h.inv.1
    (QuadNode.boundaryOf_contains hb hp) n1 h1
  obtain ⟨n3, f, e1, _, _, _, r4⟩ := QuadNode.Remove_spec t.maxDepth t.maxChildren P n1 i1
  rw [h2] at e1
  simp only [Option.some.injEq, Prod.mk.injEq] at e1
  obtain ⟨rfl, rfl⟩ := e1
  obtain ⟨x, _, hx⟩ := r4 rfl
  have l1 := i3.length_eq
  have l2 := hx.length_eq
  simp only [List.length_cons] at l1 l2
  refine ⟨{ t with root := n1 }, n2, by simp [QuadTree.Insert, h1], h2, ?_, l1, by omega⟩
  simp [QuadTree.Remove, h2]

theorem C1_insert_then_search_witness :
    (Box.new 0 0 100 100).Contains ⟨10, 10⟩ = true ∧
    (Box.new 10 10 1 1).Contains ⟨10, 10⟩ = true ∧
    ∃ t1 r, (QuadTree.new 0 0 100 100 4 4).Insert ⟨10, 10⟩ = some t1 ∧
      t1.Search (Box.new 10 10 1 1) [] = some r ∧ (⟨10, 10⟩ : Point2D) ∈ r ∧
      ((⟨10, 10⟩ : Point2D) ∉ (QuadTree.new 0 0 100 100 4 4).root.allPoints →
        r.count ⟨10, 10⟩ = 1) :=
  ⟨by norm_num [Box.Contains, Box.new], by norm_num [Box.Contains, Box.new],
    C1_insert_then_search (QuadTree.new 0 0 100 100 4 4) (Reachable.new 0 0 100 100 4 4)
      (Box.new 0 0 100 100) rfl ⟨10, 10⟩ (by norm_num [Box.Contains, Box.new])
      (Box.new 10 10 1 1) (by norm_num [Box.Contains, Box.new])⟩

/-- C8: in every reachable tree `Clear()` returns; afterwards the root is a
leaf at depth 0 with an empty bucket and no children, its boundary has the
former width and height and the center (0, 0), `maxDepth` and `maxChildren`
are unchanged, and `Search` with any range appends no point. -/
theorem C8_clear_postcondition (t : QuadTree) (h : Reachable t) :
    ∃ b t1, t.root.boundaryOf = some b ∧ t.Clear = some t1 ∧
      t1.root = QuadNode.node ⟨⟨0, 0⟩, b.width, b.height⟩ .null .null .null .null [] 0 ∧
      t1.root.IsLeaf = some true ∧
      t1.maxDepth = t.maxDepth ∧ t1.maxChildren = t.maxChildren ∧
      ∀ range values, t1.Search range values = some values := by
  obtain ⟨b, hf⟩ := h.inv.2
  rw [QuadNode.Framed_iff] at hf
  obtain ⟨k0, k1, k2, k3, pts, hroot⟩ := hf
  refine ⟨b, { t with root := QuadNode.new (Box.new 0 0 b.width b.height) 0 },
    by rw [hroot]; rfl, by simp only [QuadTree.Clear, hroot], rfl, rfl, rfl, rfl, ?_⟩
  intro range values
  simp only [QuadTree.Search, QuadNode.new, QuadNode.Search]
  split_ifs <;> simp

theorem C8_clear_postcondition_witness :
    ∃ b t1, (QuadTree.new 5 7 100 50 4 4).root.boundaryOf = some b ∧
      (QuadTree.new 5 7 100 50 4 4).Clear = some t1 ∧
      t1.root = QuadNode.node ⟨⟨0, 0⟩, b.width, b.height⟩ .null .null .null .null [] 0 ∧
      t1.root.IsLeaf = some true ∧
      t1.maxDepth = (QuadTree.new 5 7 100 50 4 4).maxDepth ∧
      t1.maxChildren = (QuadTree.new 5 7 100 50 4 4).maxChildren ∧
      ∀ range values, t1.Search range values = some values :=
  C8_clear_postcondition (QuadTree.new 5 7 100 50 4 4) (Reachable.new 5 7 100 50 4 4)

/-- C9: in every reachable tree a second `Clear()` returns the state that the
first one produced: an empty leaf root with the width and height unchanged. -/
theorem C9_clear_idempotent (t : QuadTree) (h : Reachable t) :
    ∃ b t1, t.root.boundaryOf = some b ∧ t.Clear = some t1 ∧ t1.Clear = some t1 ∧
      t.Clear.bind QuadTree.Clear = t.Clear ∧ t1.root.allPoints = [] ∧
      ∃ b1, t1.root.boundaryOf = some b1 ∧ b1.width = b.width ∧ b1.height = b.height := by
  obtain ⟨b, hf⟩ := h.inv.2
  rw [QuadNode.Framed_iff] at hf
  obtain ⟨k0, k1, k2, k3, pts, hroot⟩ := hf
  have h1 : t.Clear = some { t with root := QuadNode.new (Box.new 0 0 b.width b.height) 0 } := by
    simp only [QuadTree.Clear, hroot]
  have h2 : ({ t with root := QuadNode.new (Box.new 0 0 b.width b.height) 0 } : QuadTree).Clear
      = some { t with root := QuadNode.new (Box.new 0 0 b.width b.height) 0 } := rfl
  refine ⟨b, _, by rw [hroot]; rfl, h1, h2, ?_, rfl, _, rfl, rfl, rfl⟩
  rw [h1]
  exact h2

theorem C9_clear_idempotent_witness :
    ∃ b t1, (QuadTree.new 5 7 100 50 4 4).root.boundaryOf = some b ∧
      (QuadTree.new 5 7 100 50 4 4).Clear = some t1 ∧ t1.Clear = some t1 ∧
      (QuadTree.new 5 7 100 50 4 4).Clear.bind QuadTree.Clear
        = (QuadTree.new 5 7 100 50 4 4).Clear ∧
      t1.root.allPoints = [] ∧
      ∃ b1, t1.root.boundaryOf = some b1 ∧ b1.width = b.width ∧ b1.height = b.height :=
  C9_clear_idempotent (QuadTree.new 5 7 100 50 4 4) (Reachable.new 5 7 100 50 4 4)

/-- C10: for boxes of positive width and height, `a.Intersection(b)` is true
exactly when some point is contained in both boxes, and the test is
symmetric. -/
theorem C10_intersection_iff (a b : Box) (haw : 0 < a.width) (hah : 0 < a.height)
    (hbw : 0 < b.width) (hbh : 0 < b.height) :
    (a.Intersection b = true ↔ ∃ p, a.Contains p = true ∧ b.Contains p = true) ∧
      a.Intersection b = b.Intersection a := by
  constructor
  · constructor
    · intro h
      rw [Box.Intersection_iff] at h
      obtain ⟨h1, h2, h3, h4⟩ := h
      refine ⟨⟨max (a.center.x - a.width / 2) (b.center.x - b.width / 2),
        max (a.center.y - a.height / 2) (b.center.y - b.height / 2)⟩, ?_, ?_⟩
      · rw [Box.Contains_iff]
        refine ⟨le_max_left _ _, max_le (by linarith) h1, le_max_left _ _, max_le (by linarith) h4⟩
      · rw [Box.Contains_iff]
        refine ⟨le_max_right _ _, max_le h2 (by linarith), le_max_right _ _,
          max_le h3 (by linarith)⟩
    · rintro ⟨p, h1, h2⟩
      exact Box.Intersection_of_Contains a b p h1 h2
  · rw [Bool.eq_iff_iff, Box.Intersection_iff, Box.Intersection_iff]
    tauto

theorem C10_intersection_iff_witness :
    ((Box.new 0 0 2 2).Intersection (Box.new 2 2 2 2) = true ↔
      ∃ p, (Box.new 0 0 2 2).Contains p = true ∧ (Box.new 2 2 2 2).Contains p = true) ∧
      (Box.new 0 0 2 2).Intersection (Box.new 2 2 2 2)
        = (Box.new 2 2 2 2).Intersection (Box.new 0 0 2 2) :=
  C10_intersection_iff (Box.new 0 0 2 2) (Box.new 2 2 2 2) (by simp [Box.new])
    (by simp [Box.new]) (by simp [Box.new]) (by simp [Box.new])

theorem QuadNode.Tidy_new (box : Box) (d : Nat) : (QuadNode.new box d).Tidy := by
  simp [QuadNode.new, QuadNode.Tidy]

theorem QuadNode.Fresh_new (md mc : Nat) (box : Box) (d : Nat) :
    (QuadNode.new box d).Fresh md mc := by
  simp [QuadNode.new, QuadNode.Fresh]

theorem QuadNode.Tidy_child {b : Box} {c0 c1 c2 c3 : QuadNode} {pts : List Point2D} {d : Nat}
    (h : (QuadNode.node b c0 c1 c2 c3 pts d).Tidy) (h0 : c0 ≠ QuadNode.null) (q : Quadrant) :
    pts = [] ∧ ((QuadNode.node b c0 c1 c2 c3 pts d).child q).Tidy ∧
      ∀ x ∈ ((QuadNode.node b c0 c1 c2 c3 pts d).child q).allPoints, b.GetQuadrant x = q := by
  unfold QuadNode.Tidy at h
  rcases h with h | ⟨hp, g0, g1, g2, g3, t0, t1, t2, t3⟩
  · exact absurd h h0
  · cases q <;> simp only [QuadNode.child] <;> exact ⟨hp, by assumption, by assumption⟩

theorem QuadNode.Tidy_setChild {b : Box} {c0 c1 c2 c3 : QuadNode} {pts : List Point2D} {d : Nat}
    (h : (QuadNode.node b c0 c1 c2 c3 pts d).Tidy) (h0 : c0 ≠ QuadNode.null) (q : Quadrant)
    (k : QuadNode) (hk : k.Tidy) (hq : ∀ x ∈ k.allPoints, b.GetQuadrant x = q) :
    ((QuadNode.node b c0 c1 c2 c3 pts d).setChild q k).Tidy := by
  unfold QuadNode.Tidy at h
  rcases h with h | ⟨hp, g0, g1, g2, g3, t0, t1, t2, t3⟩
  · exact absurd h h0
  · cases q <;> simp only [QuadNode.setChild] <;> unfold QuadNode.Tidy <;>
      exact Or.inr ⟨hp, by assumption, by assumption, by assumption, by assumption,
        by assumption, by assumption, by assumption, by assumption⟩

theorem QuadNode.Fresh_child {md mc : Nat} {b : Box} {c0 c1 c2 c3 : QuadNode}
    {pts : List Point2D} {d : Nat}
    (h : (QuadNode.node b c0 c1 c2 c3 pts d).Fresh md mc) (h0 : c0 ≠ QuadNode.null)
    (q : Quadrant) : ((QuadNode.node b c0 c1 c2 c3 pts d).child q).Fresh md mc := by
  unfold QuadNode.Fresh at h
  rcases h with h | ⟨_, t0, t1, t2, t3⟩
  · exact absurd h.1 h0
  · cases q <;> simp only [QuadNode.child] <;> assumption

theorem QuadNode.Fresh_setChild {md mc : Nat} {b : Box} {c0 c1 c2 c3 : QuadNode}
    {pts : List Point2D} {d : Nat}
    (h : (QuadNode.node b c0 c1 c2 c3 pts d).Fresh md mc) (h0 : c0 ≠ QuadNode.null)
    (q : Quadrant) (k : QuadNode) (hk : k.Fresh md mc) (hn : k ≠ QuadNode.null) :
    ((QuadNode.node b c0 c1 c2 c3 pts d).setChild q k).Fresh md mc := by
  unfold QuadNode.Fresh at h
  rcases h with h | ⟨_, t0, t1, t2, t3⟩
  · exact absurd h.1 h0
  · cases q <;> simp only [QuadNode.setChild] <;> unfold QuadNode.Fresh <;>
      exact Or.inr ⟨by assumption, by assumption, by assumption, by assumption, by assumption⟩

theorem QuadNode.Tidy_splitOf (b : Box) (d : Nat) : (QuadNode.splitOf b [] d).Tidy := by
  simp [QuadNode.splitOf, QuadNode.Tidy, QuadNode.new, QuadNode.allPoints]

theorem QuadNode.Fresh_splitOf (md mc : Nat) (b : Box) (pts : List Point2D) (d : Nat) :
    (QuadNode.splitOf b pts d).Fresh md mc := by
  simp [QuadNode.splitOf, QuadNode.Fresh, QuadNode.new]

/-- `Insert` keeps the shape of an insert-only tree. -/
theorem QuadNode.Insert_tidy (md mc : Nat) (p : Point2D) (n : QuadNode) (hinv : n.Inv md mc)
    (hc : ∀ b, n.boundaryOf = some b → b.Contains p = true) :
    n.Tidy → n.Fresh md mc → ∀ n1, n.Insert md mc p = some n1 → n1.Tidy ∧ n1.Fresh md mc := by
  refine QuadNode.Insert_induct md mc p
    (fun n => n.Tidy → n.Fresh md mc → ∀ n1, n.Insert md mc p = some n1 →
      n1.Tidy ∧ n1.Fresh md mc) ?_ ?_ ?_ n hinv hc
  · intro b pts d hi hb hcond _ _ n1 h1
    rw [QuadNode.Insert_push md mc b _ _ _ _ pts d p hb hcond] at h1
    simp only [Option.some.injEq] at h1
    subst h1
    refine ⟨by simp [QuadNode.Tidy], ?_⟩
    unfold QuadNode.Fresh
    refine Or.inl ⟨rfl, Or.inr ?_⟩
    intro hcon
    apply hcond
    simp only [List.length_append, List.length_singleton] at hcon
    exact ⟨by omega, hcon.2⟩
  · intro b pts d hi hb hcond ih _ hf n1 h1
    have hpts : pts = [] := by
      unfold QuadNode.Fresh at hf
      rcases hf with ⟨_, h | h⟩ | ⟨h, _⟩
      · exact h
      · exact absurd hcond h
      · exact absurd rfl h
    subst hpts
    have hs := QuadNode.Inv_splitOf hi hcond
    obtain ⟨k, hk, hkI⟩ := QuadNode.Insert_spec md mc p
      (QuadNode.new (b.quadrantBox (b.GetQuadrant p)) (d + 1)) (QuadNode.Inv_new _ _ _ _)
      (by
        intro b' hb'
        simp only [QuadNode.new, QuadNode.boundaryOf, Option.some.injEq] at hb'
        subst hb'
        exact Box.quadrantBox_Contains b p hb)
    obtain ⟨kt, kf⟩ := ih (QuadNode.Tidy_new _ _) (QuadNode.Fresh_new _ _ _ _) k hk
    rw [QuadNode.Insert_split md mc b _ _ _ [] d p hb hcond, hk] at h1
    simp only [Option.map_some', Option.some.injEq] at h1
    subst h1
    obtain ⟨i1, _, i3, _⟩ := hkI
    refine ⟨?_, ?_⟩
    · apply QuadNode.Tidy_setChild (QuadNode.Tidy_splitOf b d) (QuadNode.new_ne_null _ _) _ k kt
      intro x hx
      have := i3.subset hx
      simp only [QuadNode.new, QuadNode.allPoints, List.append_nil, List.mem_singleton] at this
      rw [this]
    · exact QuadNode.Fresh_setChild (QuadNode.Fresh_splitOf md mc b [] d)
        (QuadNode.new_ne_null _ _) _ k kf (QuadNode.Inv_ne_null i1)
  · intro b c0 c1 c2 c3 pts d hi hb hcond h0 ih ht hf n1 h1
    obtain ⟨hcond', hci, hcf⟩ := QuadNode.Inv_child hi h0 (b.GetQuadrant p)
    obtain ⟨k, hk, hkI⟩ := QuadNode.Insert_spec md mc p _ hci
      (by
        intro b' hb'
        rw [QuadNode.Framed_iff] at hcf
        obtain ⟨k0, k1, k2, k3, kpts, hk⟩ := hcf
        rw [hk] at hb'
        simp only [QuadNode.boundaryOf, Option.some.injEq] at hb'
        subst hb'
        exact Box.quadrantBox_Contains b p hb)
    obtain ⟨tp, tc, tq⟩ := QuadNode.Tidy_child ht h0 (b.GetQuadrant p)
    obtain ⟨kt, kf⟩ := ih tc (QuadNode.Fresh_child hf h0 _) k hk
    rw [QuadNode.Insert_descend md mc b c0 c1 c2 c3 pts d p hb hcond h0, hk] at h1
    simp only [Option.map_some', Option.some.injEq] at h1
    subst h1
    obtain ⟨i1, _, i3, _⟩ := hkI
    refine ⟨?_, ?_⟩
    · apply QuadNode.Tidy_setChild ht h0 _ k kt
      intro x hx
      rcases List.mem_cons.1 (i3.subset hx) with rfl | hx'
      · rfl
      · exact tq x hx'
    · exact QuadNode.Fresh_setChild hf h0 _ k kf (QuadNode.Inv_ne_null i1)

/-- In a tidy tree every stored point is in a leaf bucket. -/
theorem QuadNode.Tidy_leafPoints (md mc : Nat) (n : QuadNode) (hinv : n.Inv md mc)
    (ht : n.Tidy) : n.leafPoints = n.allPoints := by
  induction n with
  | null => rfl
  | node b c0 c1 c2 c3 pts d ih0 ih1 ih2 ih3 =>
    by_cases h0 : c0 = QuadNode.null
    · obtain ⟨h1, h2, h3⟩ := QuadNode.Inv_leaf hinv h0
      subst h0 h1 h2 h3
      simp [QuadNode.leafPoints, QuadNode.allPoints]
    · have q0 := QuadNode.Inv_child hinv h0 Quadrant.NE
      have q1 := QuadNode.Inv_child hinv h0 Quadrant.NW
      have q2 := QuadNode.Inv_child hinv h0 Quadrant.SE
      have q3 := QuadNode.Inv_child hinv h0 Quadrant.SW
      have t0 := QuadNode.Tidy_child ht h0 Quadrant.NE
      have t1 := QuadNode.Tidy_child ht h0 Quadrant.NW
      have t2 := QuadNode.Tidy_child ht h0 Quadrant.SE
      have t3 := QuadNode.Tidy_child ht h0 Quadrant.SW
      simp only [QuadNode.child] at q0 q1 q2 q3 t0 t1 t2 t3
      simp only [QuadNode.leafPoints, QuadNode.allPoints, h0, if_false, t0.1, List.nil_append,
        ih0 q0.2.1 t0.2.1, ih1 q1.2.1 t1.2.1, ih2 q2.2.1 t2.2.1, ih3 q3.2.1 t3.2.1]

/-- The recursive `Remove` keeps a tidy tree tidy. -/
theorem QuadNode.Remove_tidy (md mc : Nat) (p : Point2D) (n : QuadNode) (hinv : n.Inv md mc)
    (ht : n.Tidy) : ∀ n1 f, n.Remove mc p = some (n1, f) → n1.Tidy := by
  induction n with
  | null => simp [QuadNode.Inv] at hinv
  | node b c0 c1 c2 c3 pts d ih0 ih1 ih2 ih3 =>
    intro n1 f h1
    by_cases hb : b.Contains p = true
    · by_cases h0 : c0 = QuadNode.null
      · subst h0
        rw [QuadNode.Remove_leaf mc b _ _ _ pts d p hb] at h1
        cases he : eraseFirst p pts with
        | none =>
          simp only [he, Option.some.injEq, Prod.mk.injEq] at h1
          rw [← h1.1]
          simp [QuadNode.Tidy]
        | some r =>
          simp only [he, Option.some.injEq, Prod.mk.injEq] at h1
          rw [← h1.1]
          simp [QuadNode.Tidy]
      · obtain ⟨hcond, hci, hcf⟩ := QuadNode.Inv_child hinv h0 (b.GetQuadrant p)
        obtain ⟨tp, tc, tq⟩ := QuadNode.Tidy_child ht h0 (b.GetQuadrant p)
        have ihq : ∀ k g, ((QuadNode.node b c0 c1 c2 c3 pts d).child (b.GetQuadrant p)).Remove mc p
            = some (k, g) → k.Tidy := by
          revert hci tc
          cases b.GetQuadrant p <;> simp only [QuadNode.child] <;> intro hci tc
          · exact ih0 hci tc
          · exact ih1 hci tc
          · exact ih2 hci tc
          · exact ih3 hci tc
        obtain ⟨k, g, hk, r1, r2, r3, r4⟩ := QuadNode.Remove_spec md mc p _ hci
        rw [QuadNode.Remove_descend mc b c0 c1 c2 c3 pts d p hb h0, hk] at h1
        cases g with
        | false =>
          simp only [Bool.false_eq_true, if_false, Option.some.injEq, Prod.mk.injEq] at h1
          rw [← h1.1, r3 rfl, QuadNode.setChild_child]
          exact ht
        | true =>
          obtain ⟨x, hx1, hx2⟩ := r4 rfl
          have hsubk : ∀ y ∈ k.allPoints,
              y ∈ ((QuadNode.node b c0 c1 c2 c3 pts d).child (b.GetQuadrant p)).allPoints :=
            fun y hy => hx2.symm.subset (List.mem_cons_of_mem _ hy)
          have hsub : ∀ y ∈ k.allPoints, b.Contains y = true := fun y hy =>
            QuadNode.Inv_contains hinv (QuadNode.child_subset b c0 c1 c2 c3 pts d _ (hsubk y hy))
          have hi2 := QuadNode.Inv_setChild hinv h0 (b.GetQuadrant p) k r1 (r2 _ _ hcf) hsub
          have ht2 := QuadNode.Tidy_setChild ht h0 (b.GetQuadrant p) k (ihq k true hk)
            (fun y hy => tq y (hsubk y hy))
          obtain ⟨n3, g3, e1, _, _, _, e5, e6⟩ := QuadNode.TryMerge_spec md mc _ hi2
          simp only [if_true, e1, Option.some.injEq, Prod.mk.injEq] at h1
          rw [← h1.1]
          cases g3 with
          | false => rw [e5 rfl]; exact ht2
          | true =>
            -- the merged node is a leaf
            have hm := e1
            revert hm
            cases b.GetQuadrant p <;> simp only [QuadNode.setChild, QuadNode.TryMerge] <;>
              intro hm <;> split_ifs at hm <;> (try split at hm) <;> (try split_ifs at hm) <;>
              simp only [Option.some.injEq, Prod.mk.injEq, Bool.false_eq_true, and_false,
                and_true, reduceCtorEq] at hm <;>
              (rw [← hm]; simp [QuadNode.Tidy])
    · simp only [Bool.not_eq_true] at hb
      rw [QuadNode.Remove_out mc b c0 c1 c2 c3 pts d p hb] at h1
      simp only [Option.some.injEq, Prod.mk.injEq] at h1
      rw [← h1.1]
      exact ht

/-- In a tidy tree the recursive `Remove` of a stored point that `operator==`
equates with no other stored point succeeds and erases that very point. -/
theorem QuadNode.Remove_exact (md mc : Nat) (p : Point2D) (n : QuadNode) (hinv : n.Inv md mc)
    (ht : n.Tidy) (hp : p ∈ n.allPoints)
    (hu : ∀ x ∈ n.allPoints, x.opEq p = true → x = p) :
    ∃ n1, n.Remove mc p = some (n1, true) ∧ List.Perm n.allPoints (p :: n1.allPoints) := by
  have key : ∃ n1, n.Remove mc p = some (n1, true) := by
    clear hu
    induction n with
    | null => simp [QuadNode.Inv] at hinv
    | node b c0 c1 c2 c3 pts d ih0 ih1 ih2 ih3 =>
      have hb : b.Contains p = true := QuadNode.Inv_contains hinv hp
      by_cases h0 : c0 = QuadNode.null
      · obtain ⟨h1, h2, h3⟩ := QuadNode.Inv_leaf hinv h0
        subst h0 h1 h2 h3
        rw [QuadNode.Remove_leaf mc b _ _ _ pts d p hb]
        cases he : eraseFirst p pts with
        | none =>
          rw [eraseFirst_none] at he
          have hp' : p ∈ pts := by simpa [QuadNode.allPoints] using hp
          have := he p hp'
          rw [Point2D.opEq_self] at this
          exact Bool.noConfusion this
        | some r => exact ⟨_, rfl⟩
      · obtain ⟨hcond, hci, hcf⟩ := QuadNode.Inv_child hinv h0 (b.GetQuadrant p)
        obtain ⟨tp, tc, tq⟩ := QuadNode.Tidy_child ht h0 (b.GetQuadrant p)
        have hmem : p ∈ ((QuadNode.node b c0 c1 c2 c3 pts d).child (b.GetQuadrant p)).allPoints := by
          have t0 := (QuadNode.Tidy_child ht h0 Quadrant.NE).2.2
          have t1 := (QuadNode.Tidy_child ht h0 Quadrant.NW).2.2
          have t2 := (QuadNode.Tidy_child ht h0 Quadrant.SE).2.2
          have t3 := (QuadNode.Tidy_child ht h0 Quadrant.SW).2.2
          simp only [QuadNode.child] at t0 t1 t2 t3
          subst tp
          simp only [QuadNode.allPoints, List.nil_append, List.mem_append] at hp
          rcases hp with hp | hp | hp | hp
          · rw [t0 p hp]; exact hp
          · rw [t1 p hp]; exact hp
          · rw [t2 p hp]; exact hp
          · rw [t3 p hp]; exact hp
        have ihq : ∃ k, ((QuadNode.node b c0 c1 c2 c3 pts d).child (b.GetQuadrant p)).Remove mc p
            = some (k, true) := by
          revert hci tc hmem
          cases b.GetQuadrant p <;> simp only [QuadNode.child] <;> intro hci tc hmem
          · exact ih0 hci tc hmem
          · exact ih1 hci tc hmem
          · exact ih2 hci tc hmem
          · exact ih3 hci tc hmem
        obtain ⟨k, hk⟩ := ihq
        obtain ⟨n1, f, e1, _⟩ := QuadNode.Remove_spec md mc p _ hinv
        rw [QuadNode.Remove_descend mc b c0 c1 c2 c3 pts d p hb h0, hk] at e1
        simp only [if_true] at e1
        split at e1
        · simp at e1
        · simp only [Option.some.injEq, Prod.mk.injEq] at e1
          rw [QuadNode.Remove_descend mc b c0 c1 c2 c3 pts d p hb h0, hk]
          simp only [if_true]
          rename_i hm
          rw [hm]
          exact ⟨_, rfl⟩
  obtain ⟨n1, h1⟩ := key
  obtain ⟨n2, f, e1, _, _, _, r4⟩ := QuadNode.Remove_spec md mc p n hinv
  rw [h1] at e1
  simp only [Option.some.injEq, Prod.mk.injEq] at e1
  obtain ⟨rfl, rfl⟩ := e1
  obtain ⟨x, hx1, hx2⟩ := r4 rfl
  have hx : x = p := hu x (hx2.symm.subset (List.mem_cons_self _ _)) hx1
  subst hx
  exact ⟨n1, h1, hx2⟩

/-- Inserting a list of points of the root boundary into a tree of
insert-only shape returns a tree of that shape that stores them all. -/
theorem QuadTree.InsertAll_spec (t : QuadTree) (b : Box) (hb : t.root.boundaryOf = some b)
    (L0 L : List Point2D) (hB : t.Built L0) (hL : ∀ q ∈ L, b.Contains q = true) :
    ∃ t1, t.InsertAll L = some t1 ∧ t1.Built (L0 ++ L) ∧ t1.root.boundaryOf = some b ∧
      t1.maxDepth = t.maxDepth ∧ t1.maxChildren = t.maxChildren := by
  induction L generalizing t L0 with
  | nil => exact ⟨t, rfl, by simpa using hB, hb, rfl, rfl⟩
  | cons p rest ih =>
    obtain ⟨hi, ht, hf, hp⟩ := hB
    have hc := QuadNode.boundaryOf_contains hb (hL p (List.mem_cons_self _ _))
    obtain ⟨n1, h1, i1, i2, i3, _⟩ := QuadNode.Insert_spec t.maxDepth t.maxChildren p t.root hi hc
    obtain ⟨t1, f1⟩ := QuadNode.Insert_tidy t.maxDepth t.maxChildren p t.root hi hc ht hf n1 h1
    have hb1 : n1.boundaryOf = some b := by
      cases hr : t.root with
      | null => rw [hr] at hb; simp [QuadNode.boundaryOf] at hb
      | node b' c0 c1 c2 c3 pts d =>
        rw [hr] at hb i2
        simp only [QuadNode.boundaryOf, Option.some.injEq] at hb
        subst hb
        have := i2 b' d (by simp [QuadNode.Framed])
        rw [QuadNode.Framed_iff] at this
        obtain ⟨k0, k1, k2, k3, kp, hk⟩ := this
        rw [hk]
        rfl
    have hB1 : ({ t with root := n1 } : QuadTree).Built (L0 ++ [p]) := by
      refine ⟨i1, t1, f1, ?_⟩
      exact i3.trans ((List.Perm.cons p hp).trans (List.perm_append_singleton p L0).symm)
    obtain ⟨t2, h2, b2, hb2, m1, m2⟩ := ih { t with root := n1 } hb1 (L0 ++ [p]) hB1
      (fun q hq => hL q (List.mem_cons_of_mem _ hq))
    refine ⟨t2, ?_, by simpa using b2, hb2, m1, m2⟩
    simp only [QuadTree.InsertAll, QuadTree.Insert, h1]
    exact h2

theorem QuadTree.Built_new (x y w h : ℚ) (md mc : Nat) : (QuadTree.new x y w h md mc).Built [] :=
  ⟨QuadNode.Inv_new _ _ _ _, QuadNode.Tidy_new _ _, QuadNode.Fresh_new _ _ _ _, List.Perm.refl _⟩

theorem QuadTree.InsertAll_cons_some (t t2 : QuadTree) (p : Point2D) (rest : List Point2D)
    (h : t.InsertAll (p :: rest) = some t2) :
    ∃ t1, t.Insert p = some t1 ∧ t1.InsertAll rest = some t2 := by
  simp only [QuadTree.InsertAll] at h
  cases h1 : t.Insert p with
  | none => simp [h1] at h
  | some t1 => exact ⟨t1, rfl, by simpa [h1] using h⟩

/-- After `Clear` of a tree with a root, `Search` appends nothing. -/
theorem QuadTree.Clear_search (t : QuadTree) (hn : t.root ≠ QuadNode.null) :
    ∃ t1, t.Clear = some t1 ∧ ∀ range values, t1.Search range values = some values := by
  cases hroot : t.root with
  | null => exact absurd hroot hn
  | node b c0 c1 c2 c3 pts d =>
    refine ⟨{ t with root := QuadNode.new (Box.new 0 0 b.width b.height) 0 },
      by simp only [QuadTree.Clear, hroot], ?_⟩
    intro range values
    simp only [QuadTree.Search, QuadNode.new, QuadNode.Search]
    split_ifs <;> simp

/-- `Search` on a tree of insert-only shape returns the stored points that
the range contains. -/
theorem QuadTree.Built_search (t : QuadTree) (L : List Point2D) (hB : t.Built L) (range : Box) :
    ∃ r, t.Search range [] = some r ∧
      List.Perm r (L.filter (fun point => range.Contains point)) := by
  obtain ⟨hi, ht, _, hp⟩ := hB
  refine ⟨_, QuadNode.Search_eq t.maxDepth t.maxChildren t.root range [] hi, ?_⟩
  rw [List.nil_append, QuadNode.Tidy_leafPoints _ _ _ hi ht]
  exact hp.filter _

/-- Removing from a tree of insert-only shape a stored point that occurs once
and that `operator==` equates with no other stored point: the tree afterwards
and what `Search` returns on it. -/
theorem QuadTree.Built_remove (t : QuadTree) (L : List Point2D) (hB : t.Built L) (p : Point2D)
    (h1 : L.count p = 1) (htol : ∀ q ∈ L, q.opEq p = true → q = p) (range : Box) :
    ∃ t2 r, t.Remove p = some t2 ∧ t2.root ≠ QuadNode.null ∧ t2.Search range [] = some r ∧
      List.Perm r ((L.erase p).filter (fun point => range.Contains point)) ∧ p ∉ r := by
  obtain ⟨hi, ht, _, hp⟩ := hB
  have hmemL : p ∈ L := List.count_pos_iff.1 (by omega)
  have hmem : p ∈ t.root.allPoints := hp.symm.subset hmemL
  obtain ⟨n2, e1, e2⟩ := QuadNode.Remove_exact t.maxDepth t.maxChildren p t.root hi ht hmem
    (fun x hx => htol x (hp.subset hx))
  obtain ⟨n3, f, e3, r1, _, _, _⟩ := QuadNode.Remove_spec t.maxDepth t.maxChildren p t.root hi
  rw [e1] at e3
  simp only [Option.some.injEq, Prod.mk.injEq] at e3
  obtain ⟨rfl, rfl⟩ := e3
  have t2 := QuadNode.Remove_tidy t.maxDepth t.maxChildren p t.root hi ht n2 true e1
  have hperm : List.Perm n2.allPoints (L.erase p) := by
    have h2 : List.Perm (p :: n2.allPoints) (p :: L.erase p) :=
      (e2.symm.trans hp).trans (List.perm_cons_erase hmemL)
    exact h2.cons_inv
  have hs := QuadNode.Search_eq t.maxDepth t.maxChildren n2 range [] r1
  rw [List.nil_append, QuadNode.Tidy_leafPoints _ _ _ r1 t2] at hs
  refine ⟨{ t with root := n2 }, _, by simp [QuadTree.Remove, e1], QuadNode.Inv_ne_null r1, hs,
    hperm.filter _, ?_⟩
  intro hin
  have h3 : p ∈ L.erase p := hperm.subset (List.mem_of_mem_filter hin)
  have h4 : (L.erase p).count p = 0 := by
    rw [List.count_erase_self]
    omega
  exact (List.count_eq_zero.1 h4) h3

/-- In a tree built from a fresh tree by inserting a list `L` of points of the
root boundary, after `Remove(p)` of an element `p` of `L` that occurs once and
that `operator==` equates with no other element, `Search(range)` returns, as a
multiset, the elements of `L` other than `p` that the range contains, and so
does not return `p`. -/
theorem QuadTree.remove_then_search (x y w h : ℚ) (md mc : Nat) (L : List Point2D)
    (hL : ∀ q ∈ L, (Box.new x y w h).Contains q = true) (p : Point2D)
    (h1 : L.count p = 1) (htol : ∀ q ∈ L, q.opEq p = true → q = p) (range : Box) :
    ∃ t1 t2 r, (QuadTree.new x y w h md mc).InsertAll L = some t1 ∧ t1.Remove p = some t2 ∧
      t2.Search range [] = some r ∧
      List.Perm r ((L.erase p).filter (fun point => range.Contains point)) ∧ p ∉ r := by
  obtain ⟨t1, e1, hB, _⟩ := QuadTree.InsertAll_spec (QuadTree.new x y w h md mc)
    (Box.new x y w h) rfl [] L (QuadTree.Built_new x y w h md mc) hL
  rw [List.nil_append] at hB
  obtain ⟨t2, r, e2, _, e3, e4, e5⟩ := QuadTree.Built_remove t1 L hB p h1 htol range
  exact ⟨t1, t2, r, e1, e2, e3, e4, e5⟩

theorem demoPoints_in_root : ∀ q ∈ demoPoints, (Box.new 0 0 100 100).Contains q = true := by
  intro q hq
  simp only [demoPoints, List.mem_cons, List.mem_singleton, List.not_mem_nil, or_false] at hq
  rcases hq with rfl | rfl | rfl | rfl <;> norm_num [Box.Contains, Box.new]

theorem demoPoints_count : demoPoints.count ⟨10, 10⟩ = 1 := by
  have h1 : (⟨-10, -10⟩ : Point2D) ≠ ⟨10, 10⟩ := by simp; norm_num
  have h2 : (⟨-10, 10⟩ : Point2D) ≠ ⟨10, 10⟩ := by simp; norm_num
  have h3 : (⟨10, -10⟩ : Point2D) ≠ ⟨10, 10⟩ := by simp; norm_num
  simp only [demoPoints]
  rw [List.count_cons_of_ne h1.symm, List.count_cons_self, List.count_cons_of_ne h2.symm,
    List.count_cons_of_ne h3.symm, List.count_nil]

theorem demoPoints_tol : ∀ q ∈ demoPoints, q.opEq ⟨10, 10⟩ = true → q = ⟨10, 10⟩ := by
  intro q hq
  simp only [demoPoints, List.mem_cons, List.mem_singleton, List.not_mem_nil, or_false] at hq
  rcases hq with rfl | rfl | rfl | rfl
  · intro h
    exfalso
    simp only [Point2D.opEq, EPSILON, Bool.and_eq_true, decide_eq_true_eq] at h
    have := h.1
    rw [abs_lt] at this
    norm_num at this
  · intro _; rfl
  · intro h
    exfalso
    simp only [Point2D.opEq, EPSILON, Bool.and_eq_true, decide_eq_true_eq] at h
    have := h.1
    rw [abs_lt] at this
    norm_num at this
  · intro h
    exfalso
    simp only [Point2D.opEq, EPSILON, Bool.and_eq_true, decide_eq_true_eq] at h
    have := h.2
    rw [abs_lt] at this
    norm_num at this

theorem demoPoints_filter :
    demoPoints.filter (fun point => (Box.new 10 10 1 1).Contains point) = [⟨10, 10⟩] := by
  have h1 : (Box.new 10 10 1 1).Contains ⟨-10, -10⟩ = false := by
    norm_num [Box.Contains, Box.new]
  have h2 : (Box.new 10 10 1 1).Contains ⟨10, 10⟩ = true := by
    norm_num [Box.Contains, Box.new]
  have h3 : (Box.new 10 10 1 1).Contains ⟨-10, 10⟩ = false := by
    norm_num [Box.Contains, Box.new]
  have h4 : (Box.new 10 10 1 1).Contains ⟨10, -10⟩ = false := by
    norm_num [Box.Contains, Box.new]
  simp [demoPoints, List.filter, h1, h2, h3, h4]

theorem demoPoints_erase_filter :
    (demoPoints.erase ⟨10, 10⟩).filter (fun point => (Box.new 10 10 1 1).Contains point) = [] := by
  have h1 : (Box.new 10 10 1 1).Contains ⟨-10, -10⟩ = false := by
    norm_num [Box.Contains, Box.new]
  have h3 : (Box.new 10 10 1 1).Contains ⟨-10, 10⟩ = false := by
    norm_num [Box.Contains, Box.new]
  have h4 : (Box.new 10 10 1 1).Contains ⟨10, -10⟩ = false := by
    norm_num [Box.Contains, Box.new]
  have e1 : (⟨-10, -10⟩ : Point2D) ≠ ⟨10, 10⟩ := by simp; norm_num
  have he : demoPoints.erase ⟨10, 10⟩ = [⟨-10, -10⟩, ⟨-10, 10⟩, ⟨10, -10⟩] := by
    simp only [demoPoints]
    rw [List.erase_cons_tail (by simpa using e1), List.erase_cons_head]
  rw [he]
  simp [List.filter, h1, h3, h4]

/-- C7: on `QuadTree(0, 0, 100, 100, 4, 4)`, after the four `Insert` calls of
the demo driver, `Search` with `Box(10, 10, 1, 1)` into an empty vector yields
exactly `[Point(10, 10)]`; after `Remove(10, 10)` the same `Search` yields the
empty sequence; after `Clear()` a `Search` with `Box(0, 0, 100, 100)` yields
the empty sequence. -/
theorem C7_demo_scenario :
    ∃ t1 t2 t3 t4 t5 t6,
      (QuadTree.new 0 0 100 100 4 4).Insert ⟨-10, -10⟩ = some t1 ∧
      t1.Insert ⟨10, 10⟩ = some t2 ∧ t2.Insert ⟨-10, 10⟩ = some t3 ∧
      t3.Insert ⟨10, -10⟩ = some t4 ∧
      t4.Search (Box.new 10 10 1 1) [] = some [⟨10, 10⟩] ∧
      t4.Remove ⟨10, 10⟩ = some t5 ∧
      t5.Search (Box.new 10 10 1 1) [] = some [] ∧
      t5.Clear = some t6 ∧
      t6.Search (Box.new 0 0 100 100) [] = some [] := by
  obtain ⟨t4, e, hB, _⟩ := QuadTree.InsertAll_spec (QuadTree.new 0 0 100 100 4 4)
    (Box.new 0 0 100 100) rfl [] demoPoints (QuadTree.Built_new 0 0 100 100 4 4)
    demoPoints_in_root
  rw [List.nil_append] at hB
  obtain ⟨t1, e1, e⟩ := QuadTree.InsertAll_cons_some _ _ _ _ e
  obtain ⟨t2, e2, e⟩ := QuadTree.InsertAll_cons_some _ _ _ _ e
  obtain ⟨t3, e3, e⟩ := QuadTree.InsertAll_cons_some _ _ _ _ e
  obtain ⟨t4', e4, e⟩ := QuadTree.InsertAll_cons_some _ _ _ _ e
  simp only [QuadTree.InsertAll, Option.some.injEq] at e
  subst e
  obtain ⟨r1, s1, p1⟩ := QuadTree.Built_search t4' demoPoints hB (Box.new 10 10 1 1)
  rw [demoPoints_filter] at p1
  rw [List.perm_singleton.1 p1] at s1
  obtain ⟨t5, r2, s2, hn, s3, p3, _⟩ := QuadTree.Built_remove t4' demoPoints hB ⟨10, 10⟩
    demoPoints_count demoPoints_tol (Box.new 10 10 1 1)
  rw [demoPoints_erase_filter] at p3
  rw [List.perm_nil.1 p3] at s3
  obtain ⟨t6, s4, s5⟩ := QuadTree.Clear_search t5 hn
  exact ⟨t1, t2, t3, t4', t5, t6, e1, e2, e3, e4, s1, s2, s3, s4, s5 _ _⟩

/-- The run that reaches `hiddenTree` from a fresh tree. -/
theorem hiddenTree_reached :
    ∃ t1 t2 t3, (QuadTree.new 0 0 100 100 0 2).Insert ⟨10, 10⟩ = some t1 ∧
      t1.Insert ⟨20, 20⟩ = some t2 ∧ t2.Remove ⟨10, 10⟩ = some t3 ∧
      t3.Insert ⟨30, 30⟩ = some hiddenTree := by
  have e1 : (QuadTree.new 0 0 100 100 0 2).Insert ⟨10, 10⟩
      = some ⟨.node (Box.new 0 0 100 100)
          (.node (Box.new 25 25 50 50) .null .null .null .null [⟨10, 10⟩] 1)
          (QuadNode.new (Box.new (-25) 25 50 50) 1)
          (QuadNode.new (Box.new 25 (-25) 50 50) 1)
          (QuadNode.new (Box.new (-25) (-25) 50 50) 1) [] 0, 0, 2⟩ := by
    simp [QuadTree.new, QuadTree.Insert, QuadNode.Insert, QuadNode.new, Box.new, Box.Contains,
      QuadNode.split, Box.GetQuadrant, QuadNode.child, QuadNode.setChild]
    norm_num
  have e2 : (⟨.node (Box.new 0 0 100 100)
          (.node (Box.new 25 25 50 50) .null .null .null .null [⟨10, 10⟩] 1)
          (QuadNode.new (Box.new (-25) 25 50 50) 1)
          (QuadNode.new (Box.new 25 (-25) 50 50) 1)
          (QuadNode.new (Box.new (-25) (-25) 50 50) 1) [] 0, 0, 2⟩ : QuadTree).Insert ⟨20, 20⟩
      = some ⟨.node (Box.new 0 0 100 100)
          (.node (Box.new 25 25 50 50) .null .null .null .null [⟨10, 10⟩, ⟨20, 20⟩] 1)
          (QuadNode.new (Box.new (-25) 25 50 50) 1)
          (QuadNode.new (Box.new 25 (-25) 50 50) 1)
          (QuadNode.new (Box.new (-25) (-25) 50 50) 1) [] 0, 0, 2⟩ := by
    simp [QuadTree.Insert, QuadNode.Insert, QuadNode.new, Box.new, Box.Contains,
      QuadNode.split, Box.GetQuadrant, QuadNode.child, QuadNode.setChild]
    norm_num
  have e3 : (⟨.node (Box.new 0 0 100 100)
          (.node (Box.new 25 25 50 50) .null .null .null .null [⟨10, 10⟩, ⟨20, 20⟩] 1)
          (QuadNode.new (Box.new (-25) 25 50 50) 1)
          (QuadNode.new (Box.new 25 (-25) 50 50) 1)
          (QuadNode.new (Box.new (-25) (-25) 50 50) 1) [] 0, 0, 2⟩ : QuadTree).Remove ⟨10, 10⟩
      = some ⟨.node (Box.new 0 0 100 100) .null .null .null .null [⟨20, 20⟩] 0, 0, 2⟩ := by
    norm_num [QuadTree.Remove, QuadNode.Remove, QuadNode.new, Box.new, Box.Contains,
      Box.GetQuadrant, eraseFirst, Point2D.opEq, EPSILON, QuadNode.TryMerge,
      QuadNode.TryMerge.count, QuadNode.pointsOf]
    simp
  have e4 : (⟨.node (Box.new 0 0 100 100) .null .null .null .null [⟨20, 20⟩] 0, 0, 2⟩ :
      QuadTree).Insert ⟨30, 30⟩ = some hiddenTree := by
    simp [hiddenTree, QuadTree.Insert, QuadNode.Insert, QuadNode.new, Box.new, Box.Contains,
      QuadNode.split, Box.GetQuadrant, QuadNode.child, QuadNode.setChild]
    norm_num
  exact ⟨_, _, _, e1, e2, e3, e4⟩

theorem hiddenTree_search :
    hiddenTree.Search (Box.new 0 0 100 100) [] = some [⟨30, 30⟩] := by
  norm_num [hiddenTree, QuadTree.Search, QuadNode.Search, QuadNode.new, Box.new,
    Box.Intersection, Box.GetTopLeft, Box.GetBottomRight, Box.Contains]
  simp

/-- C2, failing run: on `QuadTree(0, 0, 100, 100, 0, 2)` the calls
`Insert(10,10)`, `Insert(20,20)`, `Remove(10,10)`, `Insert(30,30)` reach a
state that still stores (20, 20), a point of `Box(0, 0, 100, 100)`, but
`Search` with that box returns only `[Point(30, 30)]`. -/
theorem C2_search_misses_stored_point :
    ∃ t1 t2 t3, (QuadTree.new 0 0 100 100 0 2).Insert ⟨10, 10⟩ = some t1 ∧
      t1.Insert ⟨20, 20⟩ = some t2 ∧ t2.Remove ⟨10, 10⟩ = some t3 ∧
      t3.Insert ⟨30, 30⟩ = some hiddenTree ∧
      (⟨20, 20⟩ : Point2D) ∈ hiddenTree.root.allPoints ∧
      (Box.new 0 0 100 100).Contains ⟨20, 20⟩ = true ∧
      hiddenTree.Search (Box.new 0 0 100 100) [] = some [⟨30, 30⟩] := by
  obtain ⟨t1, t2, t3, e1, e2, e3, e4⟩ := hiddenTree_reached
  refine ⟨t1, t2, t3, e1, e2, e3, e4, ?_, ?_, hiddenTree_search⟩
  · simp [hiddenTree, QuadNode.allPoints]
  · norm_num [Box.Contains, Box.new]

theorem allPoints_setChild_nil (b : Box) (c0 c1 c2 c3 : QuadNode) (pts : List Point2D)
    (d : Nat) (q : Quadrant) (k : QuadNode)
    (h1 : (QuadNode.node b c0 c1 c2 c3 pts d).allPoints = []) (h2 : k.allPoints = []) :
    ((QuadNode.node b c0 c1 c2 c3 pts d).setChild q k).allPoints = [] := by
  have h := (QuadNode.allPoints_setChild b c0 c1 c2 c3 pts d q k).length_eq
  rw [h1, h2] at h
  simp only [List.length_append, List.length_nil] at h
  exact List.length_eq_zero.1 (by omega)

/-- On an empty leaf, `Insert` of `p` followed by the recursive `Remove` of a
point `p1` that `operator==` equates with `p`, that the boundary contains and
that takes the same quadrants as `p` on the way down, succeeds and leaves no
point. -/
theorem QuadNode.Remove_near_after_Insert (md mc : Nat) (p p1 : Point2D)
    (heq : p.opEq p1 = true) (k : Nat) :
    ∀ (box : Box) (d : Nat), splitLevels md mc d = k → box.Contains p = true →
      box.Contains p1 = true → box.path p k = box.path p1 k →
      ∃ n1 n2, (QuadNode.new box d).Insert md mc p = some n1 ∧
        n1.Remove mc p1 = some (n2, true) ∧ n2.allPoints = [] ∧ n2.Inv md mc ∧
        n2.Framed box d := by
  induction k with
  | zero =>
    intro box d hl hp hp1 _
    have hcond : ¬ (([] : List Point2D).length < mc ∧ d ≤ md) := by
      unfold splitLevels at hl
      simp only [List.length_nil]
      split_ifs at hl with h0
      · omega
      · omega
    refine ⟨_, QuadNode.node box .null .null .null .null [] d,
      QuadNode.Insert_push md mc box _ _ _ _ [] d p hp hcond, ?_, ?_, ?_, ?_⟩
    · rw [QuadNode.Remove_leaf mc box _ _ _ _ d p1 hp1]
      simp [eraseFirst, heq]
    · simp [QuadNode.allPoints]
    · simp [QuadNode.Inv, QuadNode.allPoints]
    · simp [QuadNode.Framed]
  | succ k ih =>
    intro box d hl hp hp1 hpath
    have hmc : mc ≠ 0 := by
      intro h0
      simp [splitLevels, h0] at hl
    have hl0 : md + 1 - d = k + 1 := by
      simpa [splitLevels, hmc] using hl
    have hcond : ([] : List Point2D).length < mc ∧ d ≤ md := by
      simp only [List.length_nil]
      omega
    have hl1 : splitLevels md mc (d + 1) = k := by
      simp only [splitLevels, hmc, if_false]
      omega
    simp only [Box.path, List.cons.injEq] at hpath
    obtain ⟨hq, hpath1⟩ := hpath
    have hc1 : (box.quadrantBox (box.GetQuadrant p)).Contains p1 = true := by
      rw [hq]
      exact Box.quadrantBox_Contains box p1 hp1
    rw [← hq] at hpath1
    obtain ⟨k1, k2, e1, e2, e3, e4, e5⟩ := ih (box.quadrantBox (box.GetQuadrant p)) (d + 1) hl1
      (Box.quadrantBox_Contains box p hp) hc1 hpath1
    have hk1 : k1 ≠ QuadNode.null := by
      rintro rfl
      simp [QuadNode.Remove] at e2
    have hleaf : (QuadNode.node box .null .null .null .null [] d).Inv md mc := by
      simp [QuadNode.Inv, QuadNode.allPoints]
    have hs : (QuadNode.node box (QuadNode.new (box.quadrantBox .NE) (d + 1))
        (QuadNode.new (box.quadrantBox .NW) (d + 1)) (QuadNode.new (box.quadrantBox .SE) (d + 1))
        (QuadNode.new (box.quadrantBox .SW) (d + 1)) [] d).Inv md mc :=
      QuadNode.Inv_splitOf hleaf hcond
    have hI : (QuadNode.new box d).Insert md mc p
        = some ((QuadNode.splitOf box [] d).setChild (box.GetQuadrant p) k1) := by
      unfold QuadNode.new
      rw [QuadNode.Insert_split md mc box _ _ _ [] d p hp hcond, e1]
      rfl
    have hi2 := QuadNode.Inv_setChild hs (QuadNode.new_ne_null _ _) (box.GetQuadrant p) k2 e4 e5
      (by intro x hx; rw [e3] at hx; simp at hx)
    obtain ⟨n3, g, t1, t2, t3, t4, _, _⟩ := QuadNode.TryMerge_spec md mc _ hi2
    refine ⟨_, n3, hI, ?_, ?_, t2, ?_⟩
    · unfold QuadNode.splitOf
      rw [hq, QuadNode.Remove_setChild mc box _ _ _ _ [] d p1 k1 hp1 (QuadNode.new_ne_null _ _)
        hk1, e2]
      simp only [if_true]
      rw [← hq, t1]
    · rw [t4]
      apply allPoints_setChild_nil _ _ _ _ _ _ _ _ _ _ e3
      simp [QuadNode.allPoints, QuadNode.new]
    · apply t3
      cases box.GetQuadrant p <;> simp [QuadNode.setChild, QuadNode.Framed]

/-- C5 as stated fails: on `QuadTree(0, 0, 100, 100, 0, 4)` the point
(-2e-10, 10) of the root boundary is stored in the NW child, while
`Remove(-2e-10 + 5e-10, 10)` descends into the NE child, reports false and
leaves the point stored. -/
theorem C5_counterexample :
    (Box.new 0 0 100 100).Contains ⟨-2 / 10000000000, 10⟩ = true ∧
    ∃ t1, (QuadTree.new 0 0 100 100 0 4).Insert ⟨-2 / 10000000000, 10⟩ = some t1 ∧
      t1.root.Remove t1.maxChildren ⟨-2 / 10000000000 + 5 / 10000000000, 10⟩
        = some (t1.root, false) ∧
      t1.root.allPoints = [⟨-2 / 10000000000, 10⟩] := by
  have e1 : (QuadTree.new 0 0 100 100 0 4).Insert ⟨-2 / 10000000000, 10⟩
      = some ⟨.node (Box.new 0 0 100 100)
          (QuadNode.new (Box.new 25 25 50 50) 1)
          (.node (Box.new (-25) 25 50 50) .null .null .null .null [⟨-2 / 10000000000, 10⟩] 1)
          (QuadNode.new (Box.new 25 (-25) 50 50) 1)
          (QuadNode.new (Box.new (-25) (-25) 50 50) 1) [] 0, 0, 4⟩ := by
    simp [QuadTree.new, QuadTree.Insert, QuadNode.Insert, QuadNode.new, Box.new, Box.Contains,
      QuadNode.split, Box.GetQuadrant, QuadNode.child, QuadNode.setChild]
    norm_num
    rw [QuadNode.Insert_push 0 4 _ _ _ _ _ [] 1 _ (by norm_num [Box.Contains]) (by simp)]
    simp
  refine ⟨by norm_num [Box.Contains, Box.new], _, e1, ?_, ?_⟩
  · norm_num [QuadNode.Remove, QuadNode.new, Box.new, Box.Contains,
      Box.GetQuadrant, eraseFirst, Point2D.opEq, EPSILON, QuadNode.TryMerge,
      QuadNode.TryMerge.count, QuadNode.pointsOf]
  · simp [QuadNode.allPoints, QuadNode.new]

/-- C5, amended: treating coordinates as exact numbers, on a fresh tree, when
the root boundary contains both (x, y) and (x + 5e-10, y) and `GetQuadrant`
classifies both alike at every split of the descent, then after `Insert(x, y)`
the recursive `Remove(x + 5e-10, y)` reports true and the tree stores no
point. -/
theorem C5_tolerant_remove (x y w h : ℚ) (md mc : Nat) (px py : ℚ)
    (hp : (Box.new x y w h).Contains ⟨px, py⟩ = true)
    (hp1 : (Box.new x y w h).Contains ⟨px + 5 / 10000000000, py⟩ = true)
    (hpath : (Box.new x y w h).path ⟨px, py⟩ (splitLevels md mc 0)
      = (Box.new x y w h).path ⟨px + 5 / 10000000000, py⟩ (splitLevels md mc 0)) :
    ∃ t1 r2, (QuadTree.new x y w h md mc).Insert ⟨px, py⟩ = some t1 ∧
      t1.root.Remove t1.maxChildren ⟨px + 5 / 10000000000, py⟩ = some (r2, true) ∧
      r2.allPoints = [] := by
  have heq : (⟨px, py⟩ : Point2D).opEq ⟨px + 5 / 10000000000, py⟩ = true := by
    simp only [Point2D.opEq, EPSILON, sub_add_cancel_left, abs_neg, sub_self, abs_zero,
      Bool.and_eq_true, decide_eq_true_eq]
    constructor
    · rw [abs_lt]
      constructor <;> norm_num
    · norm_num
  obtain ⟨n1, n2, e1, e2, e3, _, _⟩ := QuadNode.Remove_near_after_Insert md mc ⟨px, py⟩
    ⟨px + 5 / 10000000000, py⟩ heq (splitLevels md mc 0) (Box.new x y w h) 0 rfl hp hp1 hpath
  refine ⟨{ (QuadTree.new x y w h md mc) with root := n1 }, n2, ?_, e2, e3⟩
  simp only [QuadTree.Insert, QuadTree.new]
  rw [e1]

theorem C5_tolerant_remove_witness :
    ∃ t1 r2, (QuadTree.new 0 0 100 100 0 4).Insert ⟨10, 10⟩ = some t1 ∧
      t1.root.Remove t1.maxChildren ⟨10 + 5 / 10000000000, 10⟩ = some (r2, true) ∧
      r2.allPoints = [] :=
  C5_tolerant_remove 0 0 100 100 0 4 10 10 (by norm_num [Box.Contains, Box.new])
    (by norm_num [Box.Contains, Box.new])
    (by norm_num [splitLevels, Box.path, Box.GetQuadrant, Box.new])

/-- C11: `GetQuadrant` of a point is NE when the point is right of and above
the center (inclusive), NW when left and above, SE when right and below, SW
otherwise; the center itself is NE; the `Box` overload agrees with the point
overload at the other box's center. -/
theorem C11_quadrant_classification (b : Box) (p : Point2D) (o : Box) :
    (b.GetQuadrant p =
      if p.x ≥ b.center.x ∧ p.y ≥ b.center.y then Quadrant.NE
      else if ¬ p.x ≥ b.center.x ∧ p.y ≥ b.center.y then Quadrant.NW
      else if p.x ≥ b.center.x ∧ ¬ p.y ≥ b.center.y then Quadrant.SE
      else Quadrant.SW) ∧
    b.GetQuadrant b.center = Quadrant.NE ∧
    b.GetQuadrantBox o = b.GetQuadrant o.center := by
  refine ⟨?_, ?_, ?_⟩
  · simp only [Box.GetQuadrant, not_le, ge_iff_le]
  · simp [Box.GetQuadrant]
  · simp only [Box.GetQuadrantBox, Box.GetQuadrant, ge_iff_le]
    by_cases h1 : b.center.x ≤ o.center.x <;> by_cases h2 : b.center.y ≤ o.center.y <;>
      simp [h1, h2, not_lt.2, lt_of_not_ge]

/-- C12: `operator<` on points is the lexicographic order by x then y; it is
irreflexive and transitive, and of `a < b`, `b < a` and equal coordinates
exactly one holds. -/
theorem C12_point_order (a b c : Point2D) :
    (a.opLt b = true ↔ (a.x < b.x ∨ (a.x = b.x ∧ a.y < b.y))) ∧
    a.opLt a = false ∧
    (a.opLt b = true → b.opLt c = true → a.opLt c = true) ∧
    ((a.opLt b = true ∧ ¬ b.opLt a = true ∧ ¬ (a.x = b.x ∧ a.y = b.y)) ∨
      (¬ a.opLt b = true ∧ b.opLt a = true ∧ ¬ (a.x = b.x ∧ a.y = b.y)) ∨
      (¬ a.opLt b = true ∧ ¬ b.opLt a = true ∧ (a.x = b.x ∧ a.y = b.y))) := by
  have key : ∀ u v : Point2D, u.opLt v = true ↔ (u.x < v.x ∨ (u.x = v.x ∧ u.y < v.y)) := by
    intro u v
    unfold Point2D.opLt
    by_cases h : u.x = v.x
    · simp [h]
    · simp [h]
  refine ⟨key a b, ?_, ?_, ?_⟩
  · have := key a a
    simp only [lt_self_iff_false, and_false, or_false] at this
    simpa using this
  · rw [key a b, key b c, key a c]
    rintro (h1 | ⟨h1, h2⟩) (h3 | ⟨h3, h4⟩)
    · exact Or.inl (lt_trans h1 h3)
    · exact Or.inl (h3 ▸ h1)
    · exact Or.inl (h1 ▸ h3)
    · exact Or.inr ⟨h1.trans h3, lt_trans h2 h4⟩
  · rw [key a b, key b a]
    rcases lt_trichotomy a.x b.x with h | h | h
    · left
      refine ⟨Or.inl h, ?_, ?_⟩
      · rintro (h1 | ⟨h1, _⟩)
        · exact lt_asymm h h1
        · exact (ne_of_lt h) h1.symm
      · rintro ⟨h1, _⟩
        exact (ne_of_lt h) h1
    · rcases lt_trichotomy a.y b.y with g | g | g
      · left
        refine ⟨Or.inr ⟨h, g⟩, ?_, ?_⟩
        · rintro (h1 | ⟨_, h1⟩)
          · exact (ne_of_lt h1) h.symm
          · exact lt_asymm g h1
        · rintro ⟨_, h1⟩
          exact (ne_of_lt g) h1
      · right; right
        refine ⟨?_, ?_, h, g⟩
        · rintro (h1 | ⟨_, h1⟩)
          · exact (ne_of_lt h1) h
          · exact (ne_of_lt h1) g
        · rintro (h1 | ⟨_, h1⟩)
          · exact (ne_of_lt h1) h.symm
          · exact (ne_of_lt h1) g.symm
      · right; left
        refine ⟨?_, Or.inr ⟨h.symm, g⟩, ?_⟩
        · rintro (h1 | ⟨_, h1⟩)
          · exact (ne_of_lt h1) h
          · exact lt_asymm g h1
        · rintro ⟨_, h1⟩
          exact (ne_of_lt g) h1.symm
    · right; left
      refine ⟨?_, Or.inl h, ?_⟩
      · rintro (h1 | ⟨h1, _⟩)
        · exact lt_asymm h h1
        · exact (ne_of_lt h) h1.symm
      · rintro ⟨h1, _⟩
        exact (ne_of_lt h) h1.symm

/-- C14: `split` of a leaf with boundary center (cx, cy), width w, height h
and depth d gives it the four children NE, NW, SE, SW, each an empty leaf at
depth d + 1 of width w/2 and height h/2, centered at (cx ± w/4, cy ± h/4);
the node keeps its bucket, boundary and depth. -/
theorem C14_split_postcondition (b : Box) (c1 c2 c3 : QuadNode) (pts : List Point2D) (d : Nat) :
    (QuadNode.node b .null c1 c2 c3 pts d).split = some (QuadNode.node b
      (.node ⟨⟨b.center.x + b.width / 4, b.center.y + b.height / 4⟩, b.width / 2, b.height / 2⟩
        .null .null .null .null [] (d + 1))
      (.node ⟨⟨b.center.x - b.width / 4, b.center.y + b.height / 4⟩, b.width / 2, b.height / 2⟩
        .null .null .null .null [] (d + 1))
      (.node ⟨⟨b.center.x + b.width / 4, b.center.y - b.height / 4⟩, b.width / 2, b.height / 2⟩
        .null .null .null .null [] (d + 1))
      (.node ⟨⟨b.center.x - b.width / 4, b.center.y - b.height / 4⟩, b.width / 2, b.height / 2⟩
        .null .null .null .null [] (d + 1))
      pts d) := by
  have hw : b.width / 2 / 2 = b.width / 4 := by ring
  have hh : b.height / 2 / 2 = b.height / 4 := by ring
  simp [QuadNode.split, QuadNode.new, Box.new, hw, hh]

/-- C13: for a node whose four child slots are all absent or all present,
`TryMerge(maxChildren)` returns true exactly when the node is not a leaf, its
four children are leaves and their bucket sizes sum to at most `maxChildren`;
then the node becomes a leaf whose bucket is its former bucket followed by the
buckets of the NE, NW, SE, SW children; when it returns false the node is
unchanged. -/
theorem C13_TryMerge_contract (b : Box) (c0 c1 c2 c3 : QuadNode) (pts : List Point2D) (d : Nat)
    (mc : Nat)
    (hshape : (c0 = .null ∧ c1 = .null ∧ c2 = .null ∧ c3 = .null) ∨
      (c0 ≠ .null ∧ c1 ≠ .null ∧ c2 ≠ .null ∧ c3 ≠ .null)) :
    ∃ n1 f, (QuadNode.node b c0 c1 c2 c3 pts d).TryMerge mc = some (n1, f) ∧
      (f = true ↔ ((QuadNode.node b c0 c1 c2 c3 pts d).IsLeaf = some false ∧
        c0.IsLeaf = some true ∧ c1.IsLeaf = some true ∧ c2.IsLeaf = some true ∧
        c3.IsLeaf = some true ∧
        c0.pointsOf.length + c1.pointsOf.length + c2.pointsOf.length + c3.pointsOf.length
          ≤ mc)) ∧
      (f = true → n1 = QuadNode.node b .null .null .null .null
        (pts ++ c0.pointsOf ++ c1.pointsOf ++ c2.pointsOf ++ c3.pointsOf) d ∧
        n1.IsLeaf = some true) ∧
      (f = false → n1 = QuadNode.node b c0 c1 c2 c3 pts d) := by
  rcases hshape with ⟨h0, h1, h2, h3⟩ | ⟨h0, h1, h2, h3⟩
  · subst h0 h1 h2 h3
    exact ⟨QuadNode.node b .null .null .null .null pts d, false, by simp [QuadNode.TryMerge],
      by simp [QuadNode.IsLeaf], by simp, by simp⟩
  · cases c0 with
    | null => exact absurd rfl h0
    | node b0 k0 k01 k02 k03 p0 d0 =>
    cases c1 with
    | null => exact absurd rfl h1
    | node b1 k1 k11 k12 k13 p1 d1 =>
    cases c2 with
    | null => exact absurd rfl h2
    | node b2 k2 k21 k22 k23 p2 d2 =>
    cases c3 with
    | null => exact absurd rfl h3
    | node b3 k3 k31 k32 k33 p3 d3 =>
    by_cases g0 : k0 = QuadNode.null
    · by_cases g1 : k1 = QuadNode.null
      · by_cases g2 : k2 = QuadNode.null
        · by_cases g3 : k3 = QuadNode.null
          · by_cases ht : p0.length + p1.length + p2.length + p3.length ≤ mc
            · refine ⟨QuadNode.node b .null .null .null .null (pts ++ p0 ++ p1 ++ p2 ++ p3) d, true,
                ?_, ?_, ?_, ?_⟩
              · simp only [QuadNode.TryMerge, QuadNode.TryMerge.count, g0, g1, g2, g3, ne_eq,
                  not_true_eq_false, if_false, reduceCtorEq, Nat.zero_add, gt_iff_lt,
                  not_lt.2 ht, QuadNode.pointsOf]
              · simp [QuadNode.IsLeaf, QuadNode.pointsOf, g0, g1, g2, g3, ht]
              · intro _
                exact ⟨rfl, by simp [QuadNode.IsLeaf]⟩
              · simp
            · refine ⟨QuadNode.node b (.node b0 k0 k01 k02 k03 p0 d0) (.node b1 k1 k11 k12 k13 p1 d1)
                (.node b2 k2 k21 k22 k23 p2 d2) (.node b3 k3 k31 k32 k33 p3 d3) pts d, false,
                ?_, ?_, ?_, ?_⟩
              · simp only [QuadNode.TryMerge, QuadNode.TryMerge.count, g0, g1, g2, g3, ne_eq,
                  not_true_eq_false, if_false, reduceCtorEq, Nat.zero_add, gt_iff_lt,
                  not_le.1 ht, if_true]
              · simp [QuadNode.IsLeaf, QuadNode.pointsOf, g0, g1, g2, g3, ht]
              · simp
              · simp
          · exact ⟨QuadNode.node b (.node b0 k0 k01 k02 k03 p0 d0) (.node b1 k1 k11 k12 k13 p1 d1)
              (.node b2 k2 k21 k22 k23 p2 d2) (.node b3 k3 k31 k32 k33 p3 d3) pts d, false,
              by simp [QuadNode.TryMerge, QuadNode.TryMerge.count, g0, g1, g2, g3],
              by simp [QuadNode.IsLeaf, g3], by simp, by simp⟩
        · exact ⟨QuadNode.node b (.node b0 k0 k01 k02 k03 p0 d0) (.node b1 k1 k11 k12 k13 p1 d1)
              (.node b2 k2 k21 k22 k23 p2 d2) (.node b3 k3 k31 k32 k33 p3 d3) pts d, false,
              by simp [QuadNode.TryMerge, QuadNode.TryMerge.count, g0, g1, g2],
            by simp [QuadNode.IsLeaf, g2], by simp, by simp⟩
      · exact ⟨QuadNode.node b (.node b0 k0 k01 k02 k03 p0 d0) (.node b1 k1 k11 k12 k13 p1 d1)
              (.node b2 k2 k21 k22 k23 p2 d2) (.node b3 k3 k31 k32 k33 p3 d3) pts d, false,
              by simp [QuadNode.TryMerge, QuadNode.TryMerge.count, g0, g1],
          by simp [QuadNode.IsLeaf, g1], by simp, by simp⟩
    · exact ⟨QuadNode.node b (.node b0 k0 k01 k02 k03 p0 d0) (.node b1 k1 k11 k12 k13 p1 d1)
              (.node b2 k2 k21 k22 k23 p2 d2) (.node b3 k3 k31 k32 k33 p3 d3) pts d, false,
              by simp [QuadNode.TryMerge, QuadNode.TryMerge.count, g0],
        by simp [QuadNode.IsLeaf, g0], by simp, by simp⟩

theorem C13_TryMerge_contract_witness :
    ∃ n1 f, (QuadNode.splitOf (Box.new 0 0 100 100) [] 0).TryMerge 4 = some (n1, f) ∧
      f = true ∧ n1 = QuadNode.new (Box.new 0 0 100 100) 0 := by
  obtain ⟨n1, f, e1, e2, e3, _⟩ := C13_TryMerge_contract (Box.new 0 0 100 100)
    (QuadNode.new ((Box.new 0 0 100 100).quadrantBox .NE) 1)
    (QuadNode.new ((Box.new 0 0 100 100).quadrantBox .NW) 1)
    (QuadNode.new ((Box.new 0 0 100 100).quadrantBox .SE) 1)
    (QuadNode.new ((Box.new 0 0 100 100).quadrantBox .SW) 1) [] 0 4
    (Or.inr ⟨by simp [QuadNode.new], by simp [QuadNode.new], by simp [QuadNode.new],
      by simp [QuadNode.new]⟩)
  have hf : f = true := e2.2 (by simp [QuadNode.IsLeaf, QuadNode.new, QuadNode.pointsOf])
  refine ⟨n1, f, e1, hf, ?_⟩
  rw [(e3 hf).1]
  simp [QuadNode.new, QuadNode.pointsOf]

theorem QuadTree.Insert_outside (t : QuadTree) (b : Box) (hb : t.root.boundaryOf = some b)
    (p : Point2D) (hout : b.Contains p = false) : t.Insert p = some t := by
  cases hroot : t.root with
  | null => rw [hroot] at hb; simp [QuadNode.boundaryOf] at hb
  | node b' c0 c1 c2 c3 pts d =>
    rw [hroot] at hb
    simp only [QuadNode.boundaryOf, Option.some.injEq] at hb
    subst hb
    unfold QuadTree.Insert
    rw [hroot, QuadNode.Insert_out _ _ _ _ _ _ _ _ _ _ hout]
    simp [← hroot]

theorem QuadTree.Insert_inside (t : QuadTree) (b : Box) (hb : t.root.boundaryOf = some b)
    (L0 : List Point2D) (hB : t.Built L0) (p : Point2D) (hin : b.Contains p = true) :
    ∃ t1, t.Insert p = some t1 ∧ t1.Built (L0 ++ [p]) ∧ t1.root.boundaryOf = some b ∧
      t1.maxDepth = t.maxDepth ∧ t1.maxChildren = t.maxChildren := by
  obtain ⟨hi, ht, hf, hp⟩ := hB
  have hc := QuadNode.boundaryOf_contains hb hin
  obtain ⟨n1, h1, i1, i2, i3, _⟩ := QuadNode.Insert_spec t.maxDepth t.maxChildren p t.root hi hc
  obtain ⟨t1, f1⟩ := QuadNode.Insert_tidy t.maxDepth t.maxChildren p t.root hi hc ht hf n1 h1
  have hb1 : n1.boundaryOf = some b := by
    cases hr : t.root with
    | null => rw [hr] at hb; simp [QuadNode.boundaryOf] at hb
    | node b' c0 c1 c2 c3 pts d =>
      rw [hr] at hb i2
      simp only [QuadNode.boundaryOf, Option.some.injEq] at hb
      subst hb
      have := i2 b' d (by simp [QuadNode.Framed])
      rw [QuadNode.Framed_iff] at this
      obtain ⟨k0, k1, k2, k3, kp, hk⟩ := this
      rw [hk]
      rfl
  refine ⟨{ t with root := n1 }, by simp [QuadTree.Insert, h1], ⟨i1, t1, f1, ?_⟩, hb1, rfl, rfl⟩
  exact i3.trans ((List.Perm.cons p hp).trans (List.perm_append_singleton p L0).symm)

/-- Inserting any list of points into a tree of insert-only shape returns a
tree of that shape that stores the points of the list that the root boundary
contains. -/
theorem QuadTree.InsertAll_built (t : QuadTree) (b : Box) (hb : t.root.boundaryOf = some b)
    (L0 L : List Point2D) (hB : t.Built L0) :
    ∃ t1, t.InsertAll L = some t1 ∧
      t1.Built (L0 ++ L.filter (fun q => b.Contains q)) ∧ t1.root.boundaryOf = some b ∧
      t1.maxDepth = t.maxDepth ∧ t1.maxChildren = t.maxChildren := by
  induction L generalizing t L0 with
  | nil => exact ⟨t, rfl, by simpa using hB, hb, rfl, rfl⟩
  | cons p rest ih =>
    by_cases hin : b.Contains p = true
    · obtain ⟨t1, e1, hB1, hb1, m1, m2⟩ := QuadTree.Insert_inside t b hb L0 hB p hin
      obtain ⟨t2, e2, hB2, hb2, m3, m4⟩ := ih t1 hb1 (L0 ++ [p]) hB1
      refine ⟨t2, ?_, ?_, hb2, m3.trans m1, m4.trans m2⟩
      · simp only [QuadTree.InsertAll, e1]
        exact e2
      · simpa [List.filter_cons, hin] using hB2
    · simp only [Bool.not_eq_true] at hin
      obtain ⟨t2, e2, hB2, hb2, m3, m4⟩ := ih t hb L0 hB
      refine ⟨t2, ?_, ?_, hb2, m3, m4⟩
      · simp only [QuadTree.InsertAll, QuadTree.Insert_outside t b hb p hin]
        exact e2
      · simpa [List.filter_cons, hin] using hB2

/-- C15: on the tree obtained from a fresh tree by inserting the elements of a
list `L` in order, `Search(range)` into an empty vector returns a permutation
of the elements of `L` that both the root boundary and the range contain. -/
theorem C15_search_insert_only (x y w h : ℚ) (md mc : Nat) (L : List Point2D) (range : Box) :
    ∃ t1 r, (QuadTree.new x y w h md mc).InsertAll L = some t1 ∧
      t1.Search range [] = some r ∧
      List.Perm r (L.filter
        (fun p => (Box.new x y w h).Contains p && range.Contains p)) := by
  obtain ⟨t1, e1, hB, _⟩ := QuadTree.InsertAll_built (QuadTree.new x y w h md mc)
    (Box.new x y w h) rfl [] L (QuadTree.Built_new x y w h md mc)
  rw [List.nil_append] at hB
  obtain ⟨r, e2, e3⟩ := QuadTree.Built_search t1 _ hB range
  refine ⟨t1, r, e1, e2, ?_⟩
  rw [List.filter_filter] at e3
  refine e3.trans (List.Perm.of_eq ?_)
  congr 1
  funext p
  exact Bool.and_comm _ _

/-- C18, failing run: in the state `hiddenTree`, reached by `Insert` and
`Remove` calls only, `Search` with the root boundary returns one point; after
`Insert(40,40)` and `Remove(40,40)`, a point of the root boundary, the same
`Search` returns two points. -/
theorem C18_round_trip_changes_search :
    (∃ t1 t2 t3, (QuadTree.new 0 0 100 100 0 2).Insert ⟨10, 10⟩ = some t1 ∧
      t1.Insert ⟨20, 20⟩ = some t2 ∧ t2.Remove ⟨10, 10⟩ = some t3 ∧
      t3.Insert ⟨30, 30⟩ = some hiddenTree) ∧
    hiddenTree.root.boundaryOf = some (Box.new 0 0 100 100) ∧
    (Box.new 0 0 100 100).Contains ⟨40, 40⟩ = true ∧
    hiddenTree.Search (Box.new 0 0 100 100) [] = some [⟨30, 30⟩] ∧
    ∃ t5 t6, hiddenTree.Insert ⟨40, 40⟩ = some t5 ∧ t5.Remove ⟨40, 40⟩ = some t6 ∧
      t6.Search (Box.new 0 0 100 100) [] = some [⟨20, 20⟩, ⟨30, 30⟩] := by
  have e5 : hiddenTree.Insert ⟨40, 40⟩
      = some ⟨.node (Box.new 0 0 100 100)
          (.node (Box.new 25 25 50 50) .null .null .null .null [⟨30, 30⟩, ⟨40, 40⟩] 1)
          (QuadNode.new (Box.new (-25) 25 50 50) 1)
          (QuadNode.new (Box.new 25 (-25) 50 50) 1)
          (QuadNode.new (Box.new (-25) (-25) 50 50) 1) [⟨20, 20⟩] 0, 0, 2⟩ := by
    simp [hiddenTree, QuadTree.Insert, QuadNode.Insert, QuadNode.new, Box.new, Box.Contains,
      QuadNode.split, Box.GetQuadrant, QuadNode.child, QuadNode.setChild]
    norm_num
  have e6 : (⟨.node (Box.new 0 0 100 100)
          (.node (Box.new 25 25 50 50) .null .null .null .null [⟨30, 30⟩, ⟨40, 40⟩] 1)
          (QuadNode.new (Box.new (-25) 25 50 50) 1)
          (QuadNode.new (Box.new 25 (-25) 50 50) 1)
          (QuadNode.new (Box.new (-25) (-25) 50 50) 1) [⟨20, 20⟩] 0, 0, 2⟩ :
        QuadTree).Remove ⟨40, 40⟩
      = some ⟨.node (Box.new 0 0 100 100) .null .null .null .null [⟨20, 20⟩, ⟨30, 30⟩] 0,
          0, 2⟩ := by
    norm_num [QuadTree.Remove, QuadNode.Remove, QuadNode.new, Box.new, Box.Contains,
      Box.GetQuadrant, eraseFirst, Point2D.opEq, EPSILON, QuadNode.TryMerge,
      QuadNode.TryMerge.count, QuadNode.pointsOf]
    simp
  refine ⟨hiddenTree_reached, rfl, by norm_num [Box.Contains, Box.new], hiddenTree_search,
    _, _, e5, e6, ?_⟩
  norm_num [QuadTree.Search, QuadNode.Search, Box.new, Box.Intersection, Box.GetTopLeft,
    Box.GetBottomRight, Box.Contains]

theorem QuadNode.mem_nodes_self (n : QuadNode) (h : n ≠ QuadNode.null) : n ∈ n.nodes := by
  cases n with
  | null => exact absurd rfl h
  | node b c0 c1 c2 c3 pts d => simp [QuadNode.nodes]

theorem QuadNode.nodes_child_subset (b : Box) (c0 c1 c2 c3 : QuadNode) (pts : List Point2D)
    (d : Nat) (q : Quadrant) :
    ((QuadNode.node b c0 c1 c2 c3 pts d).child q).nodes
      ⊆ (QuadNode.node b c0 c1 c2 c3 pts d).nodes := by
  intro x hx
  revert hx
  cases q <;> simp only [QuadNode.child, QuadNode.nodes, List.mem_cons, List.mem_append] <;> tauto

/-- A node of a tree is the tree itself or a node of one of its children. -/
theorem QuadNode.mem_nodes_iff (b : Box) (c0 c1 c2 c3 : QuadNode) (pts : List Point2D)
    (d : Nat) (m : QuadNode) :
    m ∈ (QuadNode.node b c0 c1 c2 c3 pts d).nodes ↔
      m = QuadNode.node b c0 c1 c2 c3 pts d ∨ m ∈ c0.nodes ∨ m ∈ c1.nodes ∨ m ∈ c2.nodes ∨
        m ∈ c3.nodes := by
  simp [QuadNode.nodes]

theorem QuadNode.null_nodes (m : QuadNode) : m ∉ QuadNode.null.nodes := by
  simp [QuadNode.nodes]

/-- The invariant holds at every node of a tree that satisfies it. -/
theorem QuadNode.Inv_nodes (md mc : Nat) (n : QuadNode) (h : n.Inv md mc) :
    ∀ m ∈ n.nodes, m.Inv md mc := by
  induction n with
  | null => simp [QuadNode.Inv] at h
  | node b c0 c1 c2 c3 pts d ih0 ih1 ih2 ih3 =>
    intro m hm
    rw [QuadNode.mem_nodes_iff] at hm
    by_cases h0 : c0 = QuadNode.null
    · obtain ⟨h1, h2, h3⟩ := QuadNode.Inv_leaf h h0
      subst h0 h1 h2 h3
      simp only [QuadNode.null_nodes, or_false] at hm
      rw [hm]
      exact h
    · have q0 := (QuadNode.Inv_child h h0 Quadrant.NE).2.1
      have q1 := (QuadNode.Inv_child h h0 Quadrant.NW).2.1
      have q2 := (QuadNode.Inv_child h h0 Quadrant.SE).2.1
      have q3 := (QuadNode.Inv_child h h0 Quadrant.SW).2.1
      simp only [QuadNode.child] at q0 q1 q2 q3
      rcases hm with rfl | hm | hm | hm | hm
      · exact h
      · exact ih0 q0 m hm
      · exact ih1 q1 m hm
      · exact ih2 q2 m hm
      · exact ih3 q3 m hm

theorem QuadNode.Framed_depthOf {c : QuadNode} {box : Box} {d : Nat} (h : c.Framed box d) :
    c.depthOf = d ∧ c ≠ QuadNode.null := by
  cases c with
  | null => simp [QuadNode.Framed] at h
  | node b k0 k1 k2 k3 pts d' =>
    simp only [QuadNode.Framed] at h
    exact ⟨h.2, by simp⟩

/-- No node of a tree that satisfies the invariant lies deeper than
`maxDepth + 1` when its root does not. -/
theorem QuadNode.Inv_depth_le (md mc : Nat) (n : QuadNode) (h : n.Inv md mc)
    (hd : n.depthOf ≤ md + 1) : ∀ m ∈ n.nodes, m.depthOf ≤ md + 1 := by
  induction n with
  | null => simp [QuadNode.Inv] at h
  | node b c0 c1 c2 c3 pts d ih0 ih1 ih2 ih3 =>
    intro m hm
    rw [QuadNode.mem_nodes_iff] at hm
    by_cases h0 : c0 = QuadNode.null
    · obtain ⟨h1, h2, h3⟩ := QuadNode.Inv_leaf h h0
      subst h0 h1 h2 h3
      simp only [QuadNode.null_nodes, or_false] at hm
      rw [hm]
      exact hd
    · have q0 := QuadNode.Inv_child h h0 Quadrant.NE
      have q1 := QuadNode.Inv_child h h0 Quadrant.NW
      have q2 := QuadNode.Inv_child h h0 Quadrant.SE
      have q3 := QuadNode.Inv_child h h0 Quadrant.SW
      simp only [QuadNode.child] at q0 q1 q2 q3
      have hle : d + 1 ≤ md + 1 := by have := q0.1.2; omega
      rcases hm with rfl | hm | hm | hm | hm
      · exact hd
      · exact ih0 q0.2.1 (by rw [(QuadNode.Framed_depthOf q0.2.2).1]; exact hle) m hm
      · exact ih1 q1.2.1 (by rw [(QuadNode.Framed_depthOf q1.2.2).1]; exact hle) m hm
      · exact ih2 q2.2.1 (by rw [(QuadNode.Framed_depthOf q2.2.2).1]; exact hle) m hm
      · exact ih3 q3.2.1 (by rw [(QuadNode.Framed_depthOf q3.2.2).1]; exact hle) m hm

/-- C17: in every reachable tree the root has depth 0; every node has no
child or all four, so `IsLeaf` is true exactly when all four slots are absent;
the children of an interior node are one level deeper than it; an interior
node has depth at most `maxDepth`, and no node is deeper than `maxDepth + 1`. -/
theorem C17_structural_invariant (t : QuadTree) (h : Reachable t) :
    t.root ≠ QuadNode.null ∧ t.root.depthOf = 0 ∧
    ∀ m ∈ t.root.nodes, ∀ b c0 c1 c2 c3 pts d, m = QuadNode.node b c0 c1 c2 c3 pts d →
      ((c0 = .null ∧ c1 = .null ∧ c2 = .null ∧ c3 = .null) ∨
        (c0 ≠ .null ∧ c1 ≠ .null ∧ c2 ≠ .null ∧ c3 ≠ .null)) ∧
      (m.IsLeaf = some true ↔ (c0 = .null ∧ c1 = .null ∧ c2 = .null ∧ c3 = .null)) ∧
      (c0 ≠ .null → d ≤ t.maxDepth ∧ c0.depthOf = d + 1 ∧ c1.depthOf = d + 1 ∧
        c2.depthOf = d + 1 ∧ c3.depthOf = d + 1) ∧
      d ≤ t.maxDepth + 1 := by
  obtain ⟨hinv, b0, hf⟩ := h.inv
  have hroot := QuadNode.Framed_depthOf hf
  refine ⟨hroot.2, hroot.1, ?_⟩
  intro m hm b c0 c1 c2 c3 pts d hmd
  have hi := QuadNode.Inv_nodes _ _ _ hinv m hm
  have hdm := QuadNode.Inv_depth_le _ _ _ hinv (by rw [hroot.1]; omega) m hm
  subst hmd
  have hint : c0 ≠ QuadNode.null → (c1 ≠ .null ∧ c2 ≠ .null ∧ c3 ≠ .null) ∧
      (d ≤ t.maxDepth ∧ c0.depthOf = d + 1 ∧ c1.depthOf = d + 1 ∧
        c2.depthOf = d + 1 ∧ c3.depthOf = d + 1) := by
    intro h0
    have q0 := QuadNode.Inv_child hi h0 Quadrant.NE
    have q1 := QuadNode.Inv_child hi h0 Quadrant.NW
    have q2 := QuadNode.Inv_child hi h0 Quadrant.SE
    have q3 := QuadNode.Inv_child hi h0 Quadrant.SW
    simp only [QuadNode.child] at q0 q1 q2 q3
    exact ⟨⟨(QuadNode.Framed_depthOf q1.2.2).2, (QuadNode.Framed_depthOf q2.2.2).2,
      (QuadNode.Framed_depthOf q3.2.2).2⟩, q0.1.2, (QuadNode.Framed_depthOf q0.2.2).1,
      (QuadNode.Framed_depthOf q1.2.2).1, (QuadNode.Framed_depthOf q2.2.2).1,
      (QuadNode.Framed_depthOf q3.2.2).1⟩
  refine ⟨?_, ?_, fun h0 => (hint h0).2, hdm⟩
  · by_cases h0 : c0 = QuadNode.null
    · exact Or.inl ⟨h0, QuadNode.Inv_leaf hi h0⟩
    · exact Or.inr ⟨h0, (hint h0).1⟩
  · simp only [QuadNode.IsLeaf, Option.some.injEq, decide_eq_true_eq]
    constructor
    · intro h0
      exact ⟨h0, QuadNode.Inv_leaf hi h0⟩
    · intro h0
      exact h0.1

theorem C17_structural_invariant_witness :
    Reachable hiddenTree ∧ hiddenTree.root ≠ QuadNode.null ∧ hiddenTree.root.depthOf = 0 ∧
    ∀ m ∈ hiddenTree.root.nodes,
      ∀ b c0 c1 c2 c3 pts d, m = QuadNode.node b c0 c1 c2 c3 pts d →
      ((c0 = .null ∧ c1 = .null ∧ c2 = .null ∧ c3 = .null) ∨
        (c0 ≠ .null ∧ c1 ≠ .null ∧ c2 ≠ .null ∧ c3 ≠ .null)) ∧
      (m.IsLeaf = some true ↔ (c0 = .null ∧ c1 = .null ∧ c2 = .null ∧ c3 = .null)) ∧
      (c0 ≠ .null → d ≤ hiddenTree.maxDepth ∧ c0.depthOf = d + 1 ∧
        c1.depthOf = d + 1 ∧ c2.depthOf = d + 1 ∧ c3.depthOf = d + 1) ∧
      d ≤ hiddenTree.maxDepth + 1 := by
  obtain ⟨t1, t2, t3, e1, e2, e3, e4⟩ := hiddenTree_reached
  have hr : Reachable hiddenTree :=
    Reachable.insert _ _ _ (Reachable.remove _ _ _ (Reachable.insert _ _ _
      (Reachable.insert _ _ _ (Reachable.new 0 0 100 100 0 2) e1) e2) e3) e4
  exact ⟨hr, C17_structural_invariant hiddenTree hr⟩

theorem QuadNode.Deep_new (md : Nat) (box : Box) (d : Nat) : (QuadNode.new box d).Deep md := by
  simp [QuadNode.new, QuadNode.Deep]

theorem QuadNode.Deep_child {md : Nat} {b : Box} {c0 c1 c2 c3 : QuadNode} {pts : List Point2D}
    {d : Nat} (h : (QuadNode.node b c0 c1 c2 c3 pts d).Deep md) (q : Quadrant) :
    ((QuadNode.node b c0 c1 c2 c3 pts d).child q).Deep md := by
  unfold QuadNode.Deep at h
  obtain ⟨_, t0, t1, t2, t3⟩ := h
  cases q <;> simp only [QuadNode.child] <;> assumption

theorem QuadNode.Deep_setChild {md : Nat} {b : Box} {c0 c1 c2 c3 : QuadNode}
    {pts : List Point2D} {d : Nat} (h : (QuadNode.node b c0 c1 c2 c3 pts d).Deep md)
    (hp : pts = []) (q : Quadrant) (k : QuadNode) (hk : k.Deep md) :
    ((QuadNode.node b c0 c1 c2 c3 pts d).setChild q k).Deep md := by
  unfold QuadNode.Deep at h
  obtain ⟨_, t0, t1, t2, t3⟩ := h
  cases q <;> simp only [QuadNode.setChild] <;> unfold QuadNode.Deep <;>
    exact ⟨Or.inl hp, by assumption, by assumption, by assumption, by assumption⟩

theorem QuadNode.Deep_pts {md mc : Nat} {b : Box} {c0 c1 c2 c3 : QuadNode}
    {pts : List Point2D} {d : Nat} (h : (QuadNode.node b c0 c1 c2 c3 pts d).Deep md)
    (hcond : pts.length < mc ∧ d ≤ md) : pts = [] := by
  unfold QuadNode.Deep at h
  rcases h.1 with h1 | ⟨_, h1⟩
  · exact h1
  · omega

/-- With `maxChildren >= 1`, `Insert` keeps every stored point in a leaf
deeper than `maxDepth`. -/
theorem QuadNode.Insert_deep (md mc : Nat) (hmc : 1 ≤ mc) (p : Point2D) (n : QuadNode)
    (hinv : n.Inv md mc) (hc : ∀ b, n.boundaryOf = some b → b.Contains p = true) :
    n.Deep md → ∀ n1, n.Insert md mc p = some n1 → n1.Deep md := by
  refine QuadNode.Insert_induct md mc p
    (fun n => n.Deep md → ∀ n1, n.Insert md mc p = some n1 → n1.Deep md) ?_ ?_ ?_ n hinv hc
  · intro b pts d hi hb hcond hd n1 h1
    rw [QuadNode.Insert_push md mc b _ _ _ _ pts d p hb hcond] at h1
    simp only [Option.some.injEq] at h1
    subst h1
    have hdeep : md < d := by
      unfold QuadNode.Deep at hd
      rcases hd.1 with h2 | ⟨_, h2⟩
      · subst h2
        simp only [List.length_nil, not_and, not_le] at hcond
        exact hcond (by omega)
      · exact h2
    unfold QuadNode.Deep
    exact ⟨Or.inr ⟨rfl, hdeep⟩, by simp [QuadNode.Deep]⟩
  · intro b pts d hi hb hcond ih hd n1 h1
    have hpts : pts = [] := QuadNode.Deep_pts hd hcond
    rw [QuadNode.Insert_split md mc b _ _ _ pts d p hb hcond] at h1
    cases hk : (QuadNode.new (b.quadrantBox (b.GetQuadrant p)) (d + 1)).Insert md mc p with
    | none => simp [hk] at h1
    | some k =>
      simp only [hk, Option.map_some', Option.some.injEq] at h1
      subst h1
      have kd := ih (QuadNode.Deep_new _ _ _) k hk
      unfold QuadNode.splitOf
      apply QuadNode.Deep_setChild _ hpts _ k kd
      unfold QuadNode.Deep
      exact ⟨Or.inl hpts, QuadNode.Deep_new _ _ _, QuadNode.Deep_new _ _ _,
        QuadNode.Deep_new _ _ _, QuadNode.Deep_new _ _ _⟩
  · intro b c0 c1 c2 c3 pts d hi hb hcond h0 ih hd n1 h1
    have hpts : pts = [] := QuadNode.Deep_pts hd hcond
    rw [QuadNode.Insert_descend md mc b c0 c1 c2 c3 pts d p hb hcond h0] at h1
    cases hk : ((QuadNode.node b c0 c1 c2 c3 pts d).child (b.GetQuadrant p)).Insert md mc p with
    | none => simp [hk] at h1
    | some k =>
      simp only [hk, Option.map_some', Option.some.injEq] at h1
      subst h1
      exact QuadNode.Deep_setChild hd hpts _ k (ih (QuadNode.Deep_child hd _) k hk)

theorem QuadNode.Deep_nodes (md : Nat) (n : QuadNode) (h : n.Deep md) :
    ∀ m ∈ n.nodes, m.pointsOf = [] ∨ (m.IsLeaf = some true ∧ md < m.depthOf) := by
  induction n with
  | null => intro m hm; exact absurd hm (QuadNode.null_nodes m)
  | node b c0 c1 c2 c3 pts d ih0 ih1 ih2 ih3 =>
    intro m hm
    rw [QuadNode.mem_nodes_iff] at hm
    unfold QuadNode.Deep at h
    obtain ⟨h1, t0, t1, t2, t3⟩ := h
    rcases hm with rfl | hm | hm | hm | hm
    · rcases h1 with h1 | ⟨h1, h2⟩
      · exact Or.inl h1
      · exact Or.inr ⟨by simp [QuadNode.IsLeaf, h1], h2⟩
    · exact ih0 t0 m hm
    · exact ih1 t1 m hm
    · exact ih2 t2 m hm
    · exact ih3 t3 m hm

/-- Every stored point is in the bucket of some node. -/
theorem QuadNode.mem_allPoints_nodes (n : QuadNode) (x : Point2D) (hx : x ∈ n.allPoints) :
    ∃ m ∈ n.nodes, x ∈ m.pointsOf := by
  induction n with
  | null => simp [QuadNode.allPoints] at hx
  | node b c0 c1 c2 c3 pts d ih0 ih1 ih2 ih3 =>
    simp only [QuadNode.allPoints, List.mem_append] at hx
    rcases hx with hx | hx | hx | hx | hx
    · exact ⟨_, QuadNode.mem_nodes_self _ (by simp), hx⟩
    · obtain ⟨m, hm, hxm⟩ := ih0 hx
      exact ⟨m, (QuadNode.mem_nodes_iff _ _ _ _ _ _ _ _).2 (Or.inr (Or.inl hm)), hxm⟩
    · obtain ⟨m, hm, hxm⟩ := ih1 hx
      exact ⟨m, (QuadNode.mem_nodes_iff _ _ _ _ _ _ _ _).2 (Or.inr (Or.inr (Or.inl hm))), hxm⟩
    · obtain ⟨m, hm, hxm⟩ := ih2 hx
      exact ⟨m, (QuadNode.mem_nodes_iff _ _ _ _ _ _ _ _).2
        (Or.inr (Or.inr (Or.inr (Or.inl hm)))), hxm⟩
    · obtain ⟨m, hm, hxm⟩ := ih3 hx
      exact ⟨m, (QuadNode.mem_nodes_iff _ _ _ _ _ _ _ _).2
        (Or.inr (Or.inr (Or.inr (Or.inr hm)))), hxm⟩

/-- Above every node of a tree that satisfies the invariant there is an
interior node at each depth from the root's on. -/
theorem QuadNode.Inv_ancestors (md mc : Nat) (n : QuadNode) (h : n.Inv md mc) :
    ∀ m ∈ n.nodes, ∀ k, n.depthOf ≤ k → k < m.depthOf →
      ∃ a ∈ n.nodes, a.depthOf = k ∧ a.IsLeaf = some false := by
  induction n with
  | null => simp [QuadNode.Inv] at h
  | node b c0 c1 c2 c3 pts d ih0 ih1 ih2 ih3 =>
    intro m hm k hk1 hk2
    rw [QuadNode.mem_nodes_iff] at hm
    by_cases h0 : c0 = QuadNode.null
    · obtain ⟨h1, h2, h3⟩ := QuadNode.Inv_leaf h h0
      subst h0 h1 h2 h3
      simp only [QuadNode.null_nodes, or_false] at hm
      subst hm
      simp only [QuadNode.depthOf] at hk1 hk2
      omega
    · have q0 := QuadNode.Inv_child h h0 Quadrant.NE
      have q1 := QuadNode.Inv_child h h0 Quadrant.NW
      have q2 := QuadNode.Inv_child h h0 Quadrant.SE
      have q3 := QuadNode.Inv_child h h0 Quadrant.SW
      simp only [QuadNode.child] at q0 q1 q2 q3
      simp only [QuadNode.depthOf] at hk1
      by_cases hkd : k = d
      · exact ⟨_, QuadNode.mem_nodes_self _ (by simp), by simp [QuadNode.depthOf, hkd],
          by simp [QuadNode.IsLeaf, h0]⟩
      · have hk3 : d + 1 ≤ k := by omega
        rcases hm with rfl | hm | hm | hm | hm
        · simp only [QuadNode.depthOf] at hk2
          omega
        · obtain ⟨a, ha, e1, e2⟩ := ih0 q0.2.1 m hm k
            (by rw [(QuadNode.Framed_depthOf q0.2.2).1]; exact hk3) hk2
          exact ⟨a, (QuadNode.mem_nodes_iff _ _ _ _ _ _ _ _).2 (Or.inr (Or.inl ha)), e1, e2⟩
        · obtain ⟨a, ha, e1, e2⟩ := ih1 q1.2.1 m hm k
            (by rw [(QuadNode.Framed_depthOf q1.2.2).1]; exact hk3) hk2
          exact ⟨a, (QuadNode.mem_nodes_iff _ _ _ _ _ _ _ _).2 (Or.inr (Or.inr (Or.inl ha))),
            e1, e2⟩
        · obtain ⟨a, ha, e1, e2⟩ := ih2 q2.2.1 m hm k
            (by rw [(QuadNode.Framed_depthOf q2.2.2).1]; exact hk3) hk2
          exact ⟨a, (QuadNode.mem_nodes_iff _ _ _ _ _ _ _ _).2
            (Or.inr (Or.inr (Or.inr (Or.inl ha)))), e1, e2⟩
        · obtain ⟨a, ha, e1, e2⟩ := ih3 q3.2.1 m hm k
            (by rw [(QuadNode.Framed_depthOf q3.2.2).1]; exact hk3) hk2
          exact ⟨a, (QuadNode.mem_nodes_iff _ _ _ _ _ _ _ _).2
            (Or.inr (Or.inr (Or.inr (Or.inr ha)))), e1, e2⟩

theorem QuadTree.Insert_root (t t1 : QuadTree) (p : Point2D) (h : t.Insert p = some t1) :
    t.root.Insert t.maxDepth t.maxChildren p = some t1.root ∧ t1.maxDepth = t.maxDepth ∧
      t1.maxChildren = t.maxChildren := by
  unfold QuadTree.Insert at h
  cases hr : t.root.Insert t.maxDepth t.maxChildren p with
  | none => simp [hr] at h
  | some r =>
    simp only [hr, Option.some.injEq] at h
    subst h
    exact ⟨rfl, rfl, rfl⟩

theorem Reachable.insertAll {t : QuadTree} (h : Reachable t) (L : List Point2D) :
    ∀ t1, t.InsertAll L = some t1 → Reachable t1 := by
  induction L generalizing t with
  | nil =>
    intro t1 h1
    simp only [QuadTree.InsertAll, Option.some.injEq] at h1
    subst h1
    exact h
  | cons p rest ih =>
    intro t1 h1
    obtain ⟨t2, e1, e2⟩ := QuadTree.InsertAll_cons_some _ _ _ _ h1
    exact ih (Reachable.insert t t2 p h e1) t1 e2

/-- With `maxChildren >= 1`, a run of `Insert` calls keeps every stored point
in a leaf deeper than `maxDepth`. -/
theorem QuadTree.InsertAll_deep (L : List Point2D) :
    ∀ (t : QuadTree), 1 ≤ t.maxChildren → t.root.Inv t.maxDepth t.maxChildren →
      t.root.Deep t.maxDepth → ∀ t1, t.InsertAll L = some t1 →
      t1.root.Deep t1.maxDepth ∧ t1.maxDepth = t.maxDepth := by
  induction L with
  | nil =>
    intro t _ _ hd t1 h1
    simp only [QuadTree.InsertAll, Option.some.injEq] at h1
    subst h1
    exact ⟨hd, rfl⟩
  | cons p rest ih =>
    intro t hmc hi hd t1 h1
    obtain ⟨t2, e1, e2⟩ := QuadTree.InsertAll_cons_some _ _ _ _ h1
    obtain ⟨r1, m1, m2⟩ := QuadTree.Insert_root t t2 p e1
    have hi2 := (QuadNode.Insert_inv _ _ p _ _ hi r1).1
    have hd2 : t2.root.Deep t.maxDepth := by
      cases hroot : t.root with
      | null => rw [hroot] at hi; simp [QuadNode.Inv] at hi
      | node b c0 c1 c2 c3 pts d =>
        rw [hroot] at hi hd r1
        by_cases hb : b.Contains p = true
        · exact QuadNode.Insert_deep _ _ hmc p _ hi
            (by intro b' hb'; simp only [QuadNode.boundaryOf, Option.some.injEq] at hb'
                subst hb'; exact hb) hd _ r1
        · simp only [Bool.not_eq_true] at hb
          rw [QuadNode.Insert_out _ _ _ _ _ _ _ _ _ _ hb] at r1
          simp only [Option.some.injEq] at r1
          rw [← r1]
          exact hd
    rw [← m1] at hd2
    rw [← m1, ← m2] at hi2
    obtain ⟨g1, g2⟩ := ih t2 (by rw [m2]; exact hmc) hi2 hd2 t1 e2
    exact ⟨g1, g2.trans m1⟩

/-- With `maxChildren >= 1`, in a tree built from a fresh tree by `Insert`
calls only every non-empty bucket belongs to a leaf at depth exactly
`maxDepth + 1` and every node at depth at most `maxDepth` has an empty bucket;
a single `Insert` of a point of the boundary into the fresh tree puts it in a
leaf at depth `maxDepth + 1` below an interior node at every depth from 0 to
`maxDepth`. -/
theorem QuadTree.Insert_subdivides (x y w h : ℚ) (md mc : Nat) (hmc : 1 ≤ mc) (L : List Point2D) :
    (∃ t1, (QuadTree.new x y w h md mc).InsertAll L = some t1 ∧
      ∀ m ∈ t1.root.nodes,
        (m.pointsOf ≠ [] → m.IsLeaf = some true ∧ m.depthOf = md + 1) ∧
        (m.depthOf ≤ md → m.pointsOf = [])) ∧
    (∀ p, (Box.new x y w h).Contains p = true →
      ∃ t2, (QuadTree.new x y w h md mc).Insert p = some t2 ∧
        (∃ m ∈ t2.root.nodes, p ∈ m.pointsOf ∧ m.IsLeaf = some true ∧ m.depthOf = md + 1) ∧
        ∀ k, k ≤ md → ∃ a ∈ t2.root.nodes, a.depthOf = k ∧ a.IsLeaf = some false) := by
  have key : ∀ L1 : List Point2D, ∃ t1, (QuadTree.new x y w h md mc).InsertAll L1 = some t1 ∧
      t1.root.Inv md mc ∧ t1.root.depthOf = 0 ∧
      List.Perm t1.root.allPoints (L1.filter (fun q => (Box.new x y w h).Contains q)) ∧
      ∀ m ∈ t1.root.nodes,
        (m.pointsOf ≠ [] → m.IsLeaf = some true ∧ m.depthOf = md + 1) ∧
        (m.depthOf ≤ md → m.pointsOf = []) := by
    intro L1
    obtain ⟨t1, e1, hB, _, m1, m2⟩ := QuadTree.InsertAll_built (QuadTree.new x y w h md mc)
      (Box.new x y w h) rfl [] L1 (QuadTree.Built_new x y w h md mc)
    have hmd : t1.maxDepth = md := m1
    have hmc1 : t1.maxChildren = mc := m2
    obtain ⟨hd, _⟩ := QuadTree.InsertAll_deep L1 (QuadTree.new x y w h md mc) hmc
      (QuadNode.Inv_new _ _ _ _) (QuadNode.Deep_new _ _ _) t1 e1
    have hreach := (Reachable.new x y w h md mc).insertAll L1 t1 e1
    obtain ⟨hinv, b0, hf⟩ := hreach.inv
    rw [hmd] at hd hinv
    rw [hmc1] at hinv
    have hr0 := (QuadNode.Framed_depthOf hf).1
    refine ⟨t1, e1, hinv, hr0, by simpa using hB.2.2.2, ?_⟩
    intro m hm
    have h1 := QuadNode.Deep_nodes md _ hd m hm
    have h2 := QuadNode.Inv_depth_le md mc _ hinv (by rw [hr0]; omega) m hm
    constructor
    · intro hne
      rcases h1 with h1 | ⟨h1, h3⟩
      · exact absurd h1 hne
      · exact ⟨h1, by omega⟩
    · intro hle
      rcases h1 with h1 | ⟨_, h3⟩
      · exact h1
      · omega
  constructor
  · obtain ⟨t1, e1, _, _, _, hn⟩ := key L
    exact ⟨t1, e1, hn⟩
  · intro p hp
    obtain ⟨t1, e1, hinv, hr0, hperm, hn⟩ := key [p]
    obtain ⟨t2, e2, e3⟩ := QuadTree.InsertAll_cons_some _ _ _ _ e1
    simp only [QuadTree.InsertAll, Option.some.injEq] at e3
    subst e3
    have hmem : p ∈ t2.root.allPoints := by
      apply hperm.symm.subset
      simp [List.filter_cons, hp]
    obtain ⟨m, hm, hpm⟩ := QuadNode.mem_allPoints_nodes _ p hmem
    have hm1 := (hn m hm).1 (List.ne_nil_of_mem hpm)
    refine ⟨t2, e2, ⟨m, hm, hpm, hm1.1, hm1.2⟩, ?_⟩
    intro k hk
    exact QuadNode.Inv_ancestors md mc _ hinv m hm k (by rw [hr0]; omega) (by rw [hm1.2]; omega)

theorem QuadNode.Stable_refl (n : QuadNode) : n.Stable n := by
  induction n with
  | null => simp [QuadNode.Stable]
  | node b c0 c1 c2 c3 pts d ih0 ih1 ih2 ih3 =>
    unfold QuadNode.Stable
    exact Or.inr (Or.inr ⟨rfl, ih0, ih1, ih2, ih3⟩)

theorem QuadNode.Stable_setChild (b : Box) (c0 c1 c2 c3 : QuadNode) (pts : List Point2D)
    (d : Nat) (q : Quadrant) (k : QuadNode)
    (h : ((QuadNode.node b c0 c1 c2 c3 pts d).child q).Stable k) :
    (QuadNode.node b c0 c1 c2 c3 pts d).Stable
      ((QuadNode.node b c0 c1 c2 c3 pts d).setChild q k) := by
  cases q <;> simp only [QuadNode.child] at h <;> simp only [QuadNode.setChild] <;>
    unfold QuadNode.Stable <;>
    exact Or.inr (Or.inr ⟨rfl, by first | exact h | exact QuadNode.Stable_refl _,
      by first | exact h | exact QuadNode.Stable_refl _,
      by first | exact h | exact QuadNode.Stable_refl _,
      by first | exact h | exact QuadNode.Stable_refl _⟩)

theorem QuadNode.Stable_leaf (n : QuadNode) (b : Box) (c1 c2 c3 : QuadNode)
    (pts : List Point2D) (d : Nat) : n.Stable (QuadNode.node b .null c1 c2 c3 pts d) := by
  cases n with
  | null => simp [QuadNode.Stable]
  | node b' k0 k1 k2 k3 pts' d' =>
    unfold QuadNode.Stable
    exact Or.inr (Or.inl rfl)

theorem QuadNode.Stable_of_leaf (b : Box) (c1 c2 c3 : QuadNode) (pts : List Point2D) (d : Nat)
    (n1 : QuadNode) : (QuadNode.node b .null c1 c2 c3 pts d).Stable n1 := by
  cases n1 with
  | null => simp [QuadNode.Stable]
  | node b' k0 k1 k2 k3 pts' d' =>
    unfold QuadNode.Stable
    exact Or.inl rfl

/-- A `TryMerge` that returns true leaves a leaf. -/
theorem QuadNode.TryMerge_true (mc : Nat) (n n1 : QuadNode)
    (h : n.TryMerge mc = some (n1, true)) :
    ∃ b pts d, n1 = QuadNode.node b .null .null .null .null pts d := by
  cases n with
  | null => simp [QuadNode.TryMerge] at h
  | node b c0 c1 c2 c3 pts d =>
    simp only [QuadNode.TryMerge] at h
    split_ifs at h with h0
    · simp at h
    · split at h
      · simp at h
      · simp at h
      · split_ifs at h
        · simp at h
        · simp only [Option.some.injEq, Prod.mk.injEq, and_true] at h
          exact ⟨_, _, _, h.symm⟩

/-- `Insert` leaves the bucket of every node that stays interior as it is. -/
theorem QuadNode.Insert_stable (md mc : Nat) (p : Point2D) (n : QuadNode) (hinv : n.Inv md mc)
    (hc : ∀ b, n.boundaryOf = some b → b.Contains p = true) :
    ∀ n1, n.Insert md mc p = some n1 → n.Stable n1 := by
  refine QuadNode.Insert_induct md mc p
    (fun n => ∀ n1, n.Insert md mc p = some n1 → n.Stable n1) ?_ ?_ ?_ n hinv hc
  · intro b pts d _ _ _ n1 _
    exact QuadNode.Stable_of_leaf _ _ _ _ _ _ _
  · intro b pts d _ _ _ _ n1 _
    exact QuadNode.Stable_of_leaf _ _ _ _ _ _ _
  · intro b c0 c1 c2 c3 pts d hi hb hcond h0 ih n1 h1
    rw [QuadNode.Insert_descend md mc b c0 c1 c2 c3 pts d p hb hcond h0] at h1
    cases hk : ((QuadNode.node b c0 c1 c2 c3 pts d).child (b.GetQuadrant p)).Insert md mc p with
    | none => simp [hk] at h1
    | some k =>
      simp only [hk, Option.map_some', Option.some.injEq] at h1
      subst h1
      exact QuadNode.Stable_setChild _ _ _ _ _ _ _ _ _ (ih k hk)

/-- The recursive `Remove` leaves the bucket of every node that stays
interior as it is. -/
theorem QuadNode.Remove_stable (mc : Nat) (p : Point2D) (n : QuadNode) :
    ∀ n1 f, n.Remove mc p = some (n1, f) → n.Stable n1 := by
  induction n with
  | null => intro n1 f _; simp [QuadNode.Stable]
  | node b c0 c1 c2 c3 pts d ih0 ih1 ih2 ih3 =>
    intro n1 f h1
    by_cases hb : b.Contains p = true
    · by_cases h0 : c0 = QuadNode.null
      · subst h0
        exact QuadNode.Stable_of_leaf _ _ _ _ _ _ _
      · rw [QuadNode.Remove_descend mc b c0 c1 c2 c3 pts d p hb h0] at h1
        have ihq : ∀ k g, ((QuadNode.node b c0 c1 c2 c3 pts d).child (b.GetQuadrant p)).Remove mc p
            = some (k, g) →
            ((QuadNode.node b c0 c1 c2 c3 pts d).child (b.GetQuadrant p)).Stable k := by
          cases b.GetQuadrant p <;> simp only [QuadNode.child] <;> assumption
        cases hr : ((QuadNode.node b c0 c1 c2 c3 pts d).child (b.GetQuadrant p)).Remove mc p with
        | none => simp [hr] at h1
        | some kr =>
          obtain ⟨k, removed⟩ := kr
          have hs := QuadNode.Stable_setChild b c0 c1 c2 c3 pts d _ k (ihq k removed hr)
          cases removed with
          | false =>
            simp only [hr, Bool.false_eq_true, if_false, Option.some.injEq, Prod.mk.injEq] at h1
            rw [← h1.1]
            exact hs
          | true =>
            simp only [hr, if_true] at h1
            cases ht : ((QuadNode.node b c0 c1 c2 c3 pts d).setChild (b.GetQuadrant p) k).TryMerge mc with
            | none => simp [ht] at h1
            | some ng =>
              obtain ⟨n3, g⟩ := ng
              simp only [ht, Option.some.injEq, Prod.mk.injEq] at h1
              rw [← h1.1]
              cases g with
              | false =>
                rw [QuadNode.TryMerge_false mc _ _ ht]
                exact hs
              | true =>
                obtain ⟨b', pts', d', e⟩ := QuadNode.TryMerge_true mc _ _ ht
                rw [e]
                exact QuadNode.Stable_leaf _ _ _ _ _ _ _
    · simp only [Bool.not_eq_true] at hb
      rw [QuadNode.Remove_out mc b c0 c1 c2 c3 pts d p hb] at h1
      simp only [Option.some.injEq, Prod.mk.injEq] at h1
      rw [← h1.1]
      exact QuadNode.Stable_refl _

/-- C19: in every reachable tree every interior node's bucket holds fewer
than `maxChildren` points, and a node that fails the split test of `Insert`
(where `push_back` runs) is a leaf; `Insert`, `Remove` and `Clear` leave the
bucket of every node that stays interior unchanged. -/
theorem C19_interior_buckets (t : QuadTree) (h : Reachable t) :
    (∀ m ∈ t.root.nodes, ∀ b c0 c1 c2 c3 pts d, m = QuadNode.node b c0 c1 c2 c3 pts d →
      (m.IsLeaf = some false → pts.length < t.maxChildren) ∧
      (¬ (pts.length < t.maxChildren ∧ d ≤ t.maxDepth) → m.IsLeaf = some true)) ∧
    (∀ p t1, t.Insert p = some t1 → t.root.Stable t1.root) ∧
    (∀ p t1, t.Remove p = some t1 → t.root.Stable t1.root) ∧
    (∀ t1, t.Clear = some t1 → t.root.Stable t1.root) := by
  obtain ⟨hinv, b0, hf⟩ := h.inv
  refine ⟨?_, ?_, ?_, ?_⟩
  · intro m hm b c0 c1 c2 c3 pts d hmd
    have hi := QuadNode.Inv_nodes _ _ _ hinv m hm
    subst hmd
    simp only [QuadNode.IsLeaf, Option.some.injEq, decide_eq_false_iff_not, decide_eq_true_eq]
    constructor
    · intro h0
      exact (QuadNode.Inv_child hi h0 Quadrant.NE).1.1
    · intro hcond
      by_contra h0
      exact hcond (QuadNode.Inv_child hi h0 Quadrant.NE).1
  · intro p t1 h1
    obtain ⟨r1, _, _⟩ := QuadTree.Insert_root t t1 p h1
    cases hroot : t.root with
    | null => rw [hroot] at hinv; simp [QuadNode.Inv] at hinv
    | node b c0 c1 c2 c3 pts d =>
      rw [hroot] at hinv r1
      by_cases hb : b.Contains p = true
      · exact QuadNode.Insert_stable _ _ p _ hinv
          (by intro b' hb'; simp only [QuadNode.boundaryOf, Option.some.injEq] at hb'
              subst hb'; exact hb) _ r1
      · simp only [Bool.not_eq_true] at hb
        rw [QuadNode.Insert_out _ _ _ _ _ _ _ _ _ _ hb] at r1
        simp only [Option.some.injEq] at r1
        rw [← r1]
        exact QuadNode.Stable_refl _
  · intro p t1 h1
    unfold QuadTree.Remove at h1
    cases hr : t.root.Remove t.maxChildren p with
    | none => simp [hr] at h1
    | some rf =>
      obtain ⟨r, f⟩ := rf
      simp only [hr, Option.some.injEq] at h1
      subst h1
      exact QuadNode.Remove_stable _ p _ r f hr
  · intro t1 h1
    unfold QuadTree.Clear at h1
    cases hroot : t.root with
    | null => simp [hroot] at h1
    | node b c0 c1 c2 c3 pts d =>
      simp only [hroot, Option.some.injEq] at h1
      subst h1
      exact QuadNode.Stable_leaf _ _ _ _ _ _ _

theorem C19_interior_buckets_witness :
    (∀ m ∈ hiddenTree.root.nodes, ∀ b c0 c1 c2 c3 pts d,
      m = QuadNode.node b c0 c1 c2 c3 pts d →
      (m.IsLeaf = some false → pts.length < hiddenTree.maxChildren) ∧
      (¬ (pts.length < hiddenTree.maxChildren ∧ d ≤ hiddenTree.maxDepth) →
        m.IsLeaf = some true)) ∧
    (∀ p t1, hiddenTree.Insert p = some t1 → hiddenTree.root.Stable t1.root) ∧
    (∀ p t1, hiddenTree.Remove p = some t1 → hiddenTree.root.Stable t1.root) ∧
    (∀ t1, hiddenTree.Clear = some t1 → hiddenTree.root.Stable t1.root) := by
  obtain ⟨t1, t2, t3, e1, e2, e3, e4⟩ := hiddenTree_reached
  exact C19_interior_buckets hiddenTree
    (Reachable.insert _ _ _ (Reachable.remove _ _ _ (Reachable.insert _ _ _
      (Reachable.insert _ _ _ (Reachable.new 0 0 100 100 0 2) e1) e2) e3) e4)

/-- Removing, one after the other, points that a tidy tree stores, when
`operator==` equates no two different stored points: every `Remove` erases its
own argument. -/
theorem QuadTree.RemoveAll_spec (r : List Point2D) :
    ∀ (t : QuadTree), t.root.Inv t.maxDepth t.maxChildren → t.root.Tidy →
      (∀ x, r.count x ≤ t.root.allPoints.count x) →
      (∀ a ∈ t.root.allPoints, ∀ b ∈ t.root.allPoints, a.opEq b = true → a = b) →
      ∃ t1, t.RemoveAll r = some t1 ∧ t1.root.Inv t1.maxDepth t1.maxChildren ∧ t1.root.Tidy ∧
        ∀ x, t1.root.allPoints.count x = t.root.allPoints.count x - r.count x := by
  induction r with
  | nil =>
    intro t hi ht _ _
    exact ⟨t, rfl, hi, ht, by simp⟩
  | cons p rest ih =>
    intro t hi ht hc hu
    have hmem : p ∈ t.root.allPoints := by
      apply List.count_pos_iff.1
      have := hc p
      rw [List.count_cons_self] at this
      omega
    obtain ⟨n1, e1, e2⟩ := QuadNode.Remove_exact t.maxDepth t.maxChildren p t.root hi ht hmem
      (fun x hx hxp => hu x hx p hmem hxp)
    obtain ⟨n2, f, e3, r1, _, _, _⟩ := QuadNode.Remove_spec t.maxDepth t.maxChildren p t.root hi
    rw [e1] at e3
    simp only [Option.some.injEq, Prod.mk.injEq] at e3
    obtain ⟨rfl, rfl⟩ := e3
    have t2 := QuadNode.Remove_tidy t.maxDepth t.maxChildren p t.root hi ht n1 true e1
    have hcount : ∀ x, t.root.allPoints.count x = (p :: n1.allPoints).count x :=
      fun x => e2.count_eq x
    have hsub : ∀ x ∈ n1.allPoints, x ∈ t.root.allPoints :=
      fun x hx => e2.symm.subset (List.mem_cons_of_mem _ hx)
    obtain ⟨t1, g1, g2, g3, g4⟩ := ih { t with root := n1 } r1 t2
      (by
        intro x
        have h1 := hc x
        have h2 := hcount x
        simp only [List.count_cons] at h1 h2
        show rest.count x ≤ n1.allPoints.count x
        omega)
      (fun a ha b hb hab => hu a (hsub a ha) b (hsub b hb) hab)
    refine ⟨t1, ?_, g2, g3, ?_⟩
    · simp only [QuadTree.RemoveAll, QuadTree.Remove, e1]
      exact g1
    · intro x
      have h2 := hcount x
      have h3 := g4 x
      simp only [List.count_cons] at h2 ⊢
      change t1.root.allPoints.count x = n1.allPoints.count x - rest.count x at h3
      omega

/-- C20, amended: when `operator==` equates no two different points of the
inserted list, then on the tree built from a fresh tree by inserting the list,
after `Remove(range)` a `Search(range)` into an empty vector returns no
point. -/
theorem C20_remove_box_empties (x y w h : ℚ) (md mc : Nat) (L : List Point2D)
    (hu : ∀ a ∈ L, ∀ b ∈ L, a.opEq b = true → a = b) (range : Box) :
    ∃ t1 t2, (QuadTree.new x y w h md mc).InsertAll L = some t1 ∧
      t1.RemoveBox range = some t2 ∧ t2.Search range [] = some [] := by
  obtain ⟨t1, e1, hB, _⟩ := QuadTree.InsertAll_built (QuadTree.new x y w h md mc)
    (Box.new x y w h) rfl [] L (QuadTree.Built_new x y w h md mc)
  rw [List.nil_append] at hB
  obtain ⟨hi, ht, _, hp⟩ := hB
  have hs := QuadNode.Search_eq t1.maxDepth t1.maxChildren t1.root range [] hi
  rw [List.nil_append, QuadNode.Tidy_leafPoints _ _ _ hi ht] at hs
  have hsubL : ∀ a ∈ t1.root.allPoints, a ∈ L :=
    fun a ha => List.mem_of_mem_filter (hp.subset ha)
  obtain ⟨t2, g1, g2, g3, g4⟩ := QuadTree.RemoveAll_spec
    (t1.root.allPoints.filter (fun point => range.Contains point)) t1 hi ht
    (fun a => List.Sublist.count_le (List.filter_sublist _) a)
    (fun a ha b hb hab => hu a (hsubL a ha) b (hsubL b hb) hab)
  refine ⟨t1, t2, e1, ?_, ?_⟩
  · simp only [QuadTree.RemoveBox, QuadTree.Search, hs]
    exact g1
  · have hs2 := QuadNode.Search_eq t2.maxDepth t2.maxChildren t2.root range [] g2
    rw [List.nil_append, QuadNode.Tidy_leafPoints _ _ _ g2 g3] at hs2
    have hnil : t2.root.allPoints.filter (fun point => range.Contains point) = [] := by
      rw [List.filter_eq_nil_iff]
      intro a ha hra
      have h1 := g4 a
      rw [List.count_filter (by simpa using hra)] at h1
      have h2 : 0 < t2.root.allPoints.count a := List.count_pos_iff.2 ha
      omega
    rw [hnil] at hs2
    exact hs2

/-- C20 as stated fails: on `QuadTree(0, 0, 100, 100, 0, 4)` holding (10, 10)
and (10 + 5e-10, 10), `Remove` with a box that contains only the second point
erases the first one, which `operator==` equates with it, and the following
`Search` with the same box still returns the second point. -/
theorem C20_counterexample :
    ∃ t2 t3, (QuadTree.new 0 0 100 100 0 4).InsertAll
        [⟨10, 10⟩, ⟨10 + 5 / 10000000000, 10⟩] = some t2 ∧
      t2.RemoveBox (Box.new 11 10 (2 - 1 / 1000000000) 2) = some t3 ∧
      t3.Search (Box.new 11 10 (2 - 1 / 1000000000) 2) []
        = some [⟨10 + 5 / 10000000000, 10⟩] := by
  have e1 : (QuadTree.new 0 0 100 100 0 4).Insert ⟨10, 10⟩
      = some ⟨.node (Box.new 0 0 100 100)
          (.node (Box.new 25 25 50 50) .null .null .null .null [⟨10, 10⟩] 1)
          (QuadNode.new (Box.new (-25) 25 50 50) 1)
          (QuadNode.new (Box.new 25 (-25) 50 50) 1)
          (QuadNode.new (Box.new (-25) (-25) 50 50) 1) [] 0, 0, 4⟩ := by
    simp [QuadTree.new, QuadTree.Insert, QuadNode.Insert, QuadNode.new, Box.new, Box.Contains,
      QuadNode.split, Box.GetQuadrant, QuadNode.child, QuadNode.setChild]
    norm_num
  have e2 : (⟨.node (Box.new 0 0 100 100)
          (.node (Box.new 25 25 50 50) .null .null .null .null [⟨10, 10⟩] 1)
          (QuadNode.new (Box.new (-25) 25 50 50) 1)
          (QuadNode.new (Box.new 25 (-25) 50 50) 1)
          (QuadNode.new (Box.new (-25) (-25) 50 50) 1) [] 0, 0, 4⟩ :
        QuadTree).Insert ⟨10 + 5 / 10000000000, 10⟩
      = some nearTree := by
    have hq : (Box.new 0 0 100 100).GetQuadrant ⟨10 + 5 / 10000000000, 10⟩ = Quadrant.NE := by
      norm_num [Box.GetQuadrant, Box.new]
    unfold QuadTree.Insert nearTree
    simp only []
    rw [QuadNode.Insert_descend 0 4 _ _ _ _ _ _ _ _ (by norm_num [Box.Contains, Box.new])
      (by simp) (by simp), hq]
    simp only [QuadNode.child]
    rw [QuadNode.Insert_push 0 4 _ _ _ _ _ _ 1 _ (by norm_num [Box.Contains, Box.new])
      (by simp)]
    rfl
  have e3 : nearTree.Search (Box.new 11 10 (2 - 1 / 1000000000) 2) []
      = some [⟨10 + 5 / 10000000000, 10⟩] := by
    norm_num [nearTree, nearTreeAfter, QuadTree.Search, QuadNode.Search, QuadNode.new, Box.new, Box.Intersection,
      Box.GetTopLeft, Box.GetBottomRight, Box.Contains, List.filter]
    simp
  have e4 : nearTree.Remove ⟨10 + 5 / 10000000000, 10⟩
      = some nearTreeAfter := by
    norm_num [nearTree, nearTreeAfter, QuadTree.Remove, QuadNode.Remove, QuadNode.new, Box.new, Box.Contains,
      Box.GetQuadrant, eraseFirst, Point2D.opEq, EPSILON, QuadNode.TryMerge,
      QuadNode.TryMerge.count, QuadNode.pointsOf, abs_lt]
    simp
  have e5 : nearTreeAfter.Search (Box.new 11 10 (2 - 1 / 1000000000) 2) []
      = some [⟨10 + 5 / 10000000000, 10⟩] := by
    norm_num [nearTree, nearTreeAfter, QuadTree.Search, QuadNode.Search, Box.new, Box.Intersection,
      Box.GetTopLeft, Box.GetBottomRight, Box.Contains, List.filter]
  refine ⟨nearTree, nearTreeAfter, ?_, ?_, e5⟩
  · simp only [QuadTree.InsertAll]
    rw [e1]
    simp only []
    rw [e2]
  · simp only [QuadTree.RemoveBox]
    rw [e3]
    simp only [QuadTree.RemoveAll]
    rw [e4]

theorem C20_remove_box_empties_witness :
    ∃ t1 t2, (QuadTree.new 0 0 100 100 4 4).InsertAll [⟨10, 10⟩, ⟨-10, 10⟩] = some t1 ∧
      t1.RemoveBox (Box.new 10 10 1 1) = some t2 ∧
      t2.Search (Box.new 10 10 1 1) [] = some [] :=
  C20_remove_box_empties 0 0 100 100 4 4 [⟨10, 10⟩, ⟨-10, 10⟩]
    (by
      intro a ha b hb
      simp only [List.mem_cons, List.mem_singleton, List.not_mem_nil, or_false] at ha hb
      rcases ha with rfl | rfl <;> rcases hb with rfl | rfl
      · intro _; rfl
      · intro h
        exfalso
        simp only [Point2D.opEq, EPSILON, Bool.and_eq_true, decide_eq_true_eq] at h
        have := h.1
        rw [abs_lt] at this
        norm_num at this
      · intro h
        exfalso
        simp only [Point2D.opEq, EPSILON, Bool.and_eq_true, decide_eq_true_eq] at h
        have := h.1
        rw [abs_lt] at this
        norm_num at this
      · intro _; rfl)
    (Box.new 10 10 1 1)

/-! ## Rounding in `double` arithmetic -/

/-- With enough fuel `ilog2` is the binary logarithm `Nat.log2`. -/
theorem ilog2_eq_log2 (fuel n : Nat) (h : n ≤ fuel) : ilog2 fuel n = Nat.log2 n := by
  induction fuel generalizing n with
  | zero =>
    have : n = 0 := by omega
    subst this
    unfold Nat.log2
    simp [ilog2]
  | succ k ih =>
    unfold Nat.log2
    simp only [ilog2]
    split_ifs with h2
    · rw [ih (n / 2) (by omega)]
    · rfl

/-- A power of two with an integer exponent as a quotient of two natural powers. -/
theorem two_zpow_split (z : ℤ) :
    (2 : ℚ) ^ z = ((2 ^ z.toNat : ℕ) : ℚ) / ((2 ^ (-z).toNat : ℕ) : ℚ) := by
  rcases le_total 0 z with h | h
  · obtain ⟨n, rfl⟩ := Int.eq_ofNat_of_zero_le h
    have : (-(n : ℤ)).toNat = 0 := by simp
    rw [this]
    simp
  · obtain ⟨n, hn⟩ := Int.eq_ofNat_of_zero_le (neg_nonneg.2 h)
    have hz : z = -(n : ℤ) := by omega
    subst hz
    have : (-(n : ℤ)).toNat = 0 := by simp
    rw [this]
    simp

/-- The number `roundHalfEven N D` is the floor of `N / D` or the next integer, at most
`1 / 2` away from `N / D`, and even when exactly `1 / 2` away. -/
theorem roundHalfEven_spec (N D : Nat) (hD : 0 < D) :
    N / D ≤ roundHalfEven N D ∧ roundHalfEven N D ≤ N / D + 1 ∧
    |((roundHalfEven N D : ℕ) : ℚ) - (N : ℚ) / (D : ℚ)| ≤ 1 / 2 ∧
    (|((roundHalfEven N D : ℕ) : ℚ) - (N : ℚ) / (D : ℚ)| = 1 / 2 → roundHalfEven N D % 2 = 0) := by
  have hD0 : (0 : ℚ) < (D : ℚ) := by exact_mod_cast hD
  have hdiv : (N : ℚ) / (D : ℚ) = ((N / D : ℕ) : ℚ) + ((N % D : ℕ) : ℚ) / (D : ℚ) := by
    have h := Nat.div_add_mod N D
    have h2 : (N : ℚ) = (D : ℚ) * ((N / D : ℕ) : ℚ) + ((N % D : ℕ) : ℚ) := by exact_mod_cast h.symm
    field_simp
    rw [h2]
    ring
  have hr : N % D < D := Nat.mod_lt _ hD
  have hr0 : (0 : ℚ) ≤ ((N % D : ℕ) : ℚ) / (D : ℚ) := by positivity
  simp only [roundHalfEven]
  split_ifs with h1 h2 h3
  · have hlt : ((N % D : ℕ) : ℚ) / (D : ℚ) < 1 / 2 := by
      rw [div_lt_div_iff₀ hD0 (by norm_num)]
      exact_mod_cast (by omega : (N % D) * 2 < 1 * D)
    refine ⟨le_refl _, by omega, ?_, ?_⟩
    · rw [hdiv, abs_le]
      constructor <;> linarith
    · intro h
      rw [hdiv] at h
      have : ((N / D : ℕ) : ℚ) - (((N / D : ℕ) : ℚ) + ((N % D : ℕ) : ℚ) / (D : ℚ))
          = -(((N % D : ℕ) : ℚ) / (D : ℚ)) := by ring
      rw [this, abs_neg, abs_of_nonneg hr0] at h
      linarith
  · have hgt : 1 / 2 < ((N % D : ℕ) : ℚ) / (D : ℚ) := by
      rw [div_lt_div_iff₀ (by norm_num) hD0]
      exact_mod_cast (by omega : 1 * D < (N % D) * 2)
    have hlt1 : ((N % D : ℕ) : ℚ) / (D : ℚ) < 1 := by
      rw [div_lt_one hD0]
      exact_mod_cast hr
    refine ⟨by omega, le_refl _, ?_, ?_⟩
    · rw [hdiv, abs_le]
      push_cast
      constructor <;> linarith
    · intro h
      rw [hdiv] at h
      push_cast at h
      have : ((N / D : ℕ) : ℚ) + 1 - (((N / D : ℕ) : ℚ) + ((N % D : ℕ) : ℚ) / (D : ℚ))
          = 1 - ((N % D : ℕ) : ℚ) / (D : ℚ) := by ring
      rw [this, abs_of_nonneg (by linarith)] at h
      linarith
  · have heq : ((N % D : ℕ) : ℚ) / (D : ℚ) = 1 / 2 := by
      rw [div_eq_div_iff (ne_of_gt hD0) (by norm_num)]
      exact_mod_cast (by omega : (N % D) * 2 = 1 * D)
    refine ⟨le_refl _, by omega, ?_, fun _ => h3⟩
    rw [hdiv, heq, abs_le]
    constructor <;> linarith
  · have heq : ((N % D : ℕ) : ℚ) / (D : ℚ) = 1 / 2 := by
      rw [div_eq_div_iff (ne_of_gt hD0) (by norm_num)]
      exact_mod_cast (by omega : (N % D) * 2 = 1 * D)
    refine ⟨by omega, le_refl _, ?_, fun _ => by omega⟩
    rw [hdiv, heq, abs_le]
    push_cast
    constructor <;> linarith

/-- The comparison of `binExp` decides `2 ^ z <= n / d`. -/
theorem two_zpow_le_iff (z : ℤ) (n d : Nat) (hd : 0 < d) :
    (2 : ℚ) ^ z ≤ (n : ℚ) / (d : ℚ) ↔ d * 2 ^ z.toNat ≤ n * 2 ^ (-z).toNat := by
  have hd0 : (0 : ℚ) < (d : ℚ) := by exact_mod_cast hd
  have hp : (0 : ℚ) < ((2 ^ (-z).toNat : ℕ) : ℚ) := by positivity
  rw [two_zpow_split, div_le_div_iff₀ hp hd0]
  constructor
  · intro h
    have h2 : ((2 ^ z.toNat * d : ℕ) : ℚ) ≤ ((n * 2 ^ (-z).toNat : ℕ) : ℚ) := by
      push_cast
      push_cast at h
      exact h
    have h3 := Nat.cast_le.1 h2
    rw [Nat.mul_comm] at h3
    exact h3
  · intro h
    have h2 : ((2 ^ z.toNat * d : ℕ) : ℚ) ≤ ((n * 2 ^ (-z).toNat : ℕ) : ℚ) := by
      apply Nat.cast_le.2
      rw [Nat.mul_comm]
      exact h
    push_cast at h2
    push_cast
    exact h2

/-- The exponent `binExp n d` satisfies `2 ^ e <= n / d < 2 ^ (e + 1)`. -/
theorem binExp_spec (n d : Nat) (hn : 0 < n) (hd : 0 < d) :
    (2 : ℚ) ^ binExp n d ≤ (n : ℚ) / (d : ℚ) ∧ (n : ℚ) / (d : ℚ) < (2 : ℚ) ^ (binExp n d + 1) := by
  have hd0 : (0 : ℚ) < (d : ℚ) := by exact_mod_cast hd
  have ha1 : 2 ^ Nat.log2 n ≤ n := Nat.log2_self_le (by omega)
  have ha2 : n < 2 ^ (Nat.log2 n + 1) := Nat.lt_log2_self
  have hb1 : 2 ^ Nat.log2 d ≤ d := Nat.log2_self_le (by omega)
  have hb2 : d < 2 ^ (Nat.log2 d + 1) := Nat.lt_log2_self
  have qa1 : (2 : ℚ) ^ (Nat.log2 n : ℤ) ≤ (n : ℚ) := by
    rw [zpow_natCast]
    exact_mod_cast ha1
  have qa2 : (n : ℚ) < (2 : ℚ) ^ ((Nat.log2 n : ℤ) + 1) := by
    have : (2 : ℚ) ^ ((Nat.log2 n : ℤ) + 1) = ((2 ^ (Nat.log2 n + 1) : ℕ) : ℚ) := by
      push_cast
      rw [← zpow_natCast]
      push_cast
      rfl
    rw [this]
    exact_mod_cast ha2
  have qb1 : (2 : ℚ) ^ (Nat.log2 d : ℤ) ≤ (d : ℚ) := by
    rw [zpow_natCast]
    exact_mod_cast hb1
  have qb2 : (d : ℚ) < (2 : ℚ) ^ ((Nat.log2 d : ℤ) + 1) := by
    have : (2 : ℚ) ^ ((Nat.log2 d : ℤ) + 1) = ((2 ^ (Nat.log2 d + 1) : ℕ) : ℚ) := by
      push_cast
      rw [← zpow_natCast]
      push_cast
      rfl
    rw [this]
    exact_mod_cast hb2
  have two0 : (2 : ℚ) ≠ 0 := by norm_num
  have hlow : (2 : ℚ) ^ ((Nat.log2 n : ℤ) - (Nat.log2 d : ℤ) - 1) ≤ (n : ℚ) / (d : ℚ) := by
    have e : (2 : ℚ) ^ ((Nat.log2 n : ℤ) - (Nat.log2 d : ℤ) - 1)
        = (2 : ℚ) ^ (Nat.log2 n : ℤ) / (2 : ℚ) ^ ((Nat.log2 d : ℤ) + 1) := by
      rw [← zpow_sub₀ two0]
      congr 1
      ring
    rw [e]
    exact div_le_div₀ (by positivity) qa1 hd0 (le_of_lt qb2)
  have hhigh : (n : ℚ) / (d : ℚ) < (2 : ℚ) ^ ((Nat.log2 n : ℤ) - (Nat.log2 d : ℤ) + 1) := by
    have e : (2 : ℚ) ^ ((Nat.log2 n : ℤ) - (Nat.log2 d : ℤ) + 1)
        = (2 : ℚ) ^ ((Nat.log2 n : ℤ) + 1) / (2 : ℚ) ^ (Nat.log2 d : ℤ) := by
      rw [← zpow_sub₀ two0]
      congr 1
      ring
    rw [e]
    exact div_lt_div₀ qa2 qb1 (by positivity) (by positivity)
  simp only [binExp, ilog2_eq_log2 n n (le_refl _), ilog2_eq_log2 d d (le_refl _)]
  split_ifs with h
  · exact ⟨(two_zpow_le_iff _ n d hd).2 h, hhigh⟩
  · refine ⟨hlow, ?_⟩
    have h2 := mt (two_zpow_le_iff ((Nat.log2 n : ℤ) - (Nat.log2 d : ℤ)) n d hd).1 h
    rw [sub_add_cancel]
    exact lt_of_not_le h2

/-- The value `roundDouble q` of a nonzero rational is a `double` nearest to `q`:
with `2 ^ e <= |q| < 2 ^ (e + 1)` it is `m * 2 ^ (e - 52)` with the sign of `q`
and a significand `2 ^ 52 <= m <= 2 ^ 53`, it is at most half a unit in the
last place `2 ^ (e - 52)` away from `q`, and in a tie `m` is even. -/
theorem roundDouble_spec (q : ℚ) (hq : q ≠ 0) :
    ∃ (e : ℤ) (m : ℕ), (2 : ℚ) ^ e ≤ |q| ∧ |q| < (2 : ℚ) ^ (e + 1) ∧
      2 ^ 52 ≤ m ∧ m ≤ 2 ^ 53 ∧
      roundDouble q = (if q < 0 then -((m : ℚ) * (2 : ℚ) ^ (e - 52))
        else (m : ℚ) * (2 : ℚ) ^ (e - 52)) ∧
      |roundDouble q - q| ≤ (2 : ℚ) ^ (e - 53) ∧
      (|roundDouble q - q| = (2 : ℚ) ^ (e - 53) → m % 2 = 0) := by
  have hn0 : q.num.natAbs ≠ 0 := by
    simpa using hq
  have hn : 0 < q.num.natAbs := Nat.pos_of_ne_zero hn0
  have hd : 0 < q.den := q.den_pos
  have habs : |q| = (q.num.natAbs : ℚ) / (q.den : ℚ) := by
    have h1 : ((q.num.natAbs : ℕ) : ℚ) = |(q.num : ℚ)| := by
      rw [Nat.cast_natAbs, Int.cast_abs]
    have hd0 : (0 : ℚ) < (q.den : ℚ) := by exact_mod_cast hd
    rw [h1]
    nth_rewrite 1 [← Rat.num_div_den q]
    rw [abs_div, abs_of_pos hd0]
  obtain ⟨be1, be2⟩ := binExp_spec q.num.natAbs q.den hn hd
  rw [← habs] at be1 be2
  generalize he : binExp q.num.natAbs q.den = e at be1 be2
  have two0 : (2 : ℚ) ≠ 0 := by norm_num
  have hDpos : 0 < q.den * 2 ^ (e - 52).toNat := by positivity
  have hD0 : (0 : ℚ) < ((q.den * 2 ^ (e - 52).toNat : ℕ) : ℚ) := by exact_mod_cast hDpos
  have hND : ((q.num.natAbs * 2 ^ (52 - e).toNat : ℕ) : ℚ) / ((q.den * 2 ^ (e - 52).toNat : ℕ) : ℚ)
      = |q| * (2 : ℚ) ^ (52 - e) := by
    rw [habs, two_zpow_split (52 - e), neg_sub]
    push_cast
    field_simp
  obtain ⟨r1, r2, r3, r4⟩ := roundHalfEven_spec (q.num.natAbs * 2 ^ (52 - e).toNat)
    (q.den * 2 ^ (e - 52).toNat) hDpos
  generalize hm : roundHalfEven (q.num.natAbs * 2 ^ (52 - e).toNat)
    (q.den * 2 ^ (e - 52).toNat) = m at r1 r2 r3 r4
  rw [hND] at r3 r4
  have hlo : (2 : ℚ) ^ (52 : ℤ) ≤ |q| * (2 : ℚ) ^ (52 - e) := by
    have : (2 : ℚ) ^ (52 : ℤ) = (2 : ℚ) ^ e * (2 : ℚ) ^ (52 - e) := by
      rw [← zpow_add₀ two0]
      congr 1
      ring
    rw [this]
    exact mul_le_mul_of_nonneg_right be1 (by positivity)
  have hhi : |q| * (2 : ℚ) ^ (52 - e) < (2 : ℚ) ^ (53 : ℤ) := by
    have : (2 : ℚ) ^ (53 : ℤ) = (2 : ℚ) ^ (e + 1) * (2 : ℚ) ^ (52 - e) := by
      rw [← zpow_add₀ two0]
      congr 1
      ring
    rw [this]
    exact mul_lt_mul_of_pos_right be2 (by positivity)
  rw [← hND] at hlo hhi
  have f1 : 2 ^ 52 ≤ (q.num.natAbs * 2 ^ (52 - e).toNat) / (q.den * 2 ^ (e - 52).toNat) := by
    rw [Nat.le_div_iff_mul_le hDpos]
    rw [le_div_iff₀ hD0] at hlo
    exact_mod_cast hlo
  have f2 : (q.num.natAbs * 2 ^ (52 - e).toNat) / (q.den * 2 ^ (e - 52).toNat) < 2 ^ 53 := by
    rw [Nat.div_lt_iff_lt_mul hDpos]
    rw [div_lt_iff₀ hD0] at hhi
    exact_mod_cast hhi
  have hv : ((m * 2 ^ (e - 52).toNat : ℕ) : ℚ) / ((2 ^ (52 - e).toNat : ℕ) : ℚ)
      = (m : ℚ) * (2 : ℚ) ^ (e - 52) := by
    rw [two_zpow_split (e - 52), neg_sub]
    push_cast
    ring
  have hval : roundDouble q = (if q < 0 then -((m : ℚ) * (2 : ℚ) ^ (e - 52))
      else (m : ℚ) * (2 : ℚ) ^ (e - 52)) := by
    simp only [roundDouble, hn0, if_false, he, hm, hv]
  have hdist : |roundDouble q - q|
      = |(m : ℚ) - |q| * (2 : ℚ) ^ (52 - e)| * (2 : ℚ) ^ (e - 52) := by
    have hp : (0 : ℚ) < (2 : ℚ) ^ (e - 52) := by positivity
    have e1 : |(m : ℚ) - |q| * (2 : ℚ) ^ (52 - e)| * (2 : ℚ) ^ (e - 52)
        = abs ((m : ℚ) * (2 : ℚ) ^ (e - 52) - abs q) := by
      have hPQ : (2 : ℚ) ^ (52 - e) * (2 : ℚ) ^ (e - 52) = 1 := by
        rw [← zpow_add₀ two0]
        have : (52 - e + (e - 52) : ℤ) = 0 := by ring
        rw [this, zpow_zero]
      have e2 : ((m : ℚ) - abs q * (2 : ℚ) ^ (52 - e)) * (2 : ℚ) ^ (e - 52)
          = (m : ℚ) * (2 : ℚ) ^ (e - 52) - abs q := by
        rw [sub_mul, mul_assoc, hPQ, mul_one]
      rw [← e2, abs_mul, abs_of_pos hp]
    rw [e1, hval]
    by_cases hneg : q < 0
    · rw [if_pos hneg, abs_of_neg hneg]
      rw [← abs_neg]
      congr 1
      ring
    · rw [if_neg hneg, abs_of_nonneg (not_lt.1 hneg)]
  have hhalf : (1 / 2 : ℚ) * (2 : ℚ) ^ (e - 52) = (2 : ℚ) ^ (e - 53) := by
    have : (e - 53 : ℤ) = (e - 52) + (-1) := by ring
    rw [this, zpow_add₀ two0]
    norm_num
    ring
  refine ⟨e, m, be1, be2, by omega, by omega, hval, ?_, ?_⟩
  · rw [hdist, ← hhalf]
    exact mul_le_mul_of_nonneg_right r3 (by positivity)
  · intro h
    rw [hdist, ← hhalf] at h
    have hp : (2 : ℚ) ^ (e - 52) ≠ 0 := by positivity
    exact r4 (mul_right_cancel₀ hp h)

set_option maxRecDepth 100000 in
/-- The rounding agrees with the `double` values of the literals `0.1`, `0.4`,
`1e-9`, `5e-10`, of `1.0 / 3.0`, and with round-half-to-even at `2^53 + 1` and
`2^53 + 3`. -/
theorem roundDouble_values :
    tenth.num = 3602879701896397 ∧ tenth.den = 2 ^ 55 ∧
    (roundDouble (4 / 10)).num = 3602879701896397 ∧ (roundDouble (4 / 10)).den = 2 ^ 53 ∧
    (roundDouble EPSILON).num = 4835703278458517 ∧ (roundDouble EPSILON).den = 2 ^ 82 ∧
    (roundDouble (5 / 10000000000)).num = 4835703278458517 ∧
    (roundDouble (5 / 10000000000)).den = 2 ^ 83 ∧
    (roundDouble (1 / 3)).num = 6004799503160661 ∧ (roundDouble (1 / 3)).den = 2 ^ 54 ∧
    (roundDouble 9007199254740993).num = 9007199254740992 ∧
    (roundDouble 9007199254740995).num = 9007199254740996 ∧
    roundDouble 0 = 0 ∧ (roundDouble (-1 / 10)).num = -3602879701896397 := by
  with_unfolding_all decide

set_option maxRecDepth 100000 in
/-- The rounding that makes a grandchild of `Box(0, 0, 0.4, 0.4)` miss (0.1, 0.1):
the child centered at 0.1 has the half width 0.1, its NE child gets the center
`0.1 + 0.05 = 0.15000000000000002` and the left edge
`0.15000000000000002 - 0.05 = 0.10000000000000002`, which is above `0.1`. -/
theorem roundDouble_edge :
    (dadd tenth (ddiv tenth 2)).num = 1351079888211149 ∧
    (dadd tenth (ddiv tenth 2)).den = 2 ^ 53 ∧
    (dsub (dadd tenth (ddiv tenth 2)) (ddiv tenth 2)).num = 7205759403792795 ∧
    (dsub (dadd tenth (ddiv tenth 2)) (ddiv tenth 2)).den = 2 ^ 56 ∧
    tenth < dsub (dadd tenth (ddiv tenth 2)) (ddiv tenth 2) := by
  with_unfolding_all decide

set_option maxRecDepth 100000 in
/-- C3 as stated fails in `double` arithmetic: on `QuadTree(0, 0, 0.4, 0.4, 1, 4)`
with `L = [(0.1, 0.1), (-0.1, -0.1)]` and `p = (-0.1, -0.1)`, both points lie
in the root boundary and `operator==` does not equate them, yet after
`Remove(p)` the search of the root boundary returns no point, although
(0.1, 0.1) is an element of `L` other than `p` that the range contains. -/
theorem C3_counterexample :
    smallBox.ContainsD ⟨tenth, tenth⟩ = true ∧ smallBox.ContainsD ⟨-tenth, -tenth⟩ = true ∧
    (⟨tenth, tenth⟩ : Point2D).opEqD ⟨-tenth, -tenth⟩ = false ∧
    (⟨tenth, tenth⟩ : Point2D) ≠ ⟨-tenth, -tenth⟩ ∧
    ∃ t1 t2, (QuadTree.new 0 0 (roundDouble (4 / 10)) (roundDouble (4 / 10)) 1 4).InsertAllD
        [⟨tenth, tenth⟩, ⟨-tenth, -tenth⟩] = some t1 ∧
      t1.RemoveD ⟨-tenth, -tenth⟩ = some t2 ∧
      t2.SearchD smallBox [] = some [] := by
  have key : smallBox.ContainsD ⟨tenth, tenth⟩ = true ∧
      smallBox.ContainsD ⟨-tenth, -tenth⟩ = true ∧
      (⟨tenth, tenth⟩ : Point2D).opEqD ⟨-tenth, -tenth⟩ = false ∧ -tenth < tenth ∧
      ((QuadTree.new 0 0 (roundDouble (4 / 10)) (roundDouble (4 / 10)) 1 4).InsertAllD
        [⟨tenth, tenth⟩, ⟨-tenth, -tenth⟩]).map (fun t1 =>
          (t1.RemoveD ⟨-tenth, -tenth⟩).map (fun t2 => t2.SearchD smallBox []))
        = some (some (some [])) := by
    with_unfolding_all decide
  obtain ⟨k1, k2, k3, k4, k5⟩ := key
  refine ⟨k1, k2, k3, ?_, ?_⟩
  · intro h
    have hx : tenth = -tenth := congrArg Point2D.x h
    rw [← hx] at k4
    exact lt_irrefl _ k4
  · cases hI : (QuadTree.new 0 0 (roundDouble (4 / 10)) (roundDouble (4 / 10)) 1 4).InsertAllD
        [⟨tenth, tenth⟩, ⟨-tenth, -tenth⟩] with
    | none =>
      rw [hI] at k5
      simp at k5
    | some t1 =>
      rw [hI] at k5
      simp only [Option.map_some', Option.some.injEq] at k5
      cases hR : t1.RemoveD ⟨-tenth, -tenth⟩ with
      | none =>
        rw [hR] at k5
        simp at k5
      | some t2 =>
        rw [hR] at k5
        simp only [Option.map_some', Option.some.injEq] at k5
        exact ⟨t1, t2, rfl, hR, k5⟩

set_option maxRecDepth 100000 in
/-- C4 as stated fails in `double` arithmetic: on the fresh tree
`QuadTree(0, 0, 0.4, 0.4, 1, 4)` the point (0.1, 0.1) lies in the root
boundary, `Insert(0.1, 0.1)` stores no point, because the boundary of the
grandchild that `GetQuadrant` selects starts at 0.10000000000000002, and the
following recursive `Remove(0.1, 0.1)` reports false. -/
theorem C4_counterexample :
    smallBox.ContainsD ⟨tenth, tenth⟩ = true ∧
    ∃ t1 r2, (QuadTree.new 0 0 (roundDouble (4 / 10)) (roundDouble (4 / 10)) 1 4).InsertD
        ⟨tenth, tenth⟩ = some t1 ∧
      t1.root.allPoints = [] ∧
      t1.root.RemoveD t1.maxChildren ⟨tenth, tenth⟩ = some (r2, false) := by
  have key : smallBox.ContainsD ⟨tenth, tenth⟩ = true ∧
      ((QuadTree.new 0 0 (roundDouble (4 / 10)) (roundDouble (4 / 10)) 1 4).InsertD
        ⟨tenth, tenth⟩).map (fun t1 => (t1.root.allPoints,
          (t1.root.RemoveD t1.maxChildren ⟨tenth, tenth⟩).map Prod.snd))
        = some ([], some false) := by
    with_unfolding_all decide
  obtain ⟨k1, k2⟩ := key
  refine ⟨k1, ?_⟩
  cases hI : (QuadTree.new 0 0 (roundDouble (4 / 10)) (roundDouble (4 / 10)) 1 4).InsertD
      ⟨tenth, tenth⟩ with
  | none =>
    rw [hI] at k2
    simp at k2
  | some t1 =>
    rw [hI] at k2
    simp only [Option.map_some', Option.some.injEq, Prod.mk.injEq] at k2
    obtain ⟨h1, h2⟩ := k2
    cases hR : t1.root.RemoveD t1.maxChildren ⟨tenth, tenth⟩ with
    | none =>
      rw [hR] at h2
      simp at h2
    | some r =>
      obtain ⟨r2, f⟩ := r
      rw [hR] at h2
      simp only [Option.map_some', Option.some.injEq] at h2
      subst h2
      exact ⟨t1, r2, rfl, h1, hR⟩

set_option maxRecDepth 100000 in
/-- C16 as stated fails in `double` arithmetic: on the fresh tree
`QuadTree(0, 0, 0.4, 0.4, 5, 4)` the point (0.1, 0.1) lies in the root
boundary, but after `Insert(0.1, 0.1)` the tree stores no point and no node is
deeper than 2, so the splits do not reach the depth `maxDepth + 1 = 6`. -/
theorem C16_counterexample :
    smallBox.ContainsD ⟨tenth, tenth⟩ = true ∧
    ∃ t2, (QuadTree.new 0 0 (roundDouble (4 / 10)) (roundDouble (4 / 10)) 5 4).InsertD
        ⟨tenth, tenth⟩ = some t2 ∧
      t2.root.allPoints = [] ∧ ∀ m ∈ t2.root.nodes, m.depthOf ≤ 2 := by
  have key : smallBox.ContainsD ⟨tenth, tenth⟩ = true ∧
      ((QuadTree.new 0 0 (roundDouble (4 / 10)) (roundDouble (4 / 10)) 5 4).InsertD
        ⟨tenth, tenth⟩).map (fun t2 => (t2.root.allPoints,
          decide (∀ m ∈ t2.root.nodes, m.depthOf ≤ 2))) = some ([], true) := by
    with_unfolding_all decide
  obtain ⟨k1, k2⟩ := key
  refine ⟨k1, ?_⟩
  cases hI : (QuadTree.new 0 0 (roundDouble (4 / 10)) (roundDouble (4 / 10)) 5 4).InsertD
      ⟨tenth, tenth⟩ with
  | none =>
    rw [hI] at k2
    simp at k2
  | some t2 =>
    rw [hI] at k2
    simp only [Option.map_some', Option.some.injEq, Prod.mk.injEq, decide_eq_true_eq] at k2
    exact ⟨t2, rfl, k2.1, k2.2⟩

set_option maxRecDepth 100000 in
/-- In `double` arithmetic the tolerant removal can fail although both points
lie in the root boundary and every node of the tree classifies them alike: on
`QuadTree(0, 0, 0.4, 0.4, 1, 4)`, `Insert(0.1, 0.1)` stores no point and
`Remove(0.1 + 5e-10, 0.1)` reports false. -/
theorem Remove_near_rounding_drop :
    smallBox.ContainsD ⟨tenth, tenth⟩ = true ∧
    smallBox.ContainsD ⟨dadd tenth (roundDouble (5 / 10000000000)), tenth⟩ = true ∧
    ∃ t1 r2, (QuadTree.new 0 0 (roundDouble (4 / 10)) (roundDouble (4 / 10)) 1 4).InsertD
        ⟨tenth, tenth⟩ = some t1 ∧
      (∀ m ∈ t1.root.nodes, ∀ b, m.boundaryOf = some b →
        b.GetQuadrant ⟨tenth, tenth⟩
          = b.GetQuadrant ⟨dadd tenth (roundDouble (5 / 10000000000)), tenth⟩) ∧
      t1.root.allPoints = [] ∧
      t1.root.RemoveD t1.maxChildren ⟨dadd tenth (roundDouble (5 / 10000000000)), tenth⟩
        = some (r2, false) := by
  have key : smallBox.ContainsD ⟨tenth, tenth⟩ = true ∧
      smallBox.ContainsD ⟨dadd tenth (roundDouble (5 / 10000000000)), tenth⟩ = true ∧
      ((QuadTree.new 0 0 (roundDouble (4 / 10)) (roundDouble (4 / 10)) 1 4).InsertD
        ⟨tenth, tenth⟩).map (fun t1 => (t1.root.allPoints,
          decide (∀ m ∈ t1.root.nodes, ∀ b ∈ m.boundaryOf,
            b.GetQuadrant ⟨tenth, tenth⟩
              = b.GetQuadrant ⟨dadd tenth (roundDouble (5 / 10000000000)), tenth⟩),
          (t1.root.RemoveD t1.maxChildren
            ⟨dadd tenth (roundDouble (5 / 10000000000)), tenth⟩).map Prod.snd))
        = some ([], true, some false) := by
    with_unfolding_all decide
  obtain ⟨k1, k2, k3⟩ := key
  refine ⟨k1, k2, ?_⟩
  cases hI : (QuadTree.new 0 0 (roundDouble (4 / 10)) (roundDouble (4 / 10)) 1 4).InsertD
      ⟨tenth, tenth⟩ with
  | none =>
    rw [hI] at k3
    simp at k3
  | some t1 =>
    rw [hI] at k3
    simp only [Option.map_some', Option.some.injEq, Prod.mk.injEq, decide_eq_true_eq] at k3
    obtain ⟨h1, h2, h3⟩ := k3
    cases hR : t1.root.RemoveD t1.maxChildren
        ⟨dadd tenth (roundDouble (5 / 10000000000)), tenth⟩ with
    | none =>
      rw [hR] at h3
      simp at h3
    | some r =>
      obtain ⟨r2, f⟩ := r
      rw [hR] at h3
      simp only [Option.map_some', Option.some.injEq] at h3
      subst h3
      exact ⟨t1, r2, rfl, fun m hm b hb => h2 m hm b hb, h1, hR⟩

/-! ## Structure of the trees in `double` arithmetic -/

theorem QuadNode.InsertD_out (md mc : Nat) (b : Box) (c0 c1 c2 c3 : QuadNode)
    (pts : List Point2D) (d : Nat) (p : Point2D) (h : b.ContainsD p = false) :
    (QuadNode.node b c0 c1 c2 c3 pts d).InsertD md mc p
      = some (QuadNode.node b c0 c1 c2 c3 pts d) := by
  rw [QuadNode.InsertD]
  simp [h]

theorem QuadNode.InsertD_push (md mc : Nat) (b : Box) (c0 c1 c2 c3 : QuadNode)
    (pts : List Point2D) (d : Nat) (p : Point2D) (h : b.ContainsD p = true)
    (hc : ¬ (pts.length < mc ∧ d ≤ md)) :
    (QuadNode.node b c0 c1 c2 c3 pts d).InsertD md mc p
      = some (QuadNode.node b c0 c1 c2 c3 (pts ++ [p]) d) := by
  rw [QuadNode.InsertD]
  simp only [h, Bool.not_true, Bool.false_eq_true, if_false, hc]

/-- The node that `split` makes of a leaf in `double` arithmetic: four new
leaves one level deeper. -/
theorem QuadNode.splitD_leaf (b : Box) (c1 c2 c3 : QuadNode) (pts : List Point2D) (d : Nat) :
    ∃ b0 b1 b2 b3, (QuadNode.node b QuadNode.null c1 c2 c3 pts d).splitD
      = some (QuadNode.node b (QuadNode.new b0 (d + 1)) (QuadNode.new b1 (d + 1))
          (QuadNode.new b2 (d + 1)) (QuadNode.new b3 (d + 1)) pts d) :=
  ⟨Box.new (dadd b.center.x (ddiv (ddiv b.width 2) 2))
      (dadd b.center.y (ddiv (ddiv b.height 2) 2)) (ddiv b.width 2) (ddiv b.height 2),
    Box.new (dsub b.center.x (ddiv (ddiv b.width 2) 2))
      (dadd b.center.y (ddiv (ddiv b.height 2) 2)) (ddiv b.width 2) (ddiv b.height 2),
    Box.new (dadd b.center.x (ddiv (ddiv b.width 2) 2))
      (dsub b.center.y (ddiv (ddiv b.height 2) 2)) (ddiv b.width 2) (ddiv b.height 2),
    Box.new (dsub b.center.x (ddiv (ddiv b.width 2) 2))
      (dsub b.center.y (ddiv (ddiv b.height 2) 2)) (ddiv b.width 2) (ddiv b.height 2),
    by simp [QuadNode.splitD]⟩

theorem QuadNode.InsertD_split (md mc : Nat) (b : Box) (c1 c2 c3 : QuadNode)
    (pts : List Point2D) (d : Nat) (p : Point2D) (h : b.ContainsD p = true)
    (hc : pts.length < mc ∧ d ≤ md) (node1 : QuadNode)
    (hs : (QuadNode.node b QuadNode.null c1 c2 c3 pts d).splitD = some node1) :
    (QuadNode.node b QuadNode.null c1 c2 c3 pts d).InsertD md mc p
      = ((node1.child (b.GetQuadrant p)).InsertD md mc p).map
          (fun c => node1.setChild (b.GetQuadrant p) c) := by
  rw [QuadNode.InsertD]
  simp only [h, Bool.not_true, Bool.false_eq_true, if_false, hc, and_self, if_true]
  split
  · rename_i hs1
    simp [hs] at hs1
  · rename_i node2 hs1
    simp only [if_true, hs, Option.some.injEq] at hs1
    subst hs1
    cases (QuadNode.InsertD md mc _ p) <;> rfl

theorem QuadNode.InsertD_descend (md mc : Nat) (b : Box) (c0 c1 c2 c3 : QuadNode)
    (pts : List Point2D) (d : Nat) (p : Point2D) (h : b.ContainsD p = true)
    (hc : pts.length < mc ∧ d ≤ md) (h0 : c0 ≠ QuadNode.null) :
    (QuadNode.node b c0 c1 c2 c3 pts d).InsertD md mc p
      = (((QuadNode.node b c0 c1 c2 c3 pts d).child (b.GetQuadrant p)).InsertD md mc p).map
          (fun c => (QuadNode.node b c0 c1 c2 c3 pts d).setChild (b.GetQuadrant p) c) := by
  rw [QuadNode.InsertD]
  simp only [h, Bool.not_true, Bool.false_eq_true, if_false, hc, and_self, if_true]
  split
  · rename_i hs
    simp [h0] at hs
  · rename_i node1 hs
    simp only [h0, if_false, Option.some.injEq] at hs
    subst hs
    cases (QuadNode.InsertD md mc _ p) <;> rfl

theorem QuadNode.Grown_new (md : Nat) (box : Box) (d : Nat) (hd : d ≤ md + 1) :
    (QuadNode.new box d).Grown md := by
  simp [QuadNode.new, QuadNode.Grown, hd]

theorem QuadNode.Grown_child {md : Nat} {b : Box} {c0 c1 c2 c3 : QuadNode}
    {pts : List Point2D} {d : Nat} (h : (QuadNode.node b c0 c1 c2 c3 pts d).Grown md)
    (h0 : c0 ≠ QuadNode.null) (q : Quadrant) :
    d ≤ md ∧ ((QuadNode.node b c0 c1 c2 c3 pts d).child q).Grown md := by
  unfold QuadNode.Grown at h
  obtain ⟨_, _, h3⟩ := h
  rcases h3 with h3 | ⟨h3, g0, g1, g2, g3⟩
  · exact absurd h3.1 h0
  · refine ⟨h3, ?_⟩
    cases q <;> simp only [QuadNode.child] <;> assumption

theorem QuadNode.Grown_setChild {md : Nat} {b : Box} {c0 c1 c2 c3 : QuadNode}
    {pts : List Point2D} {d : Nat} (hd : d ≤ md) (hp : pts = [])
    (g0 : c0.Grown md) (g1 : c1.Grown md) (g2 : c2.Grown md) (g3 : c3.Grown md)
    (q : Quadrant) (k : QuadNode) (hk : k.Grown md) :
    ((QuadNode.node b c0 c1 c2 c3 pts d).setChild q k).Grown md := by
  cases q <;> simp only [QuadNode.setChild] <;> unfold QuadNode.Grown <;>
    exact ⟨by omega, Or.inl hp, Or.inr ⟨hd, by assumption, by assumption, by assumption,
      by assumption⟩⟩

/-- With `maxChildren >= 1`, `Insert` in `double` arithmetic returns and keeps
the shape `Grown`. -/
theorem QuadNode.InsertD_grown (md mc : Nat) (hmc : 1 ≤ mc) (p : Point2D) (n : QuadNode)
    (h : n.Grown md) : ∃ n1, n.InsertD md mc p = some n1 ∧ n1.Grown md := by
  generalize hm : n.mu md = m
  induction m using Nat.strong_induction_on generalizing n with
  | _ m ih =>
    cases n with
    | null => simp [QuadNode.Grown] at h
    | node b c0 c1 c2 c3 pts d =>
      by_cases hb : b.ContainsD p = true
      · by_cases hcond : pts.length < mc ∧ d ≤ md
        · have hpts : pts = [] := by
            unfold QuadNode.Grown at h
            rcases h.2.1 with h1 | h1
            · exact h1
            · omega
          by_cases h0 : c0 = QuadNode.null
          · subst h0
            obtain ⟨b0, b1, b2, b3, hs⟩ := QuadNode.splitD_leaf b c1 c2 c3 pts d
            rw [QuadNode.InsertD_split md mc b c1 c2 c3 pts d p hb hcond _ hs]
            have gnew : ∀ box, (QuadNode.new box (d + 1)).Grown md :=
              fun box => QuadNode.Grown_new md box (d + 1) (by omega)
            have hchild : ∃ box, (QuadNode.node b (QuadNode.new b0 (d + 1))
                (QuadNode.new b1 (d + 1)) (QuadNode.new b2 (d + 1)) (QuadNode.new b3 (d + 1))
                pts d).child (b.GetQuadrant p) = QuadNode.new box (d + 1) := by
              cases b.GetQuadrant p <;> exact ⟨_, rfl⟩
            obtain ⟨box, hbox⟩ := hchild
            rw [hbox]
            obtain ⟨k, hk, gk⟩ := ih _ (by
              rw [← hm]
              exact QuadNode.mu_new_lt md b box _ _ _ _ pts d hcond.2) _ (gnew box) rfl
            rw [hk]
            exact ⟨_, rfl, QuadNode.Grown_setChild hcond.2 hpts (gnew _) (gnew _) (gnew _)
              (gnew _) _ k gk⟩
          · rw [QuadNode.InsertD_descend md mc b c0 c1 c2 c3 pts d p hb hcond h0]
            obtain ⟨hd, gc⟩ := QuadNode.Grown_child h h0 (b.GetQuadrant p)
            obtain ⟨k, hk, gk⟩ := ih _ (by
              rw [← hm]
              exact QuadNode.mu_child_lt md b c0 c1 c2 c3 pts d _) _ gc rfl
            rw [hk]
            exact ⟨_, rfl, QuadNode.Grown_setChild hd hpts
              (QuadNode.Grown_child h h0 Quadrant.NE).2 (QuadNode.Grown_child h h0 Quadrant.NW).2
              (QuadNode.Grown_child h h0 Quadrant.SE).2 (QuadNode.Grown_child h h0 Quadrant.SW).2
              _ k gk⟩
        · rw [QuadNode.InsertD_push md mc b c0 c1 c2 c3 pts d p hb hcond]
          refine ⟨_, rfl, ?_⟩
          unfold QuadNode.Grown at h ⊢
          obtain ⟨h1, h2, h3⟩ := h
          have hdeep : md < d := by
            rcases h2 with h2 | h2
            · subst h2
              simp only [List.length_nil, not_and, not_le] at hcond
              exact hcond (by omega)
            · exact h2
          refine ⟨h1, Or.inr hdeep, ?_⟩
          rcases h3 with h3 | h3
          · exact Or.inl h3
          · omega
      · rw [QuadNode.InsertD_out md mc b c0 c1 c2 c3 pts d p (by simpa using hb)]
        exact ⟨_, rfl, h⟩

theorem QuadNode.Grown_nodes (md : Nat) (n : QuadNode) (h : n.Grown md) :
    ∀ m ∈ n.nodes, (m.pointsOf ≠ [] → m.IsLeaf = some true ∧ m.depthOf = md + 1) ∧
      (m.depthOf ≤ md → m.pointsOf = []) := by
  induction n with
  | null => intro m hm; exact absurd hm (QuadNode.null_nodes m)
  | node b c0 c1 c2 c3 pts d ih0 ih1 ih2 ih3 =>
    intro m hm
    rw [QuadNode.mem_nodes_iff] at hm
    unfold QuadNode.Grown at h
    obtain ⟨h1, h2, h3⟩ := h
    rcases hm with rfl | hm | hm | hm | hm
    · simp only [QuadNode.pointsOf, QuadNode.IsLeaf, QuadNode.depthOf]
      constructor
      · intro hne
        have hdeep : md < d := by
          rcases h2 with h2 | h2
          · exact absurd h2 hne
          · exact h2
        rcases h3 with h3 | h3
        · exact ⟨by simp [h3.1], by omega⟩
        · omega
      · intro hle
        rcases h2 with h2 | h2
        · exact h2
        · omega
    · rcases h3 with h3 | h3
      · rw [h3.1] at hm
        exact absurd hm (QuadNode.null_nodes m)
      · exact ih0 h3.2.1 m hm
    · rcases h3 with h3 | h3
      · rw [h3.2.1] at hm
        exact absurd hm (QuadNode.null_nodes m)
      · exact ih1 h3.2.2.1 m hm
    · rcases h3 with h3 | h3
      · rw [h3.2.2.1] at hm
        exact absurd hm (QuadNode.null_nodes m)
      · exact ih2 h3.2.2.2.1 m hm
    · rcases h3 with h3 | h3
      · rw [h3.2.2.2] at hm
        exact absurd hm (QuadNode.null_nodes m)
      · exact ih3 h3.2.2.2.2 m hm

/-- With `maxChildren >= 1`, inserting a list of points in `double` arithmetic
returns and keeps the shape `Grown`. -/
theorem QuadTree.InsertAllD_grown (L : List Point2D) :
    ∀ t : QuadTree, 1 ≤ t.maxChildren → t.root.Grown t.maxDepth →
      ∃ t1, t.InsertAllD L = some t1 ∧ t1.maxDepth = t.maxDepth ∧
        t1.root.Grown t.maxDepth := by
  induction L with
  | nil => intro t _ h; exact ⟨t, rfl, rfl, h⟩
  | cons p rest ih =>
    intro t hmc h
    obtain ⟨n1, e1, g1⟩ := QuadNode.InsertD_grown t.maxDepth t.maxChildren hmc p t.root h
    obtain ⟨t1, e2, e3, g2⟩ := ih { t with root := n1 } hmc g1
    refine ⟨t1, ?_, e3, g2⟩
    simp only [QuadTree.InsertAllD, QuadTree.InsertD, e1]
    exact e2

theorem QuadNode.Shape_ne_null {md mc : Nat} {n : QuadNode} (h : n.Shape md mc) :
    n ≠ QuadNode.null := by
  rintro rfl
  simp [QuadNode.Shape] at h

theorem QuadNode.Shape_new (md mc : Nat) (box : Box) (d : Nat) :
    (QuadNode.new box d).Shape md mc := by
  simp [QuadNode.new, QuadNode.Shape]

theorem QuadNode.Shape_child {md mc : Nat} {b : Box} {c0 c1 c2 c3 : QuadNode}
    {pts : List Point2D} {d : Nat} (h : (QuadNode.node b c0 c1 c2 c3 pts d).Shape md mc)
    (h0 : c0 ≠ QuadNode.null) (q : Quadrant) :
    (pts.length < mc ∧ d ≤ md) ∧ ((QuadNode.node b c0 c1 c2 c3 pts d).child q).Shape md mc := by
  unfold QuadNode.Shape at h
  rcases h with h | ⟨h1, h2, g0, g1, g2, g3⟩
  · exact absurd h.1 h0
  · refine ⟨⟨h1, h2⟩, ?_⟩
    cases q <;> simp only [QuadNode.child] <;> assumption

theorem QuadNode.Shape_leaf {md mc : Nat} {b : Box} {c0 c1 c2 c3 : QuadNode}
    {pts : List Point2D} {d : Nat} (h : (QuadNode.node b c0 c1 c2 c3 pts d).Shape md mc)
    (h0 : c0 = QuadNode.null) : c1 = QuadNode.null ∧ c2 = QuadNode.null ∧ c3 = QuadNode.null := by
  unfold QuadNode.Shape at h
  rcases h with h | ⟨_, _, g0, _⟩
  · exact h.2
  · exact absurd h0 (QuadNode.Shape_ne_null g0)

theorem QuadNode.Shape_setChild {md mc : Nat} {b : Box} {c0 c1 c2 c3 : QuadNode}
    {pts : List Point2D} {d : Nat} (hcond : pts.length < mc ∧ d ≤ md)
    (g0 : c0.Shape md mc) (g1 : c1.Shape md mc) (g2 : c2.Shape md mc) (g3 : c3.Shape md mc)
    (q : Quadrant) (k : QuadNode) (hk : k.Shape md mc) :
    ((QuadNode.node b c0 c1 c2 c3 pts d).setChild q k).Shape md mc := by
  cases q <;> simp only [QuadNode.setChild] <;> unfold QuadNode.Shape <;>
    exact Or.inr ⟨hcond.1, hcond.2, by assumption, by assumption, by assumption, by assumption⟩

theorem QuadNode.Shape_leaf_form {md mc : Nat} {c : QuadNode} (h : c.Shape md mc)
    (hl : c.IsLeaf = some true) :
    ∃ b pts d, c = QuadNode.node b .null .null .null .null pts d := by
  cases c with
  | null => simp [QuadNode.Shape] at h
  | node b c0 c1 c2 c3 pts d =>
    simp only [QuadNode.IsLeaf, Option.some.injEq, decide_eq_true_eq] at hl
    obtain ⟨h1, h2, h3⟩ := QuadNode.Shape_leaf h hl
    subst hl h1 h2 h3
    exact ⟨b, pts, d, rfl⟩

theorem QuadNode.TryMerge_count_shape (md mc : Nat) (cs : List QuadNode) (total : Nat)
    (h : ∀ c ∈ cs, c.Shape md mc) :
    QuadNode.TryMerge.count cs total = some none ∨
      (QuadNode.TryMerge.count cs total
          = some (some (total + (cs.map (fun c => c.pointsOf.length)).sum)) ∧
        ∀ c ∈ cs, c.IsLeaf = some true) := by
  induction cs generalizing total with
  | nil => right; simp [QuadNode.TryMerge.count]
  | cons c rest ih =>
    have hc := h c (List.mem_cons_self _ _)
    cases c with
    | null => simp [QuadNode.Shape] at hc
    | node b k0 k1 k2 k3 pts d =>
      by_cases hk : k0 = QuadNode.null
      · rcases ih (total + pts.length) (fun c hc' => h c (List.mem_cons_of_mem _ hc')) with h1 | h1
        · left
          simp [QuadNode.TryMerge.count, hk, h1]
        · right
          refine ⟨?_, ?_⟩
          · simp [QuadNode.TryMerge.count, hk, h1.1, QuadNode.pointsOf, Nat.add_assoc]
          · intro c hc'
            rcases List.mem_cons.1 hc' with rfl | hc''
            · simp [QuadNode.IsLeaf, hk]
            · exact h1.2 c hc''
      · left
        simp [QuadNode.TryMerge.count, hk]

/-- On a node of the shape `Shape`, `TryMerge` returns, keeps the shape and
the stored points. -/
theorem QuadNode.TryMerge_shape (md mc : Nat) (n : QuadNode) (h : n.Shape md mc) :
    ∃ n1 f, n.TryMerge mc = some (n1, f) ∧ n1.Shape md mc ∧
      n1.allPoints = n.allPoints := by
  cases n with
  | null => simp [QuadNode.Shape] at h
  | node b c0 c1 c2 c3 pts d =>
    by_cases h0 : c0 = QuadNode.null
    · exact ⟨_, false, by simp [QuadNode.TryMerge, h0], h, rfl⟩
    · have hc : ∀ c ∈ [c0, c1, c2, c3], c.Shape md mc := by
        intro c hc
        simp only [List.mem_cons, List.mem_singleton, List.not_mem_nil, or_false] at hc
        have q0 := (QuadNode.Shape_child h h0 Quadrant.NE).2
        have q1 := (QuadNode.Shape_child h h0 Quadrant.NW).2
        have q2 := (QuadNode.Shape_child h h0 Quadrant.SE).2
        have q3 := (QuadNode.Shape_child h h0 Quadrant.SW).2
        simp only [QuadNode.child] at q0 q1 q2 q3
        rcases hc with rfl | rfl | rfl | rfl <;> assumption
      rcases QuadNode.TryMerge_count_shape md mc [c0, c1, c2, c3] 0 hc with h1 | ⟨h1, h2⟩
      · exact ⟨_, false, by simp [QuadNode.TryMerge, h0, h1], h, rfl⟩
      · by_cases ht : (0 + ([c0, c1, c2, c3].map (fun c => c.pointsOf.length)).sum) > mc
        · exact ⟨_, false, by simp only [QuadNode.TryMerge, h0, h1, if_false, ht, if_true], h,
            rfl⟩
        · obtain ⟨b0, p0, d0, e0⟩ := QuadNode.Shape_leaf_form (hc c0 (by simp)) (h2 c0 (by simp))
          obtain ⟨b1, p1, d1, e1⟩ := QuadNode.Shape_leaf_form (hc c1 (by simp)) (h2 c1 (by simp))
          obtain ⟨b2, p2, d2, e2⟩ := QuadNode.Shape_leaf_form (hc c2 (by simp)) (h2 c2 (by simp))
          obtain ⟨b3, p3, d3, e3⟩ := QuadNode.Shape_leaf_form (hc c3 (by simp)) (h2 c3 (by simp))
          have hT : (QuadNode.node b c0 c1 c2 c3 pts d).TryMerge mc
              = some (QuadNode.node b .null .null .null .null
                (pts ++ c0.pointsOf ++ c1.pointsOf ++ c2.pointsOf ++ c3.pointsOf) d, true) := by
            simp only [QuadNode.TryMerge, h0, h1, if_false, ht]
          refine ⟨_, true, hT, ?_, ?_⟩
          · unfold QuadNode.Shape
            exact Or.inl ⟨rfl, rfl, rfl, rfl⟩
          · subst e0 e1 e2 e3
            simp [QuadNode.allPoints, QuadNode.pointsOf]

theorem roundDouble_zero : roundDouble 0 = 0 := by
  simp [roundDouble]

set_option maxRecDepth 100000 in
theorem roundDouble_EPSILON_pos : 0 < roundDouble EPSILON := by
  with_unfolding_all decide

theorem Point2D.opEqD_self (p : Point2D) : p.opEqD p = true := by
  simp [Point2D.opEqD, dsub, roundDouble_zero, roundDouble_EPSILON_pos]

theorem eraseFirstD_length (p : Point2D) (l l1 : List Point2D) (h : eraseFirstD p l = some l1) :
    l1.length + 1 = l.length := by
  induction l generalizing l1 with
  | nil => simp [eraseFirstD] at h
  | cons q rest ih =>
    unfold eraseFirstD at h
    by_cases hq : q.opEqD p = true
    · simp only [hq, if_true, Option.some.injEq] at h
      subst h
      simp
    · have hq' : q.opEqD p = false := by simpa using hq
      simp only [hq', Bool.false_eq_true, if_false] at h
      cases hr : eraseFirstD p rest with
      | none => simp [hr] at h
      | some r =>
        simp only [hr, Option.some.injEq] at h
        subst h
        have := ih r hr
        simp only [List.length_cons]
        omega

theorem eraseFirstD_self (p : Point2D) (l : List Point2D) (hp : p ∈ l) :
    ∃ l1, eraseFirstD p l = some l1 := by
  induction l with
  | nil => simp at hp
  | cons q rest ih =>
    unfold eraseFirstD
    by_cases hq : q.opEqD p = true
    · exact ⟨rest, by simp [hq]⟩
    · have hq' : q.opEqD p = false := by simpa using hq
      have hne : p ∈ rest := by
        rcases List.mem_cons.1 hp with rfl | h1
        · rw [Point2D.opEqD_self] at hq'
          exact Bool.noConfusion hq'
        · exact h1
      obtain ⟨r, hr⟩ := ih hne
      exact ⟨q :: r, by simp [hq', hr]⟩

theorem QuadNode.RemoveD_out (mc : Nat) (b : Box) (c0 c1 c2 c3 : QuadNode)
    (pts : List Point2D) (d : Nat) (p : Point2D) (h : b.ContainsD p = false) :
    (QuadNode.node b c0 c1 c2 c3 pts d).RemoveD mc p
      = some (QuadNode.node b c0 c1 c2 c3 pts d, false) := by
  simp [QuadNode.RemoveD, h]

theorem QuadNode.RemoveD_leaf (mc : Nat) (b : Box) (c1 c2 c3 : QuadNode)
    (pts : List Point2D) (d : Nat) (p : Point2D) (h : b.ContainsD p = true) :
    (QuadNode.node b .null c1 c2 c3 pts d).RemoveD mc p
      = match eraseFirstD p pts with
        | some pts1 => some (QuadNode.node b .null c1 c2 c3 pts1 d, true)
        | none => some (QuadNode.node b .null c1 c2 c3 pts d, false) := by
  cases he : eraseFirstD p pts <;> simp [QuadNode.RemoveD, h, he]

theorem QuadNode.RemoveD_descend (mc : Nat) (b : Box) (c0 c1 c2 c3 : QuadNode)
    (pts : List Point2D) (d : Nat) (p : Point2D) (h : b.ContainsD p = true)
    (h0 : c0 ≠ QuadNode.null) :
    (QuadNode.node b c0 c1 c2 c3 pts d).RemoveD mc p
      = match ((QuadNode.node b c0 c1 c2 c3 pts d).child (b.GetQuadrant p)).RemoveD mc p with
        | none => none
        | some (k, removed) =>
          if removed then
            match ((QuadNode.node b c0 c1 c2 c3 pts d).setChild (b.GetQuadrant p) k).TryMerge mc with
            | none => none
            | some (node1, _) => some (node1, removed)
          else some ((QuadNode.node b c0 c1 c2 c3 pts d).setChild (b.GetQuadrant p) k, removed) := by
  rw [QuadNode.RemoveD]
  simp only [h, Bool.not_true, Bool.false_eq_true, if_false, h0]
  cases b.GetQuadrant p <;> rfl

theorem QuadNode.RemoveD_setChild (mc : Nat) (b : Box) (c0 c1 c2 c3 : QuadNode)
    (pts : List Point2D) (d : Nat) (p : Point2D) (k : QuadNode) (h : b.ContainsD p = true)
    (h0 : c0 ≠ QuadNode.null) (hk : k ≠ QuadNode.null) :
    ((QuadNode.node b c0 c1 c2 c3 pts d).setChild (b.GetQuadrant p) k).RemoveD mc p
      = match k.RemoveD mc p with
        | none => none
        | some (k2, removed) =>
          if removed then
            match ((QuadNode.node b c0 c1 c2 c3 pts d).setChild (b.GetQuadrant p) k2).TryMerge mc with
            | none => none
            | some (node1, _) => some (node1, removed)
          else some ((QuadNode.node b c0 c1 c2 c3 pts d).setChild (b.GetQuadrant p) k2, removed) := by
  cases hq : b.GetQuadrant p <;> simp only [QuadNode.setChild]
  · rw [QuadNode.RemoveD_descend mc b k c1 c2 c3 pts d p h hk, hq]; rfl
  · rw [QuadNode.RemoveD_descend mc b c0 k c2 c3 pts d p h h0, hq]; rfl
  · rw [QuadNode.RemoveD_descend mc b c0 c1 k c3 pts d p h h0, hq]; rfl
  · rw [QuadNode.RemoveD_descend mc b c0 c1 c2 k pts d p h h0, hq]; rfl

theorem QuadNode.length_setChild (b : Box) (c0 c1 c2 c3 : QuadNode) (pts : List Point2D)
    (d : Nat) (q : Quadrant) (c : QuadNode) :
    ((QuadNode.node b c0 c1 c2 c3 pts d).setChild q c).allPoints.length
        + ((QuadNode.node b c0 c1 c2 c3 pts d).child q).allPoints.length
      = (QuadNode.node b c0 c1 c2 c3 pts d).allPoints.length + c.allPoints.length := by
  have h := (QuadNode.allPoints_setChild b c0 c1 c2 c3 pts d q c).length_eq
  simpa only [List.length_append] using h

/-- What a `Remove` of `p` in `double` arithmetic does to the parent of the
child `k` that it descends into, given what it does to `k`. -/
theorem QuadNode.RemoveD_step {md mc : Nat} {p : Point2D} {b : Box}
    {c0 c1 c2 c3 : QuadNode} {pts : List Point2D} {d : Nat}
    (h : (QuadNode.node b c0 c1 c2 c3 pts d).Shape md mc) (hb : b.ContainsD p = true)
    (h0 : c0 ≠ QuadNode.null) (k k2 : QuadNode) (f : Bool) (hk : k.Shape md mc)
    (hr : k.RemoveD mc p = some (k2, f)) (hs : k2.Shape md mc) (hf : f = false → k2 = k)
    (ht : f = true → k2.allPoints.length + 1 = k.allPoints.length) :
    ∃ n2, ((QuadNode.node b c0 c1 c2 c3 pts d).setChild (b.GetQuadrant p) k).RemoveD mc p
        = some (n2, f) ∧ n2.Shape md mc ∧
      (f = false → n2 = (QuadNode.node b c0 c1 c2 c3 pts d).setChild (b.GetQuadrant p) k) ∧
      (f = true → n2.allPoints.length + 1
        = ((QuadNode.node b c0 c1 c2 c3 pts d).setChild (b.GetQuadrant p) k).allPoints.length) := by
  obtain ⟨hcond, _⟩ := QuadNode.Shape_child h h0 Quadrant.NE
  have g0 := (QuadNode.Shape_child h h0 Quadrant.NE).2
  have g1 := (QuadNode.Shape_child h h0 Quadrant.NW).2
  have g2 := (QuadNode.Shape_child h h0 Quadrant.SE).2
  have g3 := (QuadNode.Shape_child h h0 Quadrant.SW).2
  simp only [QuadNode.child] at g0 g1 g2 g3
  rw [QuadNode.RemoveD_setChild mc b c0 c1 c2 c3 pts d p k hb h0 (QuadNode.Shape_ne_null hk), hr]
  cases f with
  | false =>
    simp only [Bool.false_eq_true, if_false]
    rw [hf rfl]
    exact ⟨_, rfl, QuadNode.Shape_setChild hcond g0 g1 g2 g3 _ k hk, fun _ => rfl,
      (fun hx => by cases hx)⟩
  | true =>
    simp only [if_true]
    obtain ⟨n3, f3, e3, s3, l3⟩ := QuadNode.TryMerge_shape md mc _
      (QuadNode.Shape_setChild hcond g0 g1 g2 g3 (b.GetQuadrant p) k2 hs)
    rw [e3]
    refine ⟨n3, rfl, s3, (fun hx => by cases hx), fun _ => ?_⟩
    have a1 := QuadNode.length_setChild b c0 c1 c2 c3 pts d (b.GetQuadrant p) k
    have a2 := QuadNode.length_setChild b c0 c1 c2 c3 pts d (b.GetQuadrant p) k2
    have a3 := ht rfl
    have a4 := congrArg List.length l3
    omega

/-- The recursive `Remove` in `double` arithmetic returns on every node of
the shape `Shape` and keeps the shape; a failure changes nothing and a success
erases exactly one stored point. -/
theorem QuadNode.RemoveD_shape (md mc : Nat) (p : Point2D) (n : QuadNode)
    (h : n.Shape md mc) :
    ∃ n1 f, n.RemoveD mc p = some (n1, f) ∧ n1.Shape md mc ∧ (f = false → n1 = n) ∧
      (f = true → n1.allPoints.length + 1 = n.allPoints.length) := by
  induction n with
  | null => simp [QuadNode.Shape] at h
  | node b c0 c1 c2 c3 pts d ih0 ih1 ih2 ih3 =>
    by_cases hb : b.ContainsD p = true
    · by_cases h0 : c0 = QuadNode.null
      · obtain ⟨h1, h2, h3⟩ := QuadNode.Shape_leaf h h0
        subst h0 h1 h2 h3
        rw [QuadNode.RemoveD_leaf mc b _ _ _ pts d p hb]
        cases he : eraseFirstD p pts with
        | none => exact ⟨_, false, rfl, h, fun _ => rfl, (fun hx => by cases hx)⟩
        | some r =>
          refine ⟨_, true, rfl, ?_, (fun hx => by cases hx), fun _ => ?_⟩
          · unfold QuadNode.Shape
            exact Or.inl ⟨rfl, rfl, rfl, rfl⟩
          · have := eraseFirstD_length p pts r he
            simpa [QuadNode.allPoints] using this
      · have hc := (QuadNode.Shape_child h h0 (b.GetQuadrant p)).2
        have ihq : ((QuadNode.node b c0 c1 c2 c3 pts d).child (b.GetQuadrant p)).Shape md mc →
            ∃ n1 f, ((QuadNode.node b c0 c1 c2 c3 pts d).child (b.GetQuadrant p)).RemoveD mc p
                = some (n1, f) ∧ n1.Shape md mc ∧
              (f = false → n1 = (QuadNode.node b c0 c1 c2 c3 pts d).child (b.GetQuadrant p)) ∧
              (f = true → n1.allPoints.length + 1
                = ((QuadNode.node b c0 c1 c2 c3 pts d).child (b.GetQuadrant p)).allPoints.length) := by
          cases b.GetQuadrant p <;> simp only [QuadNode.child] <;> assumption
        obtain ⟨k2, f, e1, s1, f1, t1⟩ := ihq hc
        obtain ⟨n2, e2, s2, f2, t2⟩ := QuadNode.RemoveD_step h hb h0 _ k2 f hc e1 s1 f1 t1
        rw [QuadNode.setChild_child] at e2 f2 t2
        exact ⟨n2, f, e2, s2, f2, t2⟩
    · simp only [Bool.not_eq_true] at hb
      rw [QuadNode.RemoveD_out mc b c0 c1 c2 c3 pts d p hb]
      exact ⟨_, false, rfl, h, fun _ => rfl, (fun hx => by cases hx)⟩

/-- On every node of the shape `Shape`, `Insert` in `double` arithmetic
returns and keeps the shape, and the recursive `Remove` of the same point
right after it returns and restores the number of stored points: either the
`Insert` stored one point and the `Remove` reports true, or the `Insert`
stored none and the `Remove` reports false and changes nothing. -/
theorem QuadNode.InsertD_spec (md mc : Nat) (p : Point2D) (n : QuadNode) (h : n.Shape md mc) :
    ∃ n1, n.InsertD md mc p = some n1 ∧ n1.Shape md mc ∧
      ∃ n2 f, n1.RemoveD mc p = some (n2, f) ∧ n2.Shape md mc ∧
        n2.allPoints.length = n.allPoints.length ∧
        (f = true → n1.allPoints.length = n.allPoints.length + 1) ∧
        (f = false → n1.allPoints.length = n.allPoints.length ∧ n2 = n1) := by
  generalize hm : n.mu md = m
  induction m using Nat.strong_induction_on generalizing n with
  | _ m ih =>
    cases n with
    | null => simp [QuadNode.Shape] at h
    | node b c0 c1 c2 c3 pts d =>
      have step : ∀ (k0 k1 k2 k3 : QuadNode),
          (QuadNode.node b k0 k1 k2 k3 pts d).Shape md mc → k0 ≠ QuadNode.null →
          b.ContainsD p = true →
          (QuadNode.node b k0 k1 k2 k3 pts d).mu md ≤ (QuadNode.node b c0 c1 c2 c3 pts d).mu md ∨
            (∀ q, ∃ box, (QuadNode.node b k0 k1 k2 k3 pts d).child q = QuadNode.new box (d + 1)) →
          d ≤ md →
          ∃ k, ((QuadNode.node b k0 k1 k2 k3 pts d).child (b.GetQuadrant p)).InsertD md mc p
              = some k ∧
            ((QuadNode.node b k0 k1 k2 k3 pts d).setChild (b.GetQuadrant p) k).Shape md mc ∧
            ∃ n2 f, ((QuadNode.node b k0 k1 k2 k3 pts d).setChild (b.GetQuadrant p) k).RemoveD mc p
                = some (n2, f) ∧ n2.Shape md mc ∧
              n2.allPoints.length = (QuadNode.node b k0 k1 k2 k3 pts d).allPoints.length ∧
              (f = true →
                ((QuadNode.node b k0 k1 k2 k3 pts d).setChild (b.GetQuadrant p) k).allPoints.length
                  = (QuadNode.node b k0 k1 k2 k3 pts d).allPoints.length + 1) ∧
              (f = false →
                ((QuadNode.node b k0 k1 k2 k3 pts d).setChild (b.GetQuadrant p) k).allPoints.length
                  = (QuadNode.node b k0 k1 k2 k3 pts d).allPoints.length ∧
                n2 = (QuadNode.node b k0 k1 k2 k3 pts d).setChild (b.GetQuadrant p) k) := by
        intro k0 k1 k2 k3 hN hk0 hb hmu hd
        obtain ⟨hcond, hc⟩ := QuadNode.Shape_child hN hk0 (b.GetQuadrant p)
        have g0 := (QuadNode.Shape_child hN hk0 Quadrant.NE).2
        have g1 := (QuadNode.Shape_child hN hk0 Quadrant.NW).2
        have g2 := (QuadNode.Shape_child hN hk0 Quadrant.SE).2
        have g3 := (QuadNode.Shape_child hN hk0 Quadrant.SW).2
        simp only [QuadNode.child] at g0 g1 g2 g3
        have hlt : ((QuadNode.node b k0 k1 k2 k3 pts d).child (b.GetQuadrant p)).mu md < m := by
          rw [← hm]
          rcases hmu with hmu | hmu
          · exact lt_of_lt_of_le (QuadNode.mu_child_lt md b k0 k1 k2 k3 pts d _) hmu
          · obtain ⟨box, hbox⟩ := hmu (b.GetQuadrant p)
            rw [hbox]
            exact QuadNode.mu_new_lt md b box _ _ _ _ pts d hd
        obtain ⟨k, e1, s1, kk, f, e2, s2, l2, t2, f2⟩ := ih _ hlt _ hc rfl
        obtain ⟨n2, e3, s3, f3, t3⟩ := QuadNode.RemoveD_step hN hb hk0 k kk f s1 e2 s2
          (fun hf => (f2 hf).2) (fun ht => by have := t2 ht; omega)
        have a1 := QuadNode.length_setChild b k0 k1 k2 k3 pts d (b.GetQuadrant p) k
        refine ⟨k, e1, QuadNode.Shape_setChild hcond g0 g1 g2 g3 _ k s1, n2, f, e3, s3, ?_, ?_, ?_⟩
        · cases f with
          | true =>
            have := t3 rfl
            have := t2 rfl
            omega
          | false =>
            rw [f3 rfl]
            have := (f2 rfl).1
            omega
        · intro ht
          have := t2 ht
          omega
        · intro hf
          refine ⟨?_, f3 hf⟩
          have := (f2 hf).1
          omega
      by_cases hb : b.ContainsD p = true
      · by_cases hcond : pts.length < mc ∧ d ≤ md
        · by_cases h0 : c0 = QuadNode.null
          · obtain ⟨h1, h2, h3⟩ := QuadNode.Shape_leaf h h0
            subst h0 h1 h2 h3
            obtain ⟨b0, b1, b2, b3, hs⟩ := QuadNode.splitD_leaf b .null .null .null pts d
            rw [QuadNode.InsertD_split md mc b _ _ _ pts d p hb hcond _ hs]
            have hN : (QuadNode.node b (QuadNode.new b0 (d + 1)) (QuadNode.new b1 (d + 1))
                (QuadNode.new b2 (d + 1)) (QuadNode.new b3 (d + 1)) pts d).Shape md mc := by
              unfold QuadNode.Shape
              exact Or.inr ⟨hcond.1, hcond.2, QuadNode.Shape_new _ _ _ _, QuadNode.Shape_new _ _ _ _,
                QuadNode.Shape_new _ _ _ _, QuadNode.Shape_new _ _ _ _⟩
            obtain ⟨k, e1, s1, n2, f, e2, s2, l2, t2, f2⟩ := step _ _ _ _ hN
              (QuadNode.new_ne_null _ _) hb
              (Or.inr (fun q => by cases q <;> exact ⟨_, rfl⟩)) hcond.2
            rw [e1]
            have hl : (QuadNode.node b (QuadNode.new b0 (d + 1)) (QuadNode.new b1 (d + 1))
                (QuadNode.new b2 (d + 1)) (QuadNode.new b3 (d + 1)) pts d).allPoints.length
                = (QuadNode.node b .null .null .null .null pts d).allPoints.length := by
              simp [QuadNode.allPoints, QuadNode.new]
            rw [hl] at l2 t2 f2
            exact ⟨_, rfl, s1, n2, f, e2, s2, l2, t2, f2⟩
          · rw [QuadNode.InsertD_descend md mc b c0 c1 c2 c3 pts d p hb hcond h0]
            obtain ⟨k, e1, s1, n2, f, e2, s2, l2, t2, f2⟩ := step c0 c1 c2 c3 h h0 hb
              (Or.inl (le_refl _)) hcond.2
            rw [e1]
            exact ⟨_, rfl, s1, n2, f, e2, s2, l2, t2, f2⟩
        · rw [QuadNode.InsertD_push md mc b c0 c1 c2 c3 pts d p hb hcond]
          have h0 : c0 = QuadNode.null := by
            by_contra h0
            exact hcond (QuadNode.Shape_child h h0 Quadrant.NE).1
          obtain ⟨h1, h2, h3⟩ := QuadNode.Shape_leaf h h0
          subst h0 h1 h2 h3
          have hsh : ∀ l, (QuadNode.node b .null .null .null .null l d).Shape md mc := by
            intro l
            unfold QuadNode.Shape
            exact Or.inl ⟨rfl, rfl, rfl, rfl⟩
          obtain ⟨r, hr⟩ := eraseFirstD_self p (pts ++ [p]) (by simp)
          have hlen := eraseFirstD_length p _ r hr
          refine ⟨_, rfl, hsh _, QuadNode.node b .null .null .null .null r d, true, ?_, hsh _,
            ?_, ?_, (fun hx => by cases hx)⟩
          · rw [QuadNode.RemoveD_leaf mc b _ _ _ _ d p hb, hr]
          · simp only [List.length_append, List.length_singleton] at hlen
            simp [QuadNode.allPoints]
            omega
          · intro _
            simp [QuadNode.allPoints]
      · simp only [Bool.not_eq_true] at hb
        rw [QuadNode.InsertD_out md mc b c0 c1 c2 c3 pts d p hb]
        refine ⟨_, rfl, h, _, false, QuadNode.RemoveD_out mc b c0 c1 c2 c3 pts d p hb, h, rfl,
          (fun hx => by cases hx), fun _ => ⟨rfl, rfl⟩⟩

/-- Every tree reachable in `double` arithmetic has the shape `Shape`. -/
theorem ReachableD.shape {t : QuadTree} (h : ReachableD t) :
    t.root.Shape t.maxDepth t.maxChildren := by
  induction h with
  | new x y w h md mc => exact QuadNode.Shape_new _ _ _ _
  | insert t t1 p _ hi ih =>
    obtain ⟨n1, e1, s1, _⟩ := QuadNode.InsertD_spec t.maxDepth t.maxChildren p t.root ih
    simp only [QuadTree.InsertD, e1, Option.some.injEq] at hi
    subst hi
    exact s1
  | remove t t1 p _ hr ih =>
    obtain ⟨n1, f, e1, s1, _⟩ := QuadNode.RemoveD_shape t.maxDepth t.maxChildren p t.root ih
    simp only [QuadTree.RemoveD, e1, Option.some.injEq] at hr
    subst hr
    exact s1
  | clear t t1 _ hc ih =>
    cases hroot : t.root with
    | null => rw [hroot] at ih; simp [QuadNode.Shape] at ih
    | node b c0 c1 c2 c3 pts d =>
      simp only [QuadTree.Clear, hroot, Option.some.injEq] at hc
      subst hc
      exact QuadNode.Shape_new _ _ _ _

theorem QuadNode.HeldD_new (box : Box) (d : Nat) : (QuadNode.new box d).HeldD := by
  simp [QuadNode.new, QuadNode.HeldD, QuadNode.allPoints]

theorem QuadNode.HeldD_child {b : Box} {c0 c1 c2 c3 : QuadNode} {pts : List Point2D} {d : Nat}
    (h : (QuadNode.node b c0 c1 c2 c3 pts d).HeldD) (q : Quadrant) :
    ((QuadNode.node b c0 c1 c2 c3 pts d).child q).HeldD := by
  unfold QuadNode.HeldD at h
  obtain ⟨_, g0, g1, g2, g3⟩ := h
  cases q <;> simp only [QuadNode.child] <;> assumption

theorem QuadNode.mem_setChild (b : Box) (c0 c1 c2 c3 : QuadNode) (pts : List Point2D)
    (d : Nat) (q : Quadrant) (k : QuadNode) (x : Point2D)
    (hx : x ∈ ((QuadNode.node b c0 c1 c2 c3 pts d).setChild q k).allPoints) :
    x ∈ k.allPoints ∨ x ∈ (QuadNode.node b c0 c1 c2 c3 pts d).allPoints := by
  revert hx
  cases q <;> simp only [QuadNode.setChild, QuadNode.allPoints, List.mem_append] <;> tauto

theorem QuadNode.HeldD_setChild {b : Box} {c0 c1 c2 c3 : QuadNode} {pts : List Point2D}
    {d : Nat} (h : (QuadNode.node b c0 c1 c2 c3 pts d).HeldD) (q : Quadrant) (k : QuadNode)
    (hk : k.HeldD) (hq : ∀ x ∈ k.allPoints, b.ContainsD x = true) :
    ((QuadNode.node b c0 c1 c2 c3 pts d).setChild q k).HeldD := by
  have hall : ∀ x ∈ ((QuadNode.node b c0 c1 c2 c3 pts d).setChild q k).allPoints,
      b.ContainsD x = true := by
    intro x hx
    rcases QuadNode.mem_setChild b c0 c1 c2 c3 pts d q k x hx with h1 | h1
    · exact hq x h1
    · unfold QuadNode.HeldD at h
      exact h.1 x h1
  unfold QuadNode.HeldD at h
  obtain ⟨_, g0, g1, g2, g3⟩ := h
  revert hall
  cases q <;> simp only [QuadNode.setChild] <;> intro hall <;> unfold QuadNode.HeldD <;>
    exact ⟨hall, by assumption, by assumption, by assumption, by assumption⟩

theorem QuadNode.perm_setChild_cons (b : Box) (c0 c1 c2 c3 : QuadNode) (pts : List Point2D)
    (d : Nat) (q : Quadrant) (k : QuadNode) (p : Point2D)
    (h : List.Perm k.allPoints (p :: ((QuadNode.node b c0 c1 c2 c3 pts d).child q).allPoints)) :
    List.Perm ((QuadNode.node b c0 c1 c2 c3 pts d).setChild q k).allPoints
      (p :: (QuadNode.node b c0 c1 c2 c3 pts d).allPoints) := by
  have h1 := QuadNode.allPoints_setChild b c0 c1 c2 c3 pts d q k
  rw [List.perm_iff_count] at h h1 ⊢
  intro a
  have e1 := h1 a
  have e2 := h a
  simp only [List.count_append, List.count_cons] at e1 e2 ⊢
  omega

theorem QuadNode.perm_setChild_same (b : Box) (c0 c1 c2 c3 : QuadNode) (pts : List Point2D)
    (d : Nat) (q : Quadrant) (k : QuadNode)
    (h : List.Perm k.allPoints ((QuadNode.node b c0 c1 c2 c3 pts d).child q).allPoints) :
    List.Perm ((QuadNode.node b c0 c1 c2 c3 pts d).setChild q k).allPoints
      (QuadNode.node b c0 c1 c2 c3 pts d).allPoints := by
  have h1 := QuadNode.allPoints_setChild b c0 c1 c2 c3 pts d q k
  rw [List.perm_iff_count] at h h1 ⊢
  intro a
  have e1 := h1 a
  have e2 := h a
  simp only [List.count_append] at e1 e2 ⊢
  omega

/-- On a tree of insert-only shape, `Insert` in `double` arithmetic returns,
keeps the shape, and either stores the point or, when a boundary on the
descent excludes it, stores nothing. -/
theorem QuadNode.InsertD_built (md mc : Nat) (p : Point2D) (n : QuadNode)
    (hs : n.Shape md mc) (ht : n.Tidy) (hf : n.Fresh md mc) (hh : n.HeldD) :
    ∃ n1, n.InsertD md mc p = some n1 ∧ n1.Shape md mc ∧ n1.Tidy ∧ n1.Fresh md mc ∧ n1.HeldD ∧
      (List.Perm n1.allPoints (p :: n.allPoints) ∨ List.Perm n1.allPoints n.allPoints) := by
  generalize hm : n.mu md = m
  induction m using Nat.strong_induction_on generalizing n with
  | _ m ih =>
    cases n with
    | null => simp [QuadNode.Shape] at hs
    | node b c0 c1 c2 c3 pts d =>
      have step : ∀ (k0 k1 k2 k3 : QuadNode),
          (QuadNode.node b k0 k1 k2 k3 pts d).Shape md mc →
          (QuadNode.node b k0 k1 k2 k3 pts d).Tidy →
          (QuadNode.node b k0 k1 k2 k3 pts d).Fresh md mc →
          (QuadNode.node b k0 k1 k2 k3 pts d).HeldD → k0 ≠ QuadNode.null →
          b.ContainsD p = true →
          (QuadNode.node b k0 k1 k2 k3 pts d).mu md ≤ (QuadNode.node b c0 c1 c2 c3 pts d).mu md ∨
            (∀ q, ∃ box, (QuadNode.node b k0 k1 k2 k3 pts d).child q = QuadNode.new box (d + 1)) →
          d ≤ md →
          ∃ k, ((QuadNode.node b k0 k1 k2 k3 pts d).child (b.GetQuadrant p)).InsertD md mc p
              = some k ∧
            ((QuadNode.node b k0 k1 k2 k3 pts d).setChild (b.GetQuadrant p) k).Shape md mc ∧
            ((QuadNode.node b k0 k1 k2 k3 pts d).setChild (b.GetQuadrant p) k).Tidy ∧
            ((QuadNode.node b k0 k1 k2 k3 pts d).setChild (b.GetQuadrant p) k).Fresh md mc ∧
            ((QuadNode.node b k0 k1 k2 k3 pts d).setChild (b.GetQuadrant p) k).HeldD ∧
            (List.Perm
                ((QuadNode.node b k0 k1 k2 k3 pts d).setChild (b.GetQuadrant p) k).allPoints
                (p :: (QuadNode.node b k0 k1 k2 k3 pts d).allPoints) ∨
              List.Perm
                ((QuadNode.node b k0 k1 k2 k3 pts d).setChild (b.GetQuadrant p) k).allPoints
                (QuadNode.node b k0 k1 k2 k3 pts d).allPoints) := by
        intro k0 k1 k2 k3 hN tN fN dN hk0 hb hmu hd
        obtain ⟨hcond, hc⟩ := QuadNode.Shape_child hN hk0 (b.GetQuadrant p)
        have g0 := (QuadNode.Shape_child hN hk0 Quadrant.NE).2
        have g1 := (QuadNode.Shape_child hN hk0 Quadrant.NW).2
        have g2 := (QuadNode.Shape_child hN hk0 Quadrant.SE).2
        have g3 := (QuadNode.Shape_child hN hk0 Quadrant.SW).2
        simp only [QuadNode.child] at g0 g1 g2 g3
        obtain ⟨_, tc, tq⟩ := QuadNode.Tidy_child tN hk0 (b.GetQuadrant p)
        have hlt : ((QuadNode.node b k0 k1 k2 k3 pts d).child (b.GetQuadrant p)).mu md < m := by
          rw [← hm]
          rcases hmu with hmu | hmu
          · exact lt_of_lt_of_le (QuadNode.mu_child_lt md b k0 k1 k2 k3 pts d _) hmu
          · obtain ⟨box, hbox⟩ := hmu (b.GetQuadrant p)
            rw [hbox]
            exact QuadNode.mu_new_lt md b box _ _ _ _ pts d hd
        obtain ⟨k, e1, ks, kt, kf, kh, kp⟩ := ih _ hlt _ hc tc
          (QuadNode.Fresh_child fN hk0 _) (QuadNode.HeldD_child dN _) rfl
        have hsub : ∀ x ∈ k.allPoints,
            x = p ∨ x ∈ ((QuadNode.node b k0 k1 k2 k3 pts d).child (b.GetQuadrant p)).allPoints := by
          intro x hx
          rcases kp with kp | kp
          · exact List.mem_cons.1 (kp.subset hx)
          · exact Or.inr (kp.subset hx)
        refine ⟨k, e1, QuadNode.Shape_setChild hcond g0 g1 g2 g3 _ k ks, ?_, ?_, ?_, ?_⟩
        · apply QuadNode.Tidy_setChild tN hk0 _ k kt
          intro x hx
          rcases hsub x hx with rfl | hx'
          · rfl
          · exact tq x hx'
        · exact QuadNode.Fresh_setChild fN hk0 _ k kf (QuadNode.Shape_ne_null ks)
        · apply QuadNode.HeldD_setChild dN _ k kh
          intro x hx
          rcases hsub x hx with rfl | hx'
          · exact hb
          · unfold QuadNode.HeldD at dN
            exact dN.1 x (QuadNode.child_subset b k0 k1 k2 k3 pts d _ hx')
        · rcases kp with kp | kp
          · exact Or.inl (QuadNode.perm_setChild_cons b k0 k1 k2 k3 pts d _ k p kp)
          · exact Or.inr (QuadNode.perm_setChild_same b k0 k1 k2 k3 pts d _ k kp)
      by_cases hb : b.ContainsD p = true
      · by_cases hcond : pts.length < mc ∧ d ≤ md
        · by_cases h0 : c0 = QuadNode.null
          · obtain ⟨h1, h2, h3⟩ := QuadNode.Shape_leaf hs h0
            subst h0 h1 h2 h3
            have hpts : pts = [] := by
              unfold QuadNode.Fresh at hf
              rcases hf with ⟨_, h | h⟩ | ⟨h, _⟩
              · exact h
              · exact absurd hcond h
              · exact absurd rfl h
            subst hpts
            obtain ⟨b0, b1, b2, b3, hsp⟩ := QuadNode.splitD_leaf b .null .null .null [] d
            rw [QuadNode.InsertD_split md mc b _ _ _ [] d p hb hcond _ hsp]
            have hN : (QuadNode.node b (QuadNode.new b0 (d + 1)) (QuadNode.new b1 (d + 1))
                (QuadNode.new b2 (d + 1)) (QuadNode.new b3 (d + 1)) [] d).Shape md mc := by
              unfold QuadNode.Shape
              exact Or.inr ⟨hcond.1, hcond.2, QuadNode.Shape_new _ _ _ _, QuadNode.Shape_new _ _ _ _,
                QuadNode.Shape_new _ _ _ _, QuadNode.Shape_new _ _ _ _⟩
            have tN : (QuadNode.node b (QuadNode.new b0 (d + 1)) (QuadNode.new b1 (d + 1))
                (QuadNode.new b2 (d + 1)) (QuadNode.new b3 (d + 1)) [] d).Tidy := by
              simp [QuadNode.Tidy, QuadNode.new, QuadNode.allPoints]
            have fN : (QuadNode.node b (QuadNode.new b0 (d + 1)) (QuadNode.new b1 (d + 1))
                (QuadNode.new b2 (d + 1)) (QuadNode.new b3 (d + 1)) [] d).Fresh md mc := by
              simp [QuadNode.Fresh, QuadNode.new]
            have dN : (QuadNode.node b (QuadNode.new b0 (d + 1)) (QuadNode.new b1 (d + 1))
                (QuadNode.new b2 (d + 1)) (QuadNode.new b3 (d + 1)) [] d).HeldD := by
              simp [QuadNode.HeldD, QuadNode.new, QuadNode.allPoints]
            obtain ⟨k, e1, s1, t1, f1, d1, p1⟩ := step _ _ _ _ hN tN fN dN
              (QuadNode.new_ne_null _ _) hb
              (Or.inr (fun q => by cases q <;> exact ⟨_, rfl⟩)) hcond.2
            rw [e1]
            have hl : (QuadNode.node b (QuadNode.new b0 (d + 1)) (QuadNode.new b1 (d + 1))
                (QuadNode.new b2 (d + 1)) (QuadNode.new b3 (d + 1)) [] d).allPoints
                = (QuadNode.node b .null .null .null .null [] d).allPoints := by
              simp [QuadNode.allPoints, QuadNode.new]
            rw [hl] at p1
            exact ⟨_, rfl, s1, t1, f1, d1, p1⟩
          · rw [QuadNode.InsertD_descend md mc b c0 c1 c2 c3 pts d p hb hcond h0]
            obtain ⟨k, e1, s1, t1, f1, d1, p1⟩ := step c0 c1 c2 c3 hs ht hf hh h0 hb
              (Or.inl (le_refl _)) hcond.2
            rw [e1]
            exact ⟨_, rfl, s1, t1, f1, d1, p1⟩
        · rw [QuadNode.InsertD_push md mc b c0 c1 c2 c3 pts d p hb hcond]
          have h0 : c0 = QuadNode.null := by
            by_contra h0
            exact hcond (QuadNode.Shape_child hs h0 Quadrant.NE).1
          obtain ⟨h1, h2, h3⟩ := QuadNode.Shape_leaf hs h0
          subst h0 h1 h2 h3
          refine ⟨_, rfl, ?_, by simp [QuadNode.Tidy], ?_, ?_, Or.inl ?_⟩
          · unfold QuadNode.Shape
            exact Or.inl ⟨rfl, rfl, rfl, rfl⟩
          · unfold QuadNode.Fresh
            refine Or.inl ⟨rfl, Or.inr ?_⟩
            intro hcon
            apply hcond
            simp only [List.length_append, List.length_singleton] at hcon
            exact ⟨by omega, hcon.2⟩
          · unfold QuadNode.HeldD at hh ⊢
            refine ⟨?_, trivial, trivial, trivial, trivial⟩
            intro x hx
            simp only [QuadNode.allPoints, List.append_nil, List.mem_append,
              List.mem_singleton] at hx
            rcases hx with hx | rfl
            · exact hh.1 x (by simpa [QuadNode.allPoints] using hx)
            · exact hb
          · simp only [QuadNode.allPoints, List.append_nil]
            exact List.perm_append_singleton p pts
      · simp only [Bool.not_eq_true] at hb
        rw [QuadNode.InsertD_out md mc b c0 c1 c2 c3 pts d p hb]
        exact ⟨_, rfl, hs, ht, hf, hh, Or.inr (List.Perm.refl _)⟩

theorem eraseFirstD_some (p : Point2D) (l l1 : List Point2D) (h : eraseFirstD p l = some l1) :
    ∃ x, x.opEqD p = true ∧ List.Perm l (x :: l1) := by
  induction l generalizing l1 with
  | nil => simp [eraseFirstD] at h
  | cons q rest ih =>
    unfold eraseFirstD at h
    by_cases hq : q.opEqD p = true
    · simp only [hq, if_true, Option.some.injEq] at h
      subst h
      exact ⟨q, hq, List.Perm.refl _⟩
    · have hq' : q.opEqD p = false := by simpa using hq
      simp only [hq', Bool.false_eq_true, if_false] at h
      cases hr : eraseFirstD p rest with
      | none => simp [hr] at h
      | some r =>
        simp only [hr, Option.some.injEq] at h
        subst h
        obtain ⟨x, hx1, hx2⟩ := ih r hr
        exact ⟨x, hx1, (List.Perm.cons q hx2).trans (List.Perm.swap x q r)⟩

/-- The recursive `Remove` in `double` arithmetic on a node of the shape
`Shape`: a failure changes nothing, a success erases one stored point that
`operator==` equates with the argument. -/
theorem QuadNode.RemoveD_perm (md mc : Nat) (p : Point2D) (n : QuadNode)
    (h : n.Shape md mc) :
    ∃ n1 f, n.RemoveD mc p = some (n1, f) ∧ n1.Shape md mc ∧ (f = false → n1 = n) ∧
      (f = true → ∃ x, x.opEqD p = true ∧ List.Perm n.allPoints (x :: n1.allPoints)) := by
  induction n with
  | null => simp [QuadNode.Shape] at h
  | node b c0 c1 c2 c3 pts d ih0 ih1 ih2 ih3 =>
    by_cases hb : b.ContainsD p = true
    · by_cases h0 : c0 = QuadNode.null
      · obtain ⟨h1, h2, h3⟩ := QuadNode.Shape_leaf h h0
        subst h0 h1 h2 h3
        rw [QuadNode.RemoveD_leaf mc b _ _ _ pts d p hb]
        cases he : eraseFirstD p pts with
        | none => exact ⟨_, false, rfl, h, fun _ => rfl, (fun hx => by cases hx)⟩
        | some r =>
          refine ⟨_, true, rfl, ?_, (fun hx => by cases hx), fun _ => ?_⟩
          · unfold QuadNode.Shape
            exact Or.inl ⟨rfl, rfl, rfl, rfl⟩
          · obtain ⟨x, hx1, hx2⟩ := eraseFirstD_some p pts r he
            exact ⟨x, hx1, by simpa [QuadNode.allPoints] using hx2⟩
      · obtain ⟨hcond, hc⟩ := QuadNode.Shape_child h h0 (b.GetQuadrant p)
        have g0 := (QuadNode.Shape_child h h0 Quadrant.NE).2
        have g1 := (QuadNode.Shape_child h h0 Quadrant.NW).2
        have g2 := (QuadNode.Shape_child h h0 Quadrant.SE).2
        have g3 := (QuadNode.Shape_child h h0 Quadrant.SW).2
        simp only [QuadNode.child] at g0 g1 g2 g3
        have ihq : ((QuadNode.node b c0 c1 c2 c3 pts d).child (b.GetQuadrant p)).Shape md mc →
            ∃ n1 f, ((QuadNode.node b c0 c1 c2 c3 pts d).child (b.GetQuadrant p)).RemoveD mc p
                = some (n1, f) ∧ n1.Shape md mc ∧
              (f = false → n1 = (QuadNode.node b c0 c1 c2 c3 pts d).child (b.GetQuadrant p)) ∧
              (f = true → ∃ x, x.opEqD p = true ∧ List.Perm
                ((QuadNode.node b c0 c1 c2 c3 pts d).child (b.GetQuadrant p)).allPoints
                (x :: n1.allPoints)) := by
          cases b.GetQuadrant p <;> simp only [QuadNode.child] <;> assumption
        obtain ⟨k2, f, e1, s1, f1, t1⟩ := ihq hc
        rw [QuadNode.RemoveD_descend mc b c0 c1 c2 c3 pts d p hb h0, e1]
        cases f with
        | false =>
          simp only [Bool.false_eq_true, if_false]
          rw [f1 rfl, QuadNode.setChild_child]
          exact ⟨_, false, rfl, h, fun _ => rfl, (fun hx => by cases hx)⟩
        | true =>
          simp only [if_true]
          obtain ⟨n3, f3, e3, s3, l3⟩ := QuadNode.TryMerge_shape md mc _
            (QuadNode.Shape_setChild hcond g0 g1 g2 g3 (b.GetQuadrant p) k2 s1)
          rw [e3]
          refine ⟨n3, true, rfl, s3, (fun hx => by cases hx), fun _ => ?_⟩
          obtain ⟨x, hx1, hx2⟩ := t1 rfl
          refine ⟨x, hx1, ?_⟩
          rw [l3]
          have a1 := QuadNode.allPoints_setChild b c0 c1 c2 c3 pts d (b.GetQuadrant p) k2
          rw [List.perm_iff_count] at a1 hx2 ⊢
          intro a
          have e4 := a1 a
          have e5 := hx2 a
          simp only [List.count_append, List.count_cons] at e4 e5 ⊢
          omega
    · simp only [Bool.not_eq_true] at hb
      rw [QuadNode.RemoveD_out mc b c0 c1 c2 c3 pts d p hb]
      exact ⟨_, false, rfl, h, fun _ => rfl, (fun hx => by cases hx)⟩

/-- In a tidy tree whose boundaries contain the points below them, the
recursive `Remove` in `double` arithmetic of a stored point reports true. -/
theorem QuadNode.RemoveD_found (md mc : Nat) (p : Point2D) (n : QuadNode)
    (hs : n.Shape md mc) (ht : n.Tidy) (hh : n.HeldD) (hp : p ∈ n.allPoints) :
    ∃ n1, n.RemoveD mc p = some (n1, true) := by
  induction n with
  | null => simp [QuadNode.Shape] at hs
  | node b c0 c1 c2 c3 pts d ih0 ih1 ih2 ih3 =>
    have hb : b.ContainsD p = true := by
      unfold QuadNode.HeldD at hh
      exact hh.1 p hp
    by_cases h0 : c0 = QuadNode.null
    · obtain ⟨h1, h2, h3⟩ := QuadNode.Shape_leaf hs h0
      subst h0 h1 h2 h3
      rw [QuadNode.RemoveD_leaf mc b _ _ _ pts d p hb]
      have hp' : p ∈ pts := by simpa [QuadNode.allPoints] using hp
      obtain ⟨r, hr⟩ := eraseFirstD_self p pts hp'
      rw [hr]
      exact ⟨_, rfl⟩
    · obtain ⟨hcond, hc⟩ := QuadNode.Shape_child hs h0 (b.GetQuadrant p)
      obtain ⟨tp, tc, tq⟩ := QuadNode.Tidy_child ht h0 (b.GetQuadrant p)
      have hhc := QuadNode.HeldD_child hh (b.GetQuadrant p)
      have hmem : p ∈ ((QuadNode.node b c0 c1 c2 c3 pts d).child (b.GetQuadrant p)).allPoints := by
        have t0 := (QuadNode.Tidy_child ht h0 Quadrant.NE).2.2
        have t1 := (QuadNode.Tidy_child ht h0 Quadrant.NW).2.2
        have t2 := (QuadNode.Tidy_child ht h0 Quadrant.SE).2.2
        have t3 := (QuadNode.Tidy_child ht h0 Quadrant.SW).2.2
        simp only [QuadNode.child] at t0 t1 t2 t3
        subst tp
        simp only [QuadNode.allPoints, List.nil_append, List.mem_append] at hp
        rcases hp with hp | hp | hp | hp
        · rw [t0 p hp]; exact hp
        · rw [t1 p hp]; exact hp
        · rw [t2 p hp]; exact hp
        · rw [t3 p hp]; exact hp
      have ihq : ∃ k, ((QuadNode.node b c0 c1 c2 c3 pts d).child (b.GetQuadrant p)).RemoveD mc p
          = some (k, true) := by
        revert hc tc hhc hmem
        cases b.GetQuadrant p <;> simp only [QuadNode.child] <;> intro hc tc hhc hmem
        · exact ih0 hc tc hhc hmem
        · exact ih1 hc tc hhc hmem
        · exact ih2 hc tc hhc hmem
        · exact ih3 hc tc hhc hmem
      obtain ⟨k, hk⟩ := ihq
      obtain ⟨k2, f, e1, s1, f1, t1⟩ := QuadNode.RemoveD_shape md mc p _ hc
      rw [hk] at e1
      simp only [Option.some.injEq, Prod.mk.injEq] at e1
      obtain ⟨rfl, rfl⟩ := e1
      obtain ⟨n2, e2, _⟩ := QuadNode.RemoveD_step hs hb h0 _ k true hc hk s1 f1 t1
      rw [QuadNode.setChild_child] at e2
      exact ⟨n2, e2⟩

/-- The recursive `Search` in `double` arithmetic on a node of the shape
`Shape` returns and appends only stored points that the range contains, none
more often than it is stored. -/
theorem QuadNode.SearchD_bound (md mc : Nat) (range : Box) (n : QuadNode) (h : n.Shape md mc) :
    ∀ vals, ∃ r, n.SearchD range vals = some (vals ++ r) ∧
      ∀ x, r.count x ≤ (n.allPoints.filter (fun q => range.ContainsD q)).count x := by
  induction n with
  | null => simp [QuadNode.Shape] at h
  | node b c0 c1 c2 c3 pts d ih0 ih1 ih2 ih3 =>
    intro vals
    by_cases hi : b.IntersectionD range = true
    · by_cases h0 : c0 = QuadNode.null
      · refine ⟨pts.filter (fun q => range.ContainsD q), by simp [QuadNode.SearchD, hi, h0], ?_⟩
        intro x
        simp only [QuadNode.allPoints, List.filter_append, List.count_append]
        omega
      · have g0 := (QuadNode.Shape_child h h0 Quadrant.NE).2
        have g1 := (QuadNode.Shape_child h h0 Quadrant.NW).2
        have g2 := (QuadNode.Shape_child h h0 Quadrant.SE).2
        have g3 := (QuadNode.Shape_child h h0 Quadrant.SW).2
        simp only [QuadNode.child] at g0 g1 g2 g3
        obtain ⟨r0, e0, b0⟩ := ih0 g0 vals
        obtain ⟨r1, e1, b1⟩ := ih1 g1 (vals ++ r0)
        obtain ⟨r2, e2, b2⟩ := ih2 g2 (vals ++ r0 ++ r1)
        obtain ⟨r3, e3, b3⟩ := ih3 g3 (vals ++ r0 ++ r1 ++ r2)
        refine ⟨r0 ++ (r1 ++ (r2 ++ r3)), ?_, ?_⟩
        · simp only [QuadNode.SearchD, hi, Bool.not_true, Bool.false_eq_true, if_false, h0, e0,
            e1, e2, e3]
          simp only [List.append_assoc]
        · intro x
          have a0 := b0 x
          have a1 := b1 x
          have a2 := b2 x
          have a3 := b3 x
          simp only [QuadNode.allPoints, List.filter_append, List.count_append]
          omega
    · refine ⟨[], by simp [QuadNode.SearchD, hi], ?_⟩
      intro x
      simp

/-- Inserting a list of points in `double` arithmetic into a tree of
insert-only shape returns a tree of that shape that stores only inserted
points, none more often than it was inserted. -/
theorem QuadTree.InsertAllD_built (L : List Point2D) :
    ∀ (t : QuadTree) (L0 : List Point2D), t.root.Shape t.maxDepth t.maxChildren → t.root.Tidy →
      t.root.Fresh t.maxDepth t.maxChildren → t.root.HeldD →
      (∀ a, t.root.allPoints.count a ≤ L0.count a) →
      ∃ t1, t.InsertAllD L = some t1 ∧ t1.maxDepth = t.maxDepth ∧
        t1.maxChildren = t.maxChildren ∧ t1.root.Shape t.maxDepth t.maxChildren ∧
        t1.root.Tidy ∧ t1.root.HeldD ∧
        ∀ a, t1.root.allPoints.count a ≤ (L0 ++ L).count a := by
  induction L with
  | nil =>
    intro t L0 hs ht _ hh hc
    exact ⟨t, rfl, rfl, rfl, hs, ht, hh, by simpa using hc⟩
  | cons p rest ih =>
    intro t L0 hs ht hf hh hc
    obtain ⟨n1, e1, s1, t1, f1, d1, p1⟩ :=
      QuadNode.InsertD_built t.maxDepth t.maxChildren p t.root hs ht hf hh
    have hc1 : ∀ a, n1.allPoints.count a ≤ (L0 ++ [p]).count a := by
      intro a
      have := hc a
      rcases p1 with p1 | p1
      · rw [p1.count_eq]
        simp only [List.count_append, List.count_cons, List.count_nil]
        omega
      · rw [p1.count_eq]
        simp only [List.count_append]
        omega
    obtain ⟨t2, e2, m1, m2, s2, t2', d2, c2⟩ := ih { t with root := n1 } (L0 ++ [p]) s1 t1 f1 d1 hc1
    refine ⟨t2, ?_, m1, m2, s2, t2', d2, ?_⟩
    · simp only [QuadTree.InsertAllD, QuadTree.InsertD, e1]
      exact e2
    · intro a
      have := c2 a
      simpa using this

theorem List.count_filter_le_of_count_le {l1 l2 : List Point2D} (f : Point2D → Bool)
    (h : ∀ a, l1.count a ≤ l2.count a) (a : Point2D) :
    (l1.filter f).count a ≤ (l2.filter f).count a := by
  by_cases hf : f a = true
  · rw [List.count_filter hf, List.count_filter hf]
    exact h a
  · have : (l1.filter f).count a = 0 := by
      rw [List.count_eq_zero]
      intro hm
      exact hf (List.mem_filter.1 hm).2
    omega

/-- In `double` arithmetic, in a tree built from a fresh tree by inserting a
list `L`, after `Remove(p)` of a point `p` that occurs once in `L` and that
`operator==` equates with no other element of `L`, `Search(range)` returns
only elements of `L` other than `p` that the range contains, none more often
than it occurs in `L`, and does not return `p`. -/
theorem QuadTree.BuiltD_remove_search (x y w h : ℚ) (md mc : Nat) (L : List Point2D)
    (p : Point2D) (h1 : L.count p = 1) (htol : ∀ q ∈ L, q.opEqD p = true → q = p)
    (range : Box) :
    ∃ t1 t2 r, (QuadTree.new x y w h md mc).InsertAllD L = some t1 ∧
      t1.RemoveD p = some t2 ∧ t2.SearchD range [] = some r ∧ p ∉ r ∧
      ∀ a, r.count a ≤ ((L.erase p).filter (fun q => range.ContainsD q)).count a := by
  obtain ⟨t1, e1, m1, m2, s1, ti1, d1, c1⟩ := QuadTree.InsertAllD_built L
    (QuadTree.new x y w h md mc) [] (QuadNode.Shape_new _ _ _ _) (QuadNode.Tidy_new _ _)
    (QuadNode.Fresh_new _ _ _ _) (QuadNode.HeldD_new _ _)
    (by intro a; simp [QuadTree.new, QuadNode.new, QuadNode.allPoints])
  simp only [List.nil_append] at c1
  have hmd : (QuadTree.new x y w h md mc).maxDepth = md := rfl
  have hmc : (QuadTree.new x y w h md mc).maxChildren = mc := rfl
  rw [hmd, hmc] at s1
  rw [hmc] at m2
  have hu : ∀ q ∈ t1.root.allPoints, q.opEqD p = true → q = p := by
    intro q hq
    apply htol q
    have := c1 q
    have h2 : 0 < t1.root.allPoints.count q := List.count_pos_iff.2 hq
    exact List.count_pos_iff.1 (by omega)
  obtain ⟨n1, f, e2, s2, ff, ft⟩ := QuadNode.RemoveD_perm md mc p t1.root s1
  have hcount : ∀ a, n1.allPoints.count a ≤ (L.erase p).count a := by
    intro a
    have hca := c1 a
    cases f with
    | true =>
      obtain ⟨x0, hx1, hx2⟩ := ft rfl
      have hx : x0 = p := hu x0 (hx2.symm.subset (List.mem_cons_self _ _)) hx1
      subst hx
      have e3 := hx2.count_eq a
      by_cases hap : a = x0
      · subst hap
        rw [List.count_erase_self]
        simp only [List.count_cons_self] at e3
        omega
      · rw [List.count_erase_of_ne hap]
        rw [List.count_cons_of_ne hap] at e3
        omega
    | false =>
      rw [ff rfl]
      have hnot : p ∉ t1.root.allPoints := by
        intro hp
        obtain ⟨n2, e3⟩ := QuadNode.RemoveD_found md mc p t1.root s1 ti1 d1 hp
        rw [e3] at e2
        simp at e2
      by_cases hap : a = p
      · subst hap
        rw [List.count_eq_zero.2 hnot]
        omega
      · rw [List.count_erase_of_ne hap]
        exact hca
  obtain ⟨r, e4, b4⟩ := QuadNode.SearchD_bound md mc range n1 s2 []
  rw [List.nil_append] at e4
  have hb : ∀ a, r.count a ≤ ((L.erase p).filter (fun q => range.ContainsD q)).count a := by
    intro a
    exact le_trans (b4 a) (List.count_filter_le_of_count_le _ hcount a)
  refine ⟨t1, { t1 with root := n1 }, r, e1, ?_, e4, ?_, hb⟩
  · simp [QuadTree.RemoveD, m2, e2]
  · rw [← List.count_eq_zero]
    have h3 := hb p
    have h4 : ((L.erase p).filter (fun q => range.ContainsD q)).count p ≤ (L.erase p).count p :=
      List.Sublist.count_le (List.filter_sublist _) p
    rw [List.count_erase_self] at h4
    omega

/-- C3, amended: in a tree built from a fresh tree by inserting a list `L` in
which `p` occurs once, after `Remove(p)` and for every range: in `double`
arithmetic, when `operator==` equates no other element of `L` with `p`,
`Search(range)` returns only elements of `L` other than `p` that the range
contains, none more often than it occurs in `L`, and does not return `p`;
treating coordinates as exact numbers, when the points of `L` lie in the root
boundary and `operator==` equates no other element of `L` with `p`,
`Search(range)` returns, as a multiset, exactly the elements of `L` other than
`p` that the range contains, and so does not return `p`. -/
theorem C3_remove_then_search (x y w h : ℚ) (md mc : Nat) (L : List Point2D) (p : Point2D)
    (h1 : L.count p = 1) (range : Box) :
    ((∀ q ∈ L, q.opEqD p = true → q = p) →
      ∃ t1 t2 r, (QuadTree.new x y w h md mc).InsertAllD L = some t1 ∧
        t1.RemoveD p = some t2 ∧ t2.SearchD range [] = some r ∧ p ∉ r ∧
        ∀ a, r.count a ≤ ((L.erase p).filter (fun q => range.ContainsD q)).count a) ∧
    ((∀ q ∈ L, (Box.new x y w h).Contains q = true) → (∀ q ∈ L, q.opEq p = true → q = p) →
      ∃ t1 t2 r, (QuadTree.new x y w h md mc).InsertAll L = some t1 ∧ t1.Remove p = some t2 ∧
        t2.Search range [] = some r ∧
        List.Perm r ((L.erase p).filter (fun point => range.Contains point)) ∧ p ∉ r) :=
  ⟨fun htol => QuadTree.BuiltD_remove_search x y w h md mc L p h1 htol range,
    fun hL htol => QuadTree.remove_then_search x y w h md mc L hL p h1 htol range⟩

set_option maxRecDepth 100000 in
theorem C3_remove_then_search_witness :
    ([⟨10, 10⟩, ⟨-10, 10⟩] : List Point2D).count ⟨10, 10⟩ = 1 ∧
    (∀ q ∈ ([⟨10, 10⟩, ⟨-10, 10⟩] : List Point2D), q.opEqD ⟨10, 10⟩ = true → q = ⟨10, 10⟩) ∧
    (∀ q ∈ ([⟨10, 10⟩, ⟨-10, 10⟩] : List Point2D), (Box.new 0 0 100 100).Contains q = true) ∧
    (∀ q ∈ ([⟨10, 10⟩, ⟨-10, 10⟩] : List Point2D), q.opEq ⟨10, 10⟩ = true → q = ⟨10, 10⟩) ∧
    (∃ t1 t2 r, (QuadTree.new 0 0 100 100 4 4).InsertAllD [⟨10, 10⟩, ⟨-10, 10⟩] = some t1 ∧
      t1.RemoveD ⟨10, 10⟩ = some t2 ∧
      t2.SearchD (Box.new 0 0 100 100) [] = some r ∧ (⟨10, 10⟩ : Point2D) ∉ r ∧
      ∀ a, r.count a ≤ ((([⟨10, 10⟩, ⟨-10, 10⟩] : List Point2D).erase ⟨10, 10⟩).filter
        (fun q => (Box.new 0 0 100 100).ContainsD q)).count a) ∧
    (∃ t1 t2 r, (QuadTree.new 0 0 100 100 4 4).InsertAll [⟨10, 10⟩, ⟨-10, 10⟩] = some t1 ∧
      t1.Remove ⟨10, 10⟩ = some t2 ∧
      t2.Search (Box.new 0 0 100 100) [] = some r ∧
      List.Perm r ((([⟨10, 10⟩, ⟨-10, 10⟩] : List Point2D).erase ⟨10, 10⟩).filter
        (fun point => (Box.new 0 0 100 100).Contains point)) ∧ (⟨10, 10⟩ : Point2D) ∉ r) := by
  have h1 : ([⟨10, 10⟩, ⟨-10, 10⟩] : List Point2D).count ⟨10, 10⟩ = 1 := by
    rw [List.count_cons_self, List.count_cons_of_ne (by simp; norm_num), List.count_nil]
  have hD : ∀ q ∈ ([⟨10, 10⟩, ⟨-10, 10⟩] : List Point2D),
      q.opEqD ⟨10, 10⟩ = true → q = ⟨10, 10⟩ := by
    intro q hq
    simp only [List.mem_cons, List.mem_singleton, List.not_mem_nil, or_false] at hq
    rcases hq with rfl | rfl
    · intro _; rfl
    · intro h
      have hf : (⟨-10, 10⟩ : Point2D).opEqD ⟨10, 10⟩ = false := by with_unfolding_all decide
      rw [hf] at h
      cases h
  have hL : ∀ q ∈ ([⟨10, 10⟩, ⟨-10, 10⟩] : List Point2D),
      (Box.new 0 0 100 100).Contains q = true := by
    intro q hq
    simp only [List.mem_cons, List.mem_singleton, List.not_mem_nil, or_false] at hq
    rcases hq with rfl | rfl <;> norm_num [Box.Contains, Box.new]
  have hE : ∀ q ∈ ([⟨10, 10⟩, ⟨-10, 10⟩] : List Point2D),
      q.opEq ⟨10, 10⟩ = true → q = ⟨10, 10⟩ := by
    intro q hq
    simp only [List.mem_cons, List.mem_singleton, List.not_mem_nil, or_false] at hq
    rcases hq with rfl | rfl
    · intro _; rfl
    · intro h
      exfalso
      simp only [Point2D.opEq, EPSILON, Bool.and_eq_true, decide_eq_true_eq] at h
      have := h.1
      rw [abs_lt] at this
      norm_num at this
  exact ⟨h1, hD, hL, hE,
    (C3_remove_then_search 0 0 100 100 4 4 [⟨10, 10⟩, ⟨-10, 10⟩] ⟨10, 10⟩ h1
      (Box.new 0 0 100 100)).1 hD,
    (C3_remove_then_search 0 0 100 100 4 4 [⟨10, 10⟩, ⟨-10, 10⟩] ⟨10, 10⟩ h1
      (Box.new 0 0 100 100)).2 hL hE⟩

/-- The round trip in `double` arithmetic: in every tree reachable in `double`
arithmetic and for every point, `Insert` and the recursive `Remove` of the
point return, and the number of stored points afterwards is the number before
the `Insert`. -/
theorem QuadTree.InsertD_RemoveD_count (u : QuadTree) (hu : ReachableD u) (Q : Point2D) :
    ∃ u1 r2 f, u.InsertD Q = some u1 ∧
      u1.root.RemoveD u1.maxChildren Q = some (r2, f) ∧
      u1.RemoveD Q = some { u1 with root := r2 } ∧
      r2.allPoints.length = u.root.allPoints.length ∧
      (f = true → u1.root.allPoints.length = u.root.allPoints.length + 1) ∧
      (f = false → u1.root.allPoints.length = u.root.allPoints.length ∧ r2 = u1.root) := by
  obtain ⟨n1, e1, _, n2, f, e2, _, l2, t2, f2⟩ :=
    QuadNode.InsertD_spec u.maxDepth u.maxChildren Q u.root hu.shape
  refine ⟨{ u with root := n1 }, n2, f, by simp [QuadTree.InsertD, e1], e2, ?_, l2, t2, f2⟩
  simp [QuadTree.RemoveD, e2]

/-- C4, amended: in every tree reachable in `double` arithmetic and for every
point `Q`, after `Insert(Q)` and `Remove(Q)` the number of stored points is the
number before the `Insert`: either the `Insert` stored exactly one point and
the recursive `Remove` reports true and erases exactly one, or the `Insert`
stored none and the `Remove` reports false and changes nothing. Treating
coordinates as exact numbers, in every reachable tree `Insert(P)` of a point
of the root boundary stores exactly one more point and the recursive
`Remove(P)` reports true and erases exactly one. -/
theorem C4_insert_remove_count (u : QuadTree) (hu : ReachableD u) (Q : Point2D)
    (t : QuadTree) (h : Reachable t) (b : Box)
    (hb : t.root.boundaryOf = some b) (P : Point2D) (hp : b.Contains P = true) :
    (∃ u1 r2 f, u.InsertD Q = some u1 ∧
      u1.root.RemoveD u1.maxChildren Q = some (r2, f) ∧
      u1.RemoveD Q = some { u1 with root := r2 } ∧
      r2.allPoints.length = u.root.allPoints.length ∧
      (f = true → u1.root.allPoints.length = u.root.allPoints.length + 1) ∧
      (f = false → u1.root.allPoints.length = u.root.allPoints.length ∧ r2 = u1.root)) ∧
    (∃ t1 r2, t.Insert P = some t1 ∧
      t1.root.Remove t1.maxChildren P = some (r2, true) ∧
      t1.Remove P = some { t1 with root := r2 } ∧
      t1.root.allPoints.length = t.root.allPoints.length + 1 ∧
      r2.allPoints.length = t.root.allPoints.length) :=
  ⟨QuadTree.InsertD_RemoveD_count u hu Q, QuadTree.Insert_Remove_count t h b hb P hp⟩

theorem C4_insert_remove_count_witness :
    ReachableD (QuadTree.new 0 0 (roundDouble (4 / 10)) (roundDouble (4 / 10)) 1 4) ∧
    Reachable (QuadTree.new 0 0 100 100 4 4) ∧
    (Box.new 0 0 100 100).Contains ⟨10, 10⟩ = true ∧
    (∃ u1 r2 f, (QuadTree.new 0 0 (roundDouble (4 / 10)) (roundDouble (4 / 10)) 1 4).InsertD
        ⟨tenth, tenth⟩ = some u1 ∧
      u1.root.RemoveD u1.maxChildren ⟨tenth, tenth⟩ = some (r2, f) ∧
      u1.RemoveD ⟨tenth, tenth⟩ = some { u1 with root := r2 } ∧
      r2.allPoints.length
        = (QuadTree.new 0 0 (roundDouble (4 / 10)) (roundDouble (4 / 10)) 1 4).root.allPoints.length ∧
      (f = true → u1.root.allPoints.length
        = (QuadTree.new 0 0 (roundDouble (4 / 10)) (roundDouble (4 / 10)) 1
            4).root.allPoints.length + 1) ∧
      (f = false → u1.root.allPoints.length
        = (QuadTree.new 0 0 (roundDouble (4 / 10)) (roundDouble (4 / 10)) 1
            4).root.allPoints.length ∧ r2 = u1.root)) ∧
    (∃ t1 r2, (QuadTree.new 0 0 100 100 4 4).Insert ⟨10, 10⟩ = some t1 ∧
      t1.root.Remove t1.maxChildren ⟨10, 10⟩ = some (r2, true) ∧
      t1.Remove ⟨10, 10⟩ = some { t1 with root := r2 } ∧
      t1.root.allPoints.length = (QuadTree.new 0 0 100 100 4 4).root.allPoints.length + 1 ∧
      r2.allPoints.length = (QuadTree.new 0 0 100 100 4 4).root.allPoints.length) :=
  ⟨ReachableD.new _ _ _ _ 1 4, Reachable.new 0 0 100 100 4 4,
    by norm_num [Box.Contains, Box.new],
    C4_insert_remove_count (QuadTree.new 0 0 (roundDouble (4 / 10)) (roundDouble (4 / 10)) 1 4)
      (ReachableD.new _ _ _ _ 1 4) ⟨tenth, tenth⟩
      (QuadTree.new 0 0 100 100 4 4) (Reachable.new 0 0 100 100 4 4)
      (Box.new 0 0 100 100) rfl ⟨10, 10⟩ (by norm_num [Box.Contains, Box.new])⟩

/-- C16, amended: with `maxChildren >= 1`, in a tree built from a fresh tree by
`Insert` calls only, in `double` arithmetic as well as in exact arithmetic,
every non-empty bucket belongs to a leaf at depth exactly `maxDepth + 1` and
every node at depth at most `maxDepth` has an empty bucket; treating
coordinates as exact numbers, a single `Insert` of a point of the boundary
into the fresh tree puts it in a leaf at depth `maxDepth + 1` below an
interior node at every depth from 0 to `maxDepth`. -/
theorem C16_insert_subdivides (x y w h : ℚ) (md mc : Nat) (hmc : 1 ≤ mc) (L : List Point2D) :
    (∃ t1, (QuadTree.new x y w h md mc).InsertAllD L = some t1 ∧
      ∀ m ∈ t1.root.nodes,
        (m.pointsOf ≠ [] → m.IsLeaf = some true ∧ m.depthOf = md + 1) ∧
        (m.depthOf ≤ md → m.pointsOf = [])) ∧
    (∃ t1, (QuadTree.new x y w h md mc).InsertAll L = some t1 ∧
      ∀ m ∈ t1.root.nodes,
        (m.pointsOf ≠ [] → m.IsLeaf = some true ∧ m.depthOf = md + 1) ∧
        (m.depthOf ≤ md → m.pointsOf = [])) ∧
    (∀ p, (Box.new x y w h).Contains p = true →
      ∃ t2, (QuadTree.new x y w h md mc).Insert p = some t2 ∧
        (∃ m ∈ t2.root.nodes, p ∈ m.pointsOf ∧ m.IsLeaf = some true ∧ m.depthOf = md + 1) ∧
        ∀ k, k ≤ md → ∃ a ∈ t2.root.nodes, a.depthOf = k ∧ a.IsLeaf = some false) := by
  refine ⟨?_, QuadTree.Insert_subdivides x y w h md mc hmc L⟩
  obtain ⟨t1, e1, _, g1⟩ := QuadTree.InsertAllD_grown L (QuadTree.new x y w h md mc) hmc
    (QuadNode.Grown_new md _ 0 (by omega))
  exact ⟨t1, e1, QuadNode.Grown_nodes md t1.root g1⟩

theorem C16_insert_subdivides_witness :
    (∃ t1, (QuadTree.new 0 0 (roundDouble (4 / 10)) (roundDouble (4 / 10)) 5 4).InsertAllD
        [⟨tenth, tenth⟩, ⟨-tenth, -tenth⟩] = some t1 ∧
      ∀ m ∈ t1.root.nodes,
        (m.pointsOf ≠ [] → m.IsLeaf = some true ∧ m.depthOf = 5 + 1) ∧
        (m.depthOf ≤ 5 → m.pointsOf = [])) ∧
    (∃ t1, (QuadTree.new 0 0 (roundDouble (4 / 10)) (roundDouble (4 / 10)) 5 4).InsertAll
        [⟨tenth, tenth⟩, ⟨-tenth, -tenth⟩] = some t1 ∧
      ∀ m ∈ t1.root.nodes,
        (m.pointsOf ≠ [] → m.IsLeaf = some true ∧ m.depthOf = 5 + 1) ∧
        (m.depthOf ≤ 5 → m.pointsOf = [])) ∧
    (∀ p, (Box.new 0 0 (roundDouble (4 / 10)) (roundDouble (4 / 10))).Contains p = true →
      ∃ t2, (QuadTree.new 0 0 (roundDouble (4 / 10)) (roundDouble (4 / 10)) 5 4).Insert p
          = some t2 ∧
        (∃ m ∈ t2.root.nodes, p ∈ m.pointsOf ∧ m.IsLeaf = some true ∧ m.depthOf = 5 + 1) ∧
        ∀ k, k ≤ 5 → ∃ a ∈ t2.root.nodes, a.depthOf = k ∧ a.IsLeaf = some false) :=
  C16_insert_subdivides 0 0 (roundDouble (4 / 10)) (roundDouble (4 / 10)) 5 4 (by decide)
    [⟨tenth, tenth⟩, ⟨-tenth, -tenth⟩]

end QT
